import Mathlib

/-!
Verification development for the report post-processing engine of the
DataProfiler repository (`dataprofiler/profilers/helpers/report_helpers.py`).

The three functions of that module are shallowly embedded here:

* `calculate_quantiles` — the quantile binner;
* `flat_dictF`          — the recursive dictionary flattener `flat_dict`;
* `_prepare_report`     — the recursive report transformer.

Python values that can occur in a report are modelled by the inductive type
`Value` (scalars, sets, lists, numpy arrays, nested dictionaries).  Python
dictionaries are modelled as insertion-ordered association lists, which is
faithful for dictionaries with distinct keys.  Python floats are idealized as
rationals; the float-sensitive textual renderings are explicitly abstracted
(see `elemStr`) and no theorem below depends on the rendering of a float.

The recursive transformer is embedded with an explicit fuel parameter so that
every definition is executable and kernel-reducible.  The result type `PRes`
distinguishes three outcomes: `.ok v` (normal return), `.error` (a Python
exception such as `KeyError`/`TypeError`/`IndexError`) and `.timeout` (fuel
exhaustion, which never occurs for sufficiently large fuel — proved below).
-/

/-- Result of running an embedded fragment of Python code: normal return,
raised exception, or fuel exhaustion of the embedding. -/
inductive PRes (α : Type) where
  | timeout : PRes α
  | error : PRes α
  | ok : α → PRes α

def PRes.bind {α β : Type} : PRes α → (α → PRes β) → PRes β
  | .timeout, _ => .timeout
  | .error, _ => .error
  | .ok v, f => f v

instance : Monad PRes where
  pure := PRes.ok
  bind := PRes.bind

/-- Extracts the value of a normal return. -/
def PRes.getOk {α : Type} : PRes α → Option α
  | .ok v => some v
  | _ => none

/-- Model of the Python values occurring in a profiling report: scalars
(strings, ints, floats, bools, None), sets, lists, numpy arrays and nested
dictionaries.  Python floats are idealized as rationals. -/
inductive Value where
  | vstr : String → Value
  | vint : Int → Value
  | vfloat : Rat → Value
  | vbool : Bool → Value
  | vnone : Value
  | vlist : List Value → Value
  | vndarray : List Value → Value
  | vset : List Value → Value
  | vdict : List (String × Value) → Value

/-! ### Character-level string helpers

Core `String` functions such as `String.splitOn` are not kernel-reducible in
this toolchain, so the string operations used by the source are re-implemented
structurally over `String.data`. -/

/-- ASCII lower-casing of one character (`str.lower` restricted to ASCII,
which covers every format-mode string the source compares against). -/
def charLower (c : Char) : Char :=
  if 'A' ≤ c ∧ c ≤ 'Z' then Char.ofNat (c.toNat + 32) else c

/-- Models Python `str.lower()` (ASCII range). -/
def strLower (s : String) : String := ⟨s.data.map charLower⟩

/-- Splits a character list at every `'.'`; models `str.split(".")`. -/
def splitCharsDot : List Char → List (List Char)
  | [] => [[]]
  | c :: rest =>
      let r := splitCharsDot rest
      if c = '.' then [] :: r
      else
        match r with
        | [] => [[c]]
        | g :: gs => (c :: g) :: gs

/-- Models Python `omit_key.split(".")`. -/
def splitDotSegs (s : String) : List String :=
  (splitCharsDot s.data).map (fun cs => ⟨cs⟩)

/-- Joins segments with `'.'`; models Python `".".join(segments)`. -/
def joinDots : List String → String
  | [] => ""
  | [x] => x
  | x :: rest => x ++ "." ++ joinDots rest

/-- Models Python `omit_key.split(".", 1)`: the first segment together with
the remainder after the first dot (if a dot is present). -/
def splitDot1 (s : String) : String × Option String :=
  match splitDotSegs s with
  | [] => (s, none)
  | [x] => (x, none)
  | x :: rest => (x, some (joinDots rest))

/-- Models Python `str.isdigit()` (ASCII digits, non-empty). -/
def isDigitStr (s : String) : Bool :=
  !s.data.isEmpty && s.data.all (fun c => '0' ≤ c && c ≤ '9')

/-- Value of a decimal digit string; models Python `int(s)` on digit
strings (leading zeros allowed). -/
def digitsToNat (s : String) : Nat :=
  s.data.foldl (fun n c => n * 10 + (c.toNat - '0'.toNat)) 0

/-- Decimal digits of a natural number, via a fuel bound that is always
sufficient. -/
def natToChars : Nat → Nat → List Char
  | 0, _ => []
  | f + 1, n =>
      if n < 10 then [Char.ofNat ('0'.toNat + n)]
      else natToChars f (n / 10) ++ [Char.ofNat ('0'.toNat + n % 10)]

/-- Decimal rendering of a natural number; models Python `str(n)` for
`n ≥ 0`. -/
def natToStr (n : Nat) : String := ⟨natToChars (n + 1) n⟩

/-- Decimal rendering of an integer; models Python `str(i)` for `int`. -/
def intToStr (i : Int) : String :=
  if i < 0 then "-" ++ natToStr (-i).toNat else natToStr i.toNat

/-- Models Python `str(x)` for the values the source passes to `str`
(the entries of a `profile_schema` index list, which are ints in every
well-formed report; the renderings of the remaining cases are stand-ins
that no theorem below relies on). -/
def pyStr : Value → String
  | .vint n => intToStr n
  | .vstr s => s
  | .vbool b => if b then "True" else "False"
  | .vnone => "None"
  | .vfloat q => intToStr q.num ++ "/" ++ natToStr q.den
  | .vlist _ => "<list>"
  | .vndarray _ => "<ndarray>"
  | .vset _ => "<set>"
  | .vdict _ => "<dict>"

/-- Models the Python string slice `s[:-1]`, for nonempty strings. -/
def pyDropLast (s : String) : String := ⟨s.data.dropLast⟩

/-- Models the Python string slice `s[1:]`. -/
def pyDropFirst (s : String) : String := ⟨s.data.drop 1⟩

/-- Models Python `str.replace(' ', '_')`. -/
def strReplaceSpace (s : String) : String :=
  ⟨s.data.map (fun c => if c = ' ' then '_' else c)⟩

/-! ### Dictionary lookup, iteration and set sorting -/

/-- Lookup in an insertion-ordered association list; models `d[k]` for a
Python dict with distinct keys (`none` models a `KeyError`). -/
def lookupKey : List (String × Value) → String → Option Value
  | [], _ => none
  | (k, v) :: rest, key => if k = key then some v else lookupKey rest key

/-- Models Python iteration `for i in x`: lists, arrays and sets iterate their
elements (the stored order of a set stands in for Python's unspecified hash
order), strings iterate their characters, dicts iterate their keys; iterating
a scalar raises `TypeError` (`none`). -/
def pyIter : Value → Option (List Value)
  | .vlist l => some l
  | .vndarray l => some l
  | .vset l => some l
  | .vstr s => some (s.data.map (fun c => Value.vstr ⟨[c]⟩))
  | .vdict kvs => some (kvs.map (fun p => Value.vstr p.1))
  | _ => none

/-- Comparison used to model Python `sorted` on the homogeneous scalar sets
that occur in reports (numbers compare numerically, strings
lexicographically, False < True).  Heterogeneous or container cases, on
which Python `sorted` raises `TypeError`, get an arbitrary fixed answer:
this error path is not modelled, so every theorem below that concludes the
absence of a raise restricts set values to `sortable` contents (at most one
element, or homogeneous numbers / strings / booleans), on which `sorted`
provably does not raise. -/
def valueLe : Value → Value → Bool
  | .vint a, .vint b => decide (a ≤ b)
  | .vint a, .vfloat b => decide ((a : Rat) ≤ b)
  | .vfloat a, .vint b => decide (a ≤ (b : Rat))
  | .vfloat a, .vfloat b => decide (a ≤ b)
  | .vstr a, .vstr b => decide (a < b) || decide (a = b)
  | .vbool a, .vbool b => !a || b
  | _, _ => true

/-- Insertion step of the sort modelling Python `sorted`. -/
def insertSorted (x : Value) : List Value → List Value
  | [] => [x]
  | y :: ys => if valueLe x y then x :: y :: ys else y :: insertSorted x ys

/-- Insertion sort modelling Python `sorted(list(value))`. -/
def sortValues : List Value → List Value
  | [] => []
  | x :: xs => insertSorted x (sortValues xs)

/-- Models lines 118–119 of the source: a set value is canonicalized to a
sorted list before any further processing; every other value is unchanged. -/
def setToSorted : Value → Value
  | .vset l => .vlist (sortValues l)
  | v => v

/-- Shape discriminators corresponding to the `isinstance` tests of the
source. -/
def isVdict : Value → Bool
  | .vdict _ => true
  | _ => false

def isVlist : Value → Bool
  | .vlist _ => true
  | _ => false

def isVndarray : Value → Bool
  | .vndarray _ => true
  | _ => false

/-! ### The omission machinery of `_prepare_report` -/

/-- The five built-in omission paths of the `compact` shortcut
(source lines 82–88). -/
def compact_omit_keys : List String :=
  ["data_stats.*.statistics.times",
   "data_stats.*.statistics.avg_predictions",
   "data_stats.*.statistics.data_label_representation",
   "data_stats.*.statistics.null_types_index",
   "data_stats.*.statistics.histogram"]

/-- Lower-cased format, with `compact` rewritten to `pretty`
(source lines 72–73 and 89). -/
def effFormat (output_format : Option String) : Option String :=
  let f := output_format.map strLower
  if f = some "compact" then some "pretty" else f

/-- The omission list actually used: the `compact` shortcut extends it
with the built-in paths (source lines 81–88). -/
def effOmit (output_format : Option String) (omit_keys : List String) : List String :=
  if output_format.map strLower = some "compact" then omit_keys ++ compact_omit_keys
  else omit_keys

/-- Models lines 94–105 of the source for one omission key: a key of the form
`data_stats.<x>.…` with `<x> ≠ "*"` is expanded into one key per positional
index listed under `report["global_stats"]["profile_schema"][<x>]`; the
lookup chain raises (`none`) when a link is missing or not a dict, or the
index collection is not iterable.  Every other key passes through unchanged. -/
def expandOmitKey (report : List (String × Value)) (omit_key : String) : Option (List String) :=
  match splitDotSegs omit_key with
  | k0 :: k1 :: rest =>
      if k0 = "data_stats" ∧ ¬k1 = "*" then
        match lookupKey report "global_stats" with
        | some (.vdict gs) =>
            match lookupKey gs "profile_schema" with
            | some (.vdict ps) =>
                match lookupKey ps k1 with
                | some idxsV =>
                    match pyIter idxsV with
                    | some idxs =>
                        some (idxs.map fun i => joinDots ("data_stats" :: pyStr i :: rest))
                    | none => none
                | none => none
            | _ => none
        | _ => none
      else some [omit_key]
  | _ => some [omit_key]

/-- Models lines 93–107 of the source: the rewriting of the whole omission
list (`new_omit_keys`). -/
def resolve_omit_keys (report : List (String × Value)) : List String → Option (List String)
  | [] => some []
  | k :: rest => do
      let hd ← expandOmitKey report k
      let tl ← resolve_omit_keys report rest
      some (hd ++ tl)

/-- Models the residual-key filters of the source (lines 128–138 for the
`data_stats` level and lines 169–179 for an ordinary nested dict, which are
the same computation): keys whose first segment is `*` or equals the current
key contribute their nonempty remainder. -/
def next_layer_omit_keys (key : String) (omitKeys : List String) : List String :=
  omitKeys.filterMap fun ok_ =>
    match splitDot1 ok_ with
    | (prior, some next) =>
        if 0 < next.data.length ∧ (prior = "*" ∨ prior = key) then some next else none
    | (_, none) => none

/-- Models lines 143–155 of the source: the per-record filter inside
`data_stats`, keyed by the record's positional index. -/
def i_index_omit_keys (i : Nat) (dsKeys : List String) : List String :=
  dsKeys.filterMap fun nl =>
    match splitDot1 nl with
    | (index, some next) =>
        if 0 < next.data.length ∧ ((isDigitStr index ∧ digitsToNat index = i) ∨ index = "*")
        then some next else none
    | (_, none) => none

/-! ### Pretty-mode rendering of sequence leaves -/

/-- Textual form of one array element inside `np.array2string`.  Integers
render as their decimal form and strings as quoted, matching numpy; the
float and container renderings are explicit stand-ins (numpy's float
formatting is not modelled), and no theorem below depends on the characters
any particular element renders to — only on string lengths being what this
fixed rendering yields. -/
def elemStr : Value → String
  | .vint n => intToStr n
  | .vstr s => "'" ++ s ++ "'"
  | .vbool b => if b then "True" else "False"
  | .vnone => "None"
  | .vfloat q => intToStr q.num ++ "/" ++ natToStr q.den
  | .vlist _ => "<list>"
  | .vndarray _ => "<ndarray>"
  | .vset _ => "<set>"
  | .vdict _ => "<dict>"

/-- Joins rendered elements with `", "`. -/
def joinCommaSp : List String → String
  | [] => ""
  | [x] => x
  | x :: rest => x ++ ", " ++ joinCommaSp rest

/-- Models `np.array2string(value, separator=', ')` on a one-dimensional
array: a bracketed, comma-separated rendering (numpy's line-wrapping at a
fixed display width is not modelled; it only re-arranges whitespace). -/
def array2string (l : List Value) : String :=
  "[" ++ joinCommaSp (l.map elemStr) ++ "]"

/-- Models the Python slice `value[-ind:]` for `ind ≥ 1` (clamped to the
whole list when `ind` exceeds the length). -/
def takeLast (l : List Value) (ind : Nat) : List Value :=
  l.drop (l.length - ind)

/-- One candidate middle-truncated rendering, for window size `ind`
(source lines 198–201):
`np.array2string(value[:ind])[:-1] + ', ... , ' + np.array2string(value[-ind:])[1:]`. -/
def renderTrunc (l : List Value) (ind : Nat) : String :=
  pyDropLast (array2string (l.take ind)) ++ ", ... , " ++
    pyDropFirst (array2string (takeLast l ind))

/-- The window-growing `while` loop of the source (lines 195–202), with an
explicit fuel: starting from window size `ind`, the first rendering whose
length exceeds 50 characters is returned; `none` models non-termination of
the loop within the given fuel. -/
def truncLoop (l : List Value) : Nat → Nat → Option String
  | _, 0 => none
  | ind, fuel + 1 =>
      let s := renderTrunc l ind
      if s.data.length ≤ 50 then truncLoop l (ind + 1) fuel else some s

/-- The whole pretty-mode treatment of a list/array leaf
(source lines 187–204): render; if the rendering exceeds 50 characters and
the sequence has more than 5 elements, run the window-growing loop
(fuel `l.length + 1` covers every reachable window size). -/
def prettyList (l : List Value) : Option String :=
  let s := array2string l
  if 50 < s.data.length ∧ 5 < l.length then truncLoop l 1 (l.length + 1)
  else some s

/-- Round-half-to-even on the integers scaled by `10 ^ 4`; models Python
`round(x, 4)` on the idealized rational value of the float `x`. -/
def pyRound4 (q : Rat) : Rat :=
  let scaled : Rat := q * 10000
  let f : Int := scaled.floor
  let frac : Rat := scaled - (f : Rat)
  let r : Int :=
    if frac < 1/2 then f
    else if 1/2 < frac then f + 1
    else if f % 2 = 0 then f else f + 1
  (r : Rat) / 10000

/-! ### `ndarray.tolist()` and `flat_dict` -/

mutual
/-- Models `value.tolist()` on a (possibly nested) numpy array: every array
spine becomes a plain list; non-array elements are untouched.  `none` models
fuel exhaustion only. -/
def tolistF : Nat → Value → Option Value
  | 0, _ => none
  | f + 1, .vndarray l => (tolistLF f l).map Value.vlist
  | _ + 1, v => some v

def tolistLF : Nat → List Value → Option (List Value)
  | 0, _ => none
  | _ + 1, [] => some []
  | f + 1, v :: rest => do
      let v' ← tolistF f v
      let r ← tolistLF f rest
      some (v' :: r)
end

mutual
/-- Models the source's `flat_dict(od, separator, key)` (lines 25–42): a
nested dict collapses to a single level whose keys are the dot-free joined
paths; a non-dict is the single leaf under `key`.  `none` models fuel
exhaustion only.  Python's dict comprehension would keep only the last
binding of a duplicated flattened key; the association list here keeps all
bindings in order, which coincides for reports whose flattened keys are
distinct. -/
def flat_dictF : Nat → Value → String → String → Option (List (String × Value))
  | 0, _, _, _ => none
  | f + 1, .vdict kvs, separator, key => do
      let inner ← flat_entriesF f kvs separator
      some (inner.map fun p =>
        (if ¬key = "" then strReplaceSpace key ++ separator ++ p.1 else p.1, p.2))
  | _ + 1, od, _, key => some [(key, od)]

def flat_entriesF : Nat → List (String × Value) → String → Option (List (String × Value))
  | 0, _, _ => none
  | _ + 1, [], _ => some []
  | f + 1, (kk, vv) :: rest, separator => do
      let hd ← flat_dictF f vv separator kk
      let tl ← flat_entriesF f rest separator
      some (hd ++ tl)
end

/-! ### The recursive report transformer `_prepare_report` -/

/-- The sequence-leaf treatment of `_prepare_report` (source lines 185–209),
for a leaf `value` that is a list or array with elements `l`: `pretty`
renders (and possibly middle-truncates) it to a string, `serializable`
converts an array (only) via `tolist`, and every other format passes it
through unchanged. -/
def seqLeaf (f : Nat) (key : String) (value : Value) (l : List Value)
    (fmt : Option String) : PRes (Option (String × Value)) :=
  if fmt = some "pretty" then
    match prettyList l with
    | none => .timeout
    | some s => .ok (some (key, .vstr s))
  else if fmt = some "serializable" ∧ isVndarray value then
    match tolistF f value with
    | none => .timeout
    | some v' => .ok (some (key, v'))
  else .ok (some (key, value))

mutual
/-- Models `_prepare_report(report, output_format, omit_keys)`
(source lines 45–219), with an explicit fuel as first argument.  A report
argument that is not a dict yields `.error`: the source's `for key in report`
/ `report[key]` raise on every inhabited non-dict argument (the degenerate
empty-container arguments, on which the Python loop would yield `{}`, are
excluded by every well-formedness hypothesis used below). -/
def _prepare_report : Nat → Value → Option String → List String → PRes Value
  | 0, _, _, _ => .timeout
  | f + 1, report, output_format, omit_keys =>
      let fmt := effFormat output_format
      let omitKeys := effOmit output_format omit_keys
      match report with
      | .vdict kvs =>
          match resolve_omit_keys kvs omitKeys with
          | none => .error
          | some omit2 =>
              match prepEntries f kvs fmt omit2 with
              | .timeout => .timeout
              | .error => .error
              | .ok out =>
                  if fmt = some "flat" then
                    match flat_dictF f (.vdict out) "_" "" with
                    | none => .timeout
                    | some fl => .ok (.vdict fl)
                  else .ok (.vdict out)
      | _ => .error

/-- The per-level loop `for key in report` of the source (lines 109–214),
over the remaining entries, producing the entries of `fmt_report` in order. -/
def prepEntries : Nat → List (String × Value) → Option String → List String →
    PRes (List (String × Value))
  | 0, _, _, _ => .timeout
  | _ + 1, [], _, _ => .ok []
  | f + 1, (key, value) :: rest, fmt, omitKeys => do
      let headOpt ← prepEntry f key value fmt omitKeys
      let tail ← prepEntries f rest fmt omitKeys
      pure (headOpt.toList ++ tail)

/-- One iteration of the per-level loop: the omission test (line 112), the
set canonicalization (lines 118–119) and the branch dispatch of lines
123–214.  Returns `none` for a skipped key, `some (key, v)` for an emitted
entry. -/
def prepEntry : Nat → String → Value → Option String → List String →
    PRes (Option (String × Value))
  | 0, _, _, _, _ => .timeout
  | f + 1, key, value0, fmt, omitKeys =>
      if omitKeys.contains key then .ok none
      else
        match setToSorted value0 with
        | .vlist l =>
            if key = "data_stats" then
              match prepRecords f l 0 fmt (next_layer_omit_keys "data_stats" omitKeys) with
              | .timeout => .timeout
              | .error => .error
              | .ok outl => .ok (some (key, .vlist outl))
            else if key = "profile_schema" then .ok (some (key, .vlist l))
            else seqLeaf f key (.vlist l) l fmt
        | .vndarray l =>
            if key = "profile_schema" then .ok (some (key, .vndarray l))
            else seqLeaf f key (.vndarray l) l fmt
        | .vdict kvs =>
            if key = "profile_schema" then .ok (some (key, .vdict kvs))
            else
              match _prepare_report f (.vdict kvs) fmt (next_layer_omit_keys key omitKeys) with
              | .timeout => .timeout
              | .error => .error
              | .ok v' => .ok (some (key, v'))
        | .vfloat q =>
            if key = "profile_schema" then .ok (some (key, .vfloat q))
            else if fmt = some "pretty" then .ok (some (key, .vfloat (pyRound4 q)))
            else .ok (some (key, .vfloat q))
        | v => .ok (some (key, v))

/-- The loop over the records of a `data_stats` list (source lines 142–159):
each record is transformed by a recursive call under its positional residual
keys; the output list has one entry per input record, in order. -/
def prepRecords : Nat → List Value → Nat → Option String → List String → PRes (List Value)
  | 0, _, _, _, _ => .timeout
  | _ + 1, [], _, _, _ => .ok []
  | f + 1, v :: rest, i, fmt, dsKeys => do
      let v' ← _prepare_report f v fmt (i_index_omit_keys i dsKeys)
      let tail ← prepRecords f rest (i + 1) fmt dsKeys
      pure (v' :: tail)
end

/-! ### The quantile binner `calculate_quantiles` -/

/-- Ceiling of the integer fraction `a / b` (for `b > 0`); used to model
`math.ceil` applied to the exact value of the source's quotient. -/
def iceilDiv (a b : Int) : Int := -((-a).fdiv b)

/-- Models Python sequence indexing `xs[i]`, including the negative-index
wrap-around; `none` models an `IndexError`. -/
def pyGet {α : Type} (xs : List α) (i : Int) : Option α :=
  if 0 ≤ i then xs.get? i.toNat
  else if 0 ≤ i + xs.length then xs.get? (i + xs.length).toNat
  else none

/-- Floor of the base-2 logarithm (`⌊log₂ n⌋` for `n ≥ 1`), with an
explicit fuel that is always sufficient at `fuel = n`. -/
def log2F : Nat → Nat → Nat
  | 0, _ => 0
  | f + 1, n => if n < 2 then 0 else 1 + log2F f (n / 2)

/-- Round-to-nearest, ties-to-even, of the fraction `A / B` to an
integer. -/
def rnd (A B : Nat) : Nat :=
  if 2 * (A % B) < B then A / B
  else if B < 2 * (A % B) then A / B + 1
  else if (A / B) % 2 = 0 then A / B else A / B + 1

/-- Assembly step of the binary64 division `a / b`: for `sc = ⌊log₂(a·2^t/b)⌋`
the quotient is scaled by a power of two into `[2^52, 2^53)`, its
significand rounded to an integer, and the result returned as a
mantissa–exponent pair (value `m · 2^e`). -/
def fdivAssemble (a b sc t : Nat) : ℕ × ℤ :=
  if sc ≤ 52 + t then (rnd (a * 2 ^ (52 + t - sc)) b, (sc : ℤ) - t - 52)
  else (rnd a (b * 2 ^ (sc - (52 + t))), (sc : ℤ) - t - 52)

/-- IEEE-754 binary64 division of the naturals `a / b` (round-to-nearest,
ties-to-even, 53-bit significand), as a mantissa–exponent pair.  CPython's
`int.__truediv__` is correctly rounded, so this models the source's
`(len_quant + 1) / num_quantile_groups` exactly.  The exponent is unbounded
in this model: overflow to infinity (at `2^1024`) and subnormal underflow
are unreachable for the values the binner forms from a Python list
length. -/
def fdiv (a b : ℕ) : ℕ × ℤ :=
  fdivAssemble a b
    (log2F ((a * 2 ^ (log2F b b + 1)) / b) ((a * 2 ^ (log2F b b + 1)) / b))
    (log2F b b + 1)

/-- IEEE-754 binary64 product of a natural `k` (exactly representable
below `2^53`, which any feasible list index satisfies) with a binary64
value: the exact product `k · m` re-rounded to a 53-bit significand.
Models the source's `(ind + 1) * quant_multiplier`. -/
def fmulNat (k : ℕ) (x : ℕ × ℤ) : ℕ × ℤ :=
  if log2F (k * x.1) (k * x.1) ≤ 52 then (k * x.1, x.2)
  else (rnd (k * x.1) (2 ^ (log2F (k * x.1) (k * x.1) - 52)),
    x.2 + (log2F (k * x.1) (k * x.1) - 52 : ℕ))

/-- `math.ceil` of a binary64 value (exact on every float). -/
def fceil (x : ℕ × ℤ) : ℤ :=
  if 0 ≤ x.2 then (x.1 : ℤ) * 2 ^ x.2.toNat
  else iceilDiv x.1 (2 ^ (-x.2).toNat)

/-- The exact rational value of a mantissa–exponent pair (used only to
state and prove properties; the program model computes on the pairs). -/
def fval (x : ℕ × ℤ) : ℚ := (x.1 : ℚ) * (2 : ℚ) ^ x.2

/-- Models `calculate_quantiles(num_quantile_groups, quantiles)`
(source lines 6–22).  `num_quantile_groups` is an optional int (`none`
models `None`); a value that is falsy or outside `(0, len+1]` is reset to 4
(lines 8–9).  The multiplier `(len_quant + 1) / num_quantile_groups` is the
binary64 quotient, and `(ind + 1) * quant_multiplier` the binary64 product,
of the source's float arithmetic — see `fdiv` and `fmulNat`.  The result
dict `{ind: quantiles[…]}` with keys `0 … g-2` in order is modelled as the
association list of its entries; `none` models an `IndexError` raised by
`quantiles[…]`. -/
def calculate_quantiles {α : Type} (num_quantile_groups : Option Int)
    (quantiles : List α) : Option (List (Nat × α)) :=
  let len_quant : Nat := quantiles.length
  let g : Int :=
    match num_quantile_groups with
    | none => 4
    | some g0 => if ¬g0 = 0 ∧ 0 < g0 ∧ g0 ≤ len_quant + 1 then g0 else 4
  let quant_multiplier : ℕ × ℤ := fdiv (len_quant + 1) g.toNat
  (List.range (g - 1).toNat).mapM fun (ind : Nat) =>
    (pyGet quantiles (fceil (fmulNat (ind + 1) quant_multiplier) - 1)).map
      fun v => (ind, v)

/-! ### The observable state of the caller's `omit_keys` argument -/

/-- Models which list the caller's `omit_keys` argument holds after
`_prepare_report` returns: the `compact` branch calls `omit_keys.extend(…)`
(source line 82) on the very list object the caller passed, so the caller
observes the five built-in paths appended; when the caller passed `None`,
the callee's rebinding to a fresh list (line 75) is invisible to the
caller. -/
def omit_keys_after_call (output_format : Option String)
    (omit_keys : Option (List String)) : Option (List String) :=
  match omit_keys with
  | none => none
  | some ks =>
      if (output_format.map strLower) = some "compact" then some (ks ++ compact_omit_keys)
      else some ks

/-! ### Observation helpers used to state claims -/

/-- Field access on a dict value. -/
def Value.getKey : Value → String → Option Value
  | .vdict kvs, k => lookupKey kvs k
  | _, _ => none

/-- Positional access on a list value. -/
def Value.getIdx : Value → Nat → Option Value
  | .vlist l, i => l.get? i
  | _, _ => none

/-- The keys of a dict value, in order. -/
def Value.keys : Value → List String
  | .vdict kvs => kvs.map Prod.fst
  | _ => []

/-- Tests whether a value is the `None` placeholder. -/
def Value.isNull : Value → Bool
  | .vnone => true
  | _ => false

/-! ### Basic lemmas about `PRes` -/

@[simp] theorem PRes.bind_timeout {α β : Type} (f : α → PRes β) :
    PRes.bind .timeout f = .timeout := rfl

@[simp] theorem PRes.bind_error {α β : Type} (f : α → PRes β) :
    PRes.bind .error f = .error := rfl

@[simp] theorem PRes.bind_ok {α β : Type} (v : α) (f : α → PRes β) :
    PRes.bind (.ok v) f = f v := rfl

@[simp] theorem PRes.bind_eq_bind {α β : Type} (x : PRes α) (f : α → PRes β) :
    x >>= f = x.bind f := rfl

@[simp] theorem PRes.pure_eq_ok {α : Type} (v : α) : (pure v : PRes α) = .ok v := rfl

theorem PRes.bind_eq_ok {α β : Type} {x : PRes α} {f : α → PRes β} {b : β}
    (h : x.bind f = .ok b) : ∃ a, x = .ok a ∧ f a = .ok b := by
  cases x with
  | timeout => simp [PRes.bind] at h
  | error => simp [PRes.bind] at h
  | ok a => exact ⟨a, rfl, h⟩

theorem PRes.bind_ne_timeout {α β : Type} {x : PRes α} {f : α → PRes β}
    (h : x.bind f ≠ .timeout) : x ≠ .timeout := by
  cases x <;> simp_all [PRes.bind]

/-! ### Termination of the pretty-mode truncation loop -/

theorem array2string_length_ge_two (l : List Value) :
    2 ≤ (array2string l).data.length := by
  unfold array2string
  simp [String.data_append]

theorem take_of_length_le' {l : List Value} {n : Nat} (h : l.length ≤ n) : l.take n = l :=
  List.take_of_length_le h

/-- Once the window covers the whole sequence, the candidate rendering has
length `2·L + 6` where `L` is the length of the full rendering. -/
theorem renderTrunc_length_of_ge (l : List Value) (ind : Nat) (h : l.length ≤ ind) :
    (renderTrunc l ind).data.length = 2 * (array2string l).data.length + 6 := by
  have h2 := array2string_length_ge_two l
  have hdrop : l.length - ind = 0 := by omega
  have hren : renderTrunc l ind =
      pyDropLast (array2string l) ++ ", ... , " ++ pyDropFirst (array2string l) := by
    unfold renderTrunc takeLast
    rw [take_of_length_le' h, hdrop, List.drop_zero]
  rw [hren, String.data_append, String.data_append, List.length_append, List.length_append]
  have e1 : (pyDropLast (array2string l)).data.length = (array2string l).data.length - 1 := by
    show (array2string l).data.dropLast.length = _
    rw [List.length_dropLast]
  have e2 : (pyDropFirst (array2string l)).data.length = (array2string l).data.length - 1 := by
    show ((array2string l).data.drop 1).length = _
    rw [List.length_drop]
  have e3 : (", ... , " : String).data.length = 8 := rfl
  omega

/-- The window-growing loop returns within `l.length` further iterations
whenever the full rendering is longer than the 50-character threshold. -/
theorem truncLoop_isSome (l : List Value) (hL : 50 < (array2string l).data.length) :
    ∀ fuel : Nat, 1 ≤ fuel → ∀ ind : Nat, 1 ≤ ind → l.length + 1 ≤ ind + fuel →
      (truncLoop l ind fuel).isSome := by
  intro fuel
  induction fuel with
  | zero => omega
  | succ k ih =>
      intro _ ind hind hbound
      show (if (renderTrunc l ind).data.length ≤ 50 then truncLoop l (ind + 1) k
            else some (renderTrunc l ind)).isSome
      by_cases hs : (renderTrunc l ind).data.length ≤ 50
      · rw [if_pos hs]
        have hlt : ind < l.length := by
          by_contra hge
          have h1 := renderTrunc_length_of_ge l ind (by omega)
          omega
        exact ih (by omega) (ind + 1) (by omega) (by omega)
      · rw [if_neg hs]; rfl

/-- The pretty-mode list treatment always returns a string (the truncation
loop cannot diverge: it is entered only when the full rendering exceeds the
threshold, and by the time the window covers the whole sequence the
candidate rendering exceeds it as well). -/
theorem prettyList_ne_none (l : List Value) : prettyList l ≠ none := by
  show (if 50 < (array2string l).data.length ∧ 5 < l.length then truncLoop l 1 (l.length + 1)
        else some (array2string l)) ≠ none
  by_cases hc : 50 < (array2string l).data.length ∧ 5 < l.length
  · rw [if_pos hc]
    have h := truncLoop_isSome l hc.1 (l.length + 1) (by omega) 1 (by omega) (by omega)
    intro hfalse
    rw [hfalse] at h
    simp at h
  · rw [if_neg hc]
    simp

/-- C10: for a sequence leaf whose full pretty rendering exceeds the
50-character threshold and which has more than 5 elements, the head/tail
window-growing loop of the pretty mode terminates within finitely many
iterations — the candidate rendering exceeds the threshold at the latest
once the window covers the whole sequence — so the pretty-mode leaf
treatment (and with it the transformer) is total on such inputs. -/
theorem c10_truncation_loop_terminates (l : List Value)
    (helems : 5 < l.length) (hlong : 50 < (array2string l).data.length) :
    (truncLoop l 1 (l.length + 1)).isSome ∧ ∃ s, prettyList l = some s := by
  have h1 := truncLoop_isSome l hlong (l.length + 1) (by omega) 1 (by omega) (by omega)
  refine ⟨h1, ?_⟩
  have h2 : prettyList l = truncLoop l 1 (l.length + 1) := by
    show (if 50 < (array2string l).data.length ∧ 5 < l.length then truncLoop l 1 (l.length + 1)
          else some (array2string l)) = _
    rw [if_pos ⟨hlong, helems⟩]
  rw [h2]
  exact Option.isSome_iff_exists.mp h1

/-- Witness for C10 at a concrete six-element sequence of ten-digit
integers, whose full rendering has 72 characters. -/
theorem c10_witness :
    (truncLoop ((List.range 6).map fun n => Value.vint (1000000000 + (n : Int))) 1
      (((List.range 6).map fun n => Value.vint (1000000000 + (n : Int))).length + 1)).isSome ∧
    ∃ s, prettyList ((List.range 6).map fun n => Value.vint (1000000000 + (n : Int))) = some s :=
  c10_truncation_loop_terminates _ (by decide) (by decide)

/-- C8: transforming in mode `compact` with an empty omission list is
exactly transforming in mode `pretty` with the five built-in compact
omission paths, for every report (and every fuel): the compact branch of
the source only rewrites the format to `pretty` and appends those five
paths before doing anything else. -/
theorem c8_compact_equals_pretty_with_builtins (fuel : Nat) (report : Value) :
    _prepare_report fuel report (some "compact") [] =
      _prepare_report fuel report (some "pretty") compact_omit_keys := by
  cases fuel with
  | zero => rfl
  | succ f => rfl

/-- C5 (code bug): in compact mode the source extends the caller's
`omit_keys` list in place (line 82), so after the call the caller's list
holds its old contents followed by the five built-in compact paths — it is
not left unchanged as the specified copy-then-extend behavior requires. -/
theorem c5_compact_mode_extends_callers_omit_keys :
    omit_keys_after_call (some "compact") (some ["custom.key"]) =
      some ("custom.key" :: compact_omit_keys) ∧
    omit_keys_after_call (some "compact") (some ["custom.key"]) ≠ some ["custom.key"] := by
  constructor
  · rfl
  · decide

/-! ### Arithmetic of the quantile binner -/

/-- Integer ceiling division agrees with the rational ceiling. -/
theorem iceilDiv_eq_ceil (a : Int) (b : Int) (hb : 0 < b) :
    iceilDiv a b = ⌈(a : ℚ) / (b : ℚ)⌉ := by
  obtain ⟨d, rfl⟩ : ∃ d : Nat, b = (d : Int) := ⟨b.toNat, by omega⟩
  unfold iceilDiv
  rw [Int.fdiv_eq_ediv _ (by positivity)]
  rw [show ⌈(a : ℚ) / ((d : Int) : ℚ)⌉ = -⌊-((a : ℚ) / ((d : Int) : ℚ))⌋ by
    rw [← Int.ceil_neg, neg_neg]]
  rw [← neg_div]
  rw [show (-(a : ℚ)) = ((-a : Int) : ℚ) by push_cast; ring]
  rw [show (((d : Int) : ℚ)) = ((d : Nat) : ℚ) by push_cast; ring]
  rw [Rat.floor_intCast_div_natCast]

/-- The fueled base-2 logarithm brackets its argument at sufficient fuel. -/
theorem log2F_spec : ∀ f n : Nat, 1 ≤ n → n ≤ f →
    2 ^ log2F f n ≤ n ∧ n < 2 ^ (log2F f n + 1) := by
  intro f
  induction f with
  | zero => intro n h1 h2; omega
  | succ f ih =>
      intro n h1 h2
      by_cases hn : n < 2
      · unfold log2F
        rw [if_pos hn]
        constructor
        · simpa using h1
        · simpa using hn
      · unfold log2F
        rw [if_neg hn]
        have hd1 : 1 ≤ n / 2 := by omega
        have hd2 : n / 2 ≤ f := by omega
        obtain ⟨hl, hr⟩ := ih (n / 2) hd1 hd2
        have e1 : 2 ^ (1 + log2F f (n / 2)) = 2 * 2 ^ log2F f (n / 2) := by
          rw [pow_add, pow_one]
        have e2 : 2 ^ (1 + log2F f (n / 2) + 1) =
            2 * 2 ^ (log2F f (n / 2) + 1) := by
          rw [show 1 + log2F f (n / 2) + 1 = 1 + (log2F f (n / 2) + 1) by omega,
            pow_add, pow_one]
        omega

/-- Rounding never decreases the floor of the quotient. -/
theorem rnd_ge_div (A B : Nat) : A / B ≤ rnd A B := by
  unfold rnd
  split
  · exact le_rfl
  · split
    · omega
    · split <;> omega

/-- Rounding an exact quotient returns it. -/
theorem rnd_exact (A B : Nat) (hB : 1 ≤ B) (h : B ∣ A) : rnd A B = A / B := by
  obtain ⟨c, rfl⟩ := h
  unfold rnd
  rw [Nat.mul_mod_right, if_pos (by omega)]

/-- The rounded quotient is within half a unit of the exact quotient. -/
theorem rnd_spec (A B : Nat) (hB : 1 ≤ B) :
    (A : ℚ) / B - 1 / 2 ≤ (rnd A B : ℚ) ∧ (rnd A B : ℚ) ≤ (A : ℚ) / B + 1 / 2 := by
  have hB0 : (0 : ℚ) < (B : ℚ) := by exact_mod_cast hB
  have hAq : (B : ℚ) * ((A / B : ℕ) : ℚ) + ((A % B : ℕ) : ℚ) = (A : ℚ) := by
    exact_mod_cast Nat.div_add_mod A B
  have hx : (A : ℚ) / B = ((A / B : ℕ) : ℚ) + ((A % B : ℕ) : ℚ) / B := by
    field_simp
    linarith
  have hm0 : (0 : ℚ) ≤ ((A % B : ℕ) : ℚ) / B := by positivity
  have hm1 : ((A % B : ℕ) : ℚ) / B < 1 := by
    rw [div_lt_one hB0]
    exact_mod_cast Nat.mod_lt A (show 0 < B by omega)
  unfold rnd
  split
  · rename_i hlt
    have hq : ((A % B : ℕ) : ℚ) / B < 1 / 2 := by
      rw [div_lt_div_iff hB0 (by norm_num)]
      have h2 : (2 : ℚ) * ((A % B : ℕ) : ℚ) < (B : ℚ) := by exact_mod_cast hlt
      linarith
    rw [hx]
    constructor
    · linarith
    · linarith
  · split
    · rename_i hge hgt
      have hq : 1 / 2 < ((A % B : ℕ) : ℚ) / B := by
        rw [div_lt_div_iff (by norm_num) hB0]
        have h2 : (B : ℚ) < 2 * ((A % B : ℕ) : ℚ) := by exact_mod_cast hgt
        linarith
      rw [hx]
      push_cast
      constructor
      · linarith
      · linarith
    · rename_i hge hgt
      have heq : ((A % B : ℕ) : ℚ) / B = 1 / 2 := by
        have h2 : (2 : ℚ) * ((A % B : ℕ) : ℚ) = (B : ℚ) := by
          have : 2 * (A % B) = B := by omega
          exact_mod_cast this
        rw [div_eq_div_iff hB0.ne' (by norm_num : (2 : ℚ) ≠ 0)]
        linarith
      rw [hx]
      split
      · constructor
        · linarith
        · linarith
      · push_cast
        constructor
        · linarith
        · linarith

/-- `fceil` is the exact ceiling of the represented value. -/
theorem fceil_eq (x : ℕ × ℤ) : fceil x = ⌈fval x⌉ := by
  unfold fceil fval
  split
  · rename_i he
    obtain ⟨n, hn⟩ : ∃ n : ℕ, x.2 = (n : ℤ) := ⟨x.2.toNat, (Int.toNat_of_nonneg he).symm⟩
    rw [hn, Int.toNat_natCast, zpow_natCast,
      show ((x.1 : ℚ) * (2 : ℚ) ^ n) = (((x.1 * 2 ^ n : ℕ)) : ℚ) by push_cast; ring,
      Int.ceil_natCast]
    push_cast
    ring
  · rename_i he
    obtain ⟨n, hn⟩ : ∃ n : ℕ, x.2 = -(n : ℤ) := ⟨(-x.2).toNat, by omega⟩
    rw [hn, neg_neg, Int.toNat_natCast]
    rw [iceilDiv_eq_ceil _ _ (by positivity)]
    congr 1
    rw [zpow_neg, zpow_natCast]
    push_cast
    rw [div_eq_mul_inv]

theorem two_pow_52_mul_inv_53 : (2 : ℚ) ^ 52 * ((2 : ℚ) ^ 53)⁻¹ = 1 / 2 := by
  rw [show (2 : ℚ) ^ 53 = 2 ^ 52 * 2 by ring]
  rw [mul_inv, ← mul_assoc, mul_inv_cancel₀ (by positivity)]
  norm_num

/-- The assembled binary64 quotient has a full 53-bit significand and lies
within half an ulp — relatively, within a factor `1 ± 2⁻⁵³` — of the exact
quotient, provided `sc` under-approximates `⌊log₂(a·2^t/b)⌋`. -/
theorem fdivAssemble_spec (a b sc t : Nat) (hb : 1 ≤ b)
    (hkey : 2 ^ sc * b ≤ a * 2 ^ t) :
    2 ^ 52 ≤ (fdivAssemble a b sc t).1 ∧
    ((a : ℚ) / b) * (1 - ((2 : ℚ) ^ 53)⁻¹) ≤ fval (fdivAssemble a b sc t) ∧
    fval (fdivAssemble a b sc t) ≤ ((a : ℚ) / b) * (1 + ((2 : ℚ) ^ 53)⁻¹) := by
  have hB0 : (0 : ℚ) < (b : ℚ) := by exact_mod_cast hb
  unfold fdivAssemble
  split
  · rename_i hbr
    have hA : b * 2 ^ 52 ≤ a * 2 ^ (52 + t - sc) := by
      have h1 : 2 ^ sc * (b * 2 ^ 52) ≤ 2 ^ sc * (a * 2 ^ (52 + t - sc)) := by
        calc 2 ^ sc * (b * 2 ^ 52) = 2 ^ sc * b * 2 ^ 52 := by ring
          _ ≤ a * 2 ^ t * 2 ^ 52 := Nat.mul_le_mul_right _ hkey
          _ = a * 2 ^ (t + 52) := by rw [mul_assoc, ← pow_add]
          _ = a * 2 ^ (sc + (52 + t - sc)) := by
              rw [show t + 52 = sc + (52 + t - sc) by omega]
          _ = 2 ^ sc * (a * 2 ^ (52 + t - sc)) := by rw [pow_add]; ring
      exact Nat.le_of_mul_le_mul_left h1 (by positivity)
    have hm0 : 2 ^ 52 ≤ a * 2 ^ (52 + t - sc) / b := by
      rw [Nat.le_div_iff_mul_le (by omega)]
      calc 2 ^ 52 * b = b * 2 ^ 52 := by ring
        _ ≤ _ := hA
    refine ⟨le_trans hm0 (rnd_ge_div _ _), ?_⟩
    obtain ⟨hr1, hr2⟩ := rnd_spec (a * 2 ^ (52 + t - sc)) b hb
    have hXq : ((a * 2 ^ (52 + t - sc) : ℕ) : ℚ) / b =
        ((a : ℚ) / b) * (2 : ℚ) ^ (52 + t - sc) := by
      push_cast
      ring
    rw [hXq] at hr1 hr2
    have h2d : (0 : ℚ) < (2 : ℚ) ^ (52 + t - sc) := by positivity
    have hx52 : (2 : ℚ) ^ 52 ≤ ((a : ℚ) / b) * (2 : ℚ) ^ (52 + t - sc) := by
      rw [← hXq, le_div_iff₀ hB0]
      have h3 : (2 ^ 52 * b : ℕ) ≤ (a * 2 ^ (52 + t - sc) : ℕ) := by
        calc (2 ^ 52 * b : ℕ) = b * 2 ^ 52 := by ring
          _ ≤ _ := hA
      exact_mod_cast h3
    have hXu : 1 / 2 ≤ ((a : ℚ) / b) * (2 : ℚ) ^ (52 + t - sc) * ((2 : ℚ) ^ 53)⁻¹ := by
      rw [← two_pow_52_mul_inv_53]
      exact mul_le_mul_of_nonneg_right hx52 (by positivity)
    have hfv : fval (rnd (a * 2 ^ (52 + t - sc)) b, (sc : ℤ) - t - 52) =
        ((rnd (a * 2 ^ (52 + t - sc)) b : ℕ) : ℚ) / (2 : ℚ) ^ (52 + t - sc) := by
      simp only [fval]
      rw [show (sc : ℤ) - t - 52 = -((52 + t - sc : ℕ) : ℤ) by omega]
      rw [zpow_neg, zpow_natCast, div_eq_mul_inv]
    rw [hfv]
    constructor
    · rw [le_div_iff₀ h2d]
      have heq : (a : ℚ) / b * (1 - ((2 : ℚ) ^ 53)⁻¹) * (2 : ℚ) ^ (52 + t - sc) =
          ((a : ℚ) / b) * (2 : ℚ) ^ (52 + t - sc) -
            ((a : ℚ) / b) * (2 : ℚ) ^ (52 + t - sc) * ((2 : ℚ) ^ 53)⁻¹ := by
        ring
      rw [heq]
      linarith
    · rw [div_le_iff₀ h2d]
      have heq : (a : ℚ) / b * (1 + ((2 : ℚ) ^ 53)⁻¹) * (2 : ℚ) ^ (52 + t - sc) =
          ((a : ℚ) / b) * (2 : ℚ) ^ (52 + t - sc) +
            ((a : ℚ) / b) * (2 : ℚ) ^ (52 + t - sc) * ((2 : ℚ) ^ 53)⁻¹ := by
        ring
      rw [heq]
      linarith
  · rename_i hbr
    have hBpos : 1 ≤ b * 2 ^ (sc - (52 + t)) := Nat.mul_pos (by omega) (by positivity)
    have hA : b * 2 ^ (sc - (52 + t)) * 2 ^ 52 ≤ a := by
      have h1 : 2 ^ t * (b * 2 ^ (sc - (52 + t)) * 2 ^ 52) ≤ 2 ^ t * a := by
        calc 2 ^ t * (b * 2 ^ (sc - (52 + t)) * 2 ^ 52)
            = b * (2 ^ t * 2 ^ (sc - (52 + t)) * 2 ^ 52) := by ring
          _ = b * 2 ^ (t + (sc - (52 + t)) + 52) := by rw [← pow_add, ← pow_add]
          _ = b * 2 ^ sc := by rw [show t + (sc - (52 + t)) + 52 = sc by omega]
          _ = 2 ^ sc * b := by ring
          _ ≤ a * 2 ^ t := hkey
          _ = 2 ^ t * a := by ring
      exact Nat.le_of_mul_le_mul_left h1 (by positivity)
    have hm0 : 2 ^ 52 ≤ a / (b * 2 ^ (sc - (52 + t))) := by
      rw [Nat.le_div_iff_mul_le (by omega)]
      calc 2 ^ 52 * (b * 2 ^ (sc - (52 + t)))
          = b * 2 ^ (sc - (52 + t)) * 2 ^ 52 := by ring
        _ ≤ a := hA
    refine ⟨le_trans hm0 (rnd_ge_div _ _), ?_⟩
    obtain ⟨hr1, hr2⟩ := rnd_spec a (b * 2 ^ (sc - (52 + t))) hBpos
    have h2d : (0 : ℚ) < (2 : ℚ) ^ (sc - (52 + t)) := by positivity
    have hBq : (0 : ℚ) < ((b * 2 ^ (sc - (52 + t)) : ℕ) : ℚ) := by
      exact_mod_cast hBpos
    have hx52 : (2 : ℚ) ^ 52 ≤ (a : ℚ) / ((b * 2 ^ (sc - (52 + t)) : ℕ) : ℚ) := by
      rw [le_div_iff₀ hBq]
      have h3 : (2 ^ 52 * (b * 2 ^ (sc - (52 + t))) : ℕ) ≤ a := by
        calc (2 ^ 52 * (b * 2 ^ (sc - (52 + t))) : ℕ)
            = b * 2 ^ (sc - (52 + t)) * 2 ^ 52 := by ring
          _ ≤ a := hA
      exact_mod_cast h3
    have hq : (a : ℚ) / ((b * 2 ^ (sc - (52 + t)) : ℕ) : ℚ) * (2 : ℚ) ^ (sc - (52 + t)) =
        (a : ℚ) / b := by
      push_cast
      rw [div_mul_eq_mul_div, div_eq_div_iff (ne_of_gt (by positivity)) hB0.ne']
      ring
    have hXu : 1 / 2 ≤
        (a : ℚ) / ((b * 2 ^ (sc - (52 + t)) : ℕ) : ℚ) * ((2 : ℚ) ^ 53)⁻¹ := by
      rw [← two_pow_52_mul_inv_53]
      exact mul_le_mul_of_nonneg_right hx52 (by positivity)
    have hfv : fval (rnd a (b * 2 ^ (sc - (52 + t))), (sc : ℤ) - t - 52) =
        ((rnd a (b * 2 ^ (sc - (52 + t))) : ℕ) : ℚ) * (2 : ℚ) ^ (sc - (52 + t)) := by
      simp only [fval]
      rw [show (sc : ℤ) - t - 52 = ((sc - (52 + t) : ℕ) : ℤ) by omega]
      rw [zpow_natCast]
    rw [hfv]
    constructor
    · rw [← hq]
      have hstep : (a : ℚ) / ((b * 2 ^ (sc - (52 + t)) : ℕ) : ℚ) *
          (1 - ((2 : ℚ) ^ 53)⁻¹) ≤ ((rnd a (b * 2 ^ (sc - (52 + t))) : ℕ) : ℚ) := by
        have hexp : (a : ℚ) / ((b * 2 ^ (sc - (52 + t)) : ℕ) : ℚ) *
            (1 - ((2 : ℚ) ^ 53)⁻¹) =
            (a : ℚ) / ((b * 2 ^ (sc - (52 + t)) : ℕ) : ℚ) -
              (a : ℚ) / ((b * 2 ^ (sc - (52 + t)) : ℕ) : ℚ) * ((2 : ℚ) ^ 53)⁻¹ := by
          ring
        rw [hexp]
        linarith
      calc (a : ℚ) / ((b * 2 ^ (sc - (52 + t)) : ℕ) : ℚ) * (2 : ℚ) ^ (sc - (52 + t)) *
            (1 - ((2 : ℚ) ^ 53)⁻¹)
          = (a : ℚ) / ((b * 2 ^ (sc - (52 + t)) : ℕ) : ℚ) * (1 - ((2 : ℚ) ^ 53)⁻¹) *
              (2 : ℚ) ^ (sc - (52 + t)) := by ring
        _ ≤ ((rnd a (b * 2 ^ (sc - (52 + t))) : ℕ) : ℚ) * (2 : ℚ) ^ (sc - (52 + t)) :=
            mul_le_mul_of_nonneg_right hstep h2d.le
    · rw [← hq]
      have hstep : ((rnd a (b * 2 ^ (sc - (52 + t))) : ℕ) : ℚ) ≤
          (a : ℚ) / ((b * 2 ^ (sc - (52 + t)) : ℕ) : ℚ) * (1 + ((2 : ℚ) ^ 53)⁻¹) := by
        have hexp : (a : ℚ) / ((b * 2 ^ (sc - (52 + t)) : ℕ) : ℚ) *
            (1 + ((2 : ℚ) ^ 53)⁻¹) =
            (a : ℚ) / ((b * 2 ^ (sc - (52 + t)) : ℕ) : ℚ) +
              (a : ℚ) / ((b * 2 ^ (sc - (52 + t)) : ℕ) : ℚ) * ((2 : ℚ) ^ 53)⁻¹ := by
          ring
        rw [hexp]
        linarith
      calc ((rnd a (b * 2 ^ (sc - (52 + t))) : ℕ) : ℚ) * (2 : ℚ) ^ (sc - (52 + t))
          ≤ (a : ℚ) / ((b * 2 ^ (sc - (52 + t)) : ℕ) : ℚ) * (1 + ((2 : ℚ) ^ 53)⁻¹) *
              (2 : ℚ) ^ (sc - (52 + t)) := mul_le_mul_of_nonneg_right hstep h2d.le
        _ = (a : ℚ) / ((b * 2 ^ (sc - (52 + t)) : ℕ) : ℚ) * (2 : ℚ) ^ (sc - (52 + t)) *
              (1 + ((2 : ℚ) ^ 53)⁻¹) := by ring

/-- The binary64 quotient has a full significand and is within a relative
factor `1 ± 2⁻⁵³` of the exact quotient. -/
theorem fdiv_spec (a b : Nat) (ha : 1 ≤ a) (hb : 1 ≤ b) :
    2 ^ 52 ≤ (fdiv a b).1 ∧
    ((a : ℚ) / b) * (1 - ((2 : ℚ) ^ 53)⁻¹) ≤ fval (fdiv a b) ∧
    fval (fdiv a b) ≤ ((a : ℚ) / b) * (1 + ((2 : ℚ) ^ 53)⁻¹) := by
  have hbt : b < 2 ^ (log2F b b + 1) := (log2F_spec b b hb le_rfl).2
  have hble : b ≤ a * 2 ^ (log2F b b + 1) := by
    calc b ≤ 2 ^ (log2F b b + 1) := le_of_lt hbt
      _ = 1 * 2 ^ (log2F b b + 1) := by ring
      _ ≤ a * 2 ^ (log2F b b + 1) := Nat.mul_le_mul_right _ ha
  have hc1 : 1 ≤ a * 2 ^ (log2F b b + 1) / b := by
    rw [Nat.le_div_iff_mul_le (by omega)]
    omega
  have hsc := (log2F_spec _ _ hc1 le_rfl).1
  have hcb : a * 2 ^ (log2F b b + 1) / b * b ≤ a * 2 ^ (log2F b b + 1) :=
    Nat.div_mul_le_self _ _
  exact fdivAssemble_spec a b _ _ hb (le_trans (Nat.mul_le_mul_right _ hsc) hcb)

/-- An exact integer quotient below `2^53` is represented exactly, with the
mantissa an explicit power-of-two multiple of the quotient. -/
theorem fdiv_exact_rep (a b k : ℕ) (hb : 1 ≤ b) (hmul : b * k = a)
    (h1 : 1 ≤ k) (h2 : k < 2 ^ 53) :
    ∃ d : ℕ, fdiv a b = (k * 2 ^ d, -(d : ℤ)) := by
  have hc : a * 2 ^ (log2F b b + 1) / b = k * 2 ^ (log2F b b + 1) := by
    rw [← hmul, mul_assoc, Nat.mul_div_cancel_left _ (show 0 < b by omega)]
  have hk1 : 1 ≤ k * 2 ^ (log2F b b + 1) := Nat.mul_pos (by omega) (by positivity)
  have hsc := (log2F_spec _ _ hk1 le_rfl).1
  have hscle : log2F (k * 2 ^ (log2F b b + 1)) (k * 2 ^ (log2F b b + 1)) ≤
      52 + (log2F b b + 1) := by
    by_contra hcon
    push_neg at hcon
    have hge : 2 ^ (53 + (log2F b b + 1)) ≤
        2 ^ (log2F (k * 2 ^ (log2F b b + 1)) (k * 2 ^ (log2F b b + 1))) :=
      Nat.pow_le_pow_right (by omega) (by omega)
    have hlt : k * 2 ^ (log2F b b + 1) < 2 ^ (53 + (log2F b b + 1)) := by
      rw [pow_add 2 53 (log2F b b + 1)]
      exact (Nat.mul_lt_mul_right (by positivity)).mpr h2
    omega
  have hre : fdiv a b = fdivAssemble a b
      (log2F (k * 2 ^ (log2F b b + 1)) (k * 2 ^ (log2F b b + 1)))
      (log2F b b + 1) := by
    unfold fdiv
    rw [hc]
  refine ⟨52 + (log2F b b + 1) -
    log2F (k * 2 ^ (log2F b b + 1)) (k * 2 ^ (log2F b b + 1)), ?_⟩
  rw [hre]
  unfold fdivAssemble
  rw [if_pos hscle]
  have hdvd : b ∣ a * 2 ^ (52 + (log2F b b + 1) -
      log2F (k * 2 ^ (log2F b b + 1)) (k * 2 ^ (log2F b b + 1))) :=
    ⟨k * 2 ^ (52 + (log2F b b + 1) -
      log2F (k * 2 ^ (log2F b b + 1)) (k * 2 ^ (log2F b b + 1))), by
        rw [← hmul]; ring⟩
  rw [Prod.mk.injEq]
  constructor
  · rw [rnd_exact _ _ hb hdvd, ← hmul, mul_assoc,
      Nat.mul_div_cancel_left _ (show 0 < b by omega)]
  · omega

/-- Multiplying an exactly-represented integer quotient by a small natural
stays exact when the product is below `2^53`. -/
theorem fmulNat_exact (k K d : ℕ) (h1 : 1 ≤ k * K) (h2 : k * K < 2 ^ 53) :
    fval (fmulNat k (K * 2 ^ d, -(d : ℤ))) = ((k * K : ℕ) : ℚ) := by
  have hp : k * (K * 2 ^ d) = (k * K) * 2 ^ d := by ring
  have hp1 : 1 ≤ k * (K * 2 ^ d) := by
    rw [hp]
    calc 1 = 1 * 1 := rfl
      _ ≤ (k * K) * 2 ^ d := Nat.mul_le_mul h1 Nat.one_le_two_pow
  have hsp0 := (log2F_spec _ _ hp1 le_rfl).1
  have hsple : log2F (k * (K * 2 ^ d)) (k * (K * 2 ^ d)) ≤ 52 + d := by
    by_contra hcon
    push_neg at hcon
    have hge : 2 ^ (53 + d) ≤ 2 ^ (log2F (k * (K * 2 ^ d)) (k * (K * 2 ^ d))) :=
      Nat.pow_le_pow_right (by omega) (by omega)
    have hlt : k * (K * 2 ^ d) < 2 ^ (53 + d) := by
      rw [hp, pow_add]
      exact (Nat.mul_lt_mul_right (by positivity)).mpr h2
    omega
  simp only [fmulNat]
  split
  · simp only [fval]
    rw [zpow_neg, zpow_natCast]
    have hcast : ((k * (K * 2 ^ d) : ℕ) : ℚ) = ((k * K : ℕ) : ℚ) * (2 : ℚ) ^ d := by
      push_cast
      ring
    rw [hcast, mul_assoc, mul_inv_cancel₀ (by positivity), mul_one]
  · rename_i hb52
    obtain ⟨j, hjdef⟩ : ∃ j, log2F (k * (K * 2 ^ d)) (k * (K * 2 ^ d)) - 52 = j :=
      ⟨_, rfl⟩
    rw [hjdef]
    have hj1 : 1 ≤ j := by omega
    have hjd : j ≤ d := by omega
    have hdvd : 2 ^ j ∣ k * (K * 2 ^ d) := by
      rw [hp]
      exact Dvd.dvd.mul_left (pow_dvd_pow 2 hjd) _
    rw [rnd_exact _ _ Nat.one_le_two_pow hdvd]
    have hdiv : k * (K * 2 ^ d) / 2 ^ j = (k * K) * 2 ^ (d - j) := by
      have h3 : (k * K) * 2 ^ d = 2 ^ j * ((k * K) * 2 ^ (d - j)) := by
        rw [show 2 ^ j * ((k * K) * 2 ^ (d - j)) = (k * K) * (2 ^ j * 2 ^ (d - j)) by
          ring, ← pow_add, show j + (d - j) = d by omega]
      rw [hp, h3, Nat.mul_div_cancel_left _ (by positivity : 0 < 2 ^ j)]
    rw [hdiv]
    simp only [fval]
    rw [show (-(d : ℤ) + (j : ℤ)) = -(((d - j : ℕ)) : ℤ) by omega]
    rw [zpow_neg, zpow_natCast]
    have hcast : (((k * K) * 2 ^ (d - j) : ℕ) : ℚ) =
        ((k * K : ℕ) : ℚ) * (2 : ℚ) ^ (d - j) := by
      push_cast
      ring
    rw [hcast, mul_assoc, mul_inv_cancel₀ (by positivity), mul_one]

/-- The binary64 product with a natural is within a relative factor
`1 ± 2⁻⁵³` of the exact product. -/
theorem fmulNat_spec (k : ℕ) (x : ℕ × ℤ) (hk : 1 ≤ k) (hx : 1 ≤ x.1) :
    (k : ℚ) * fval x * (1 - ((2 : ℚ) ^ 53)⁻¹) ≤ fval (fmulNat k x) ∧
    fval (fmulNat k x) ≤ (k : ℚ) * fval x * (1 + ((2 : ℚ) ^ 53)⁻¹) := by
  have hp1 : 1 ≤ k * x.1 := by
    calc 1 = 1 * 1 := rfl
      _ ≤ k * x.1 := Nat.mul_le_mul hk hx
  have hval : (k : ℚ) * fval x = ((k * x.1 : ℕ) : ℚ) * (2 : ℚ) ^ x.2 := by
    simp only [fval]
    push_cast
    ring
  have hT0 : 0 ≤ (k : ℚ) * fval x := by
    rw [hval]
    positivity
  simp only [fmulNat]
  split
  · have he : fval (k * x.1, x.2) = (k : ℚ) * fval x := by
      simp only [fval]
      push_cast
      ring
    rw [he]
    have hTu : 0 ≤ (k : ℚ) * fval x * ((2 : ℚ) ^ 53)⁻¹ :=
      mul_nonneg hT0 (by positivity)
    constructor
    · nlinarith
    · nlinarith
  · rename_i hb52
    obtain ⟨j, hjdef⟩ : ∃ j, log2F (k * x.1) (k * x.1) - 52 = j := ⟨_, rfl⟩
    rw [hjdef]
    have hj52 : 52 + j = log2F (k * x.1) (k * x.1) := by omega
    have hsp : 2 ^ (52 + j) ≤ k * x.1 := by
      rw [hj52]
      exact (log2F_spec _ _ hp1 le_rfl).1
    obtain ⟨hr1, hr2⟩ := rnd_spec (k * x.1) (2 ^ j) Nat.one_le_two_pow
    have hX52 : (2 : ℚ) ^ 52 ≤ ((k * x.1 : ℕ) : ℚ) / ((2 ^ j : ℕ) : ℚ) := by
      rw [le_div_iff₀ (by positivity)]
      have h3 : (2 ^ 52 * 2 ^ j : ℕ) ≤ k * x.1 := by
        rw [← pow_add]
        exact hsp
      exact_mod_cast h3
    have hXu : 1 / 2 ≤ ((k * x.1 : ℕ) : ℚ) / ((2 ^ j : ℕ) : ℚ) * ((2 : ℚ) ^ 53)⁻¹ := by
      rw [← two_pow_52_mul_inv_53]
      exact mul_le_mul_of_nonneg_right hX52 (by positivity)
    have hzp : (0 : ℚ) < (2 : ℚ) ^ (x.2 + (j : ℕ)) := by positivity
    have hT : (k : ℚ) * fval x =
        ((k * x.1 : ℕ) : ℚ) / ((2 ^ j : ℕ) : ℚ) * (2 : ℚ) ^ (x.2 + (j : ℕ)) := by
      rw [hval, zpow_add₀ (by norm_num : (2 : ℚ) ≠ 0), zpow_natCast]
      push_cast
      field_simp
      ring
    have hfv : fval (rnd (k * x.1) (2 ^ j), x.2 + (j : ℕ)) =
        ((rnd (k * x.1) (2 ^ j) : ℕ) : ℚ) * (2 : ℚ) ^ (x.2 + (j : ℕ)) := rfl
    rw [hfv]
    constructor
    · rw [hT]
      have hstep : ((k * x.1 : ℕ) : ℚ) / ((2 ^ j : ℕ) : ℚ) * (1 - ((2 : ℚ) ^ 53)⁻¹) ≤
          ((rnd (k * x.1) (2 ^ j) : ℕ) : ℚ) := by
        have hexp : ((k * x.1 : ℕ) : ℚ) / ((2 ^ j : ℕ) : ℚ) * (1 - ((2 : ℚ) ^ 53)⁻¹) =
            ((k * x.1 : ℕ) : ℚ) / ((2 ^ j : ℕ) : ℚ) -
              ((k * x.1 : ℕ) : ℚ) / ((2 ^ j : ℕ) : ℚ) * ((2 : ℚ) ^ 53)⁻¹ := by
          ring
        rw [hexp]
        linarith
      calc ((k * x.1 : ℕ) : ℚ) / ((2 ^ j : ℕ) : ℚ) * (2 : ℚ) ^ (x.2 + (j : ℕ)) *
            (1 - ((2 : ℚ) ^ 53)⁻¹)
          = ((k * x.1 : ℕ) : ℚ) / ((2 ^ j : ℕ) : ℚ) * (1 - ((2 : ℚ) ^ 53)⁻¹) *
              (2 : ℚ) ^ (x.2 + (j : ℕ)) := by ring
        _ ≤ _ := mul_le_mul_of_nonneg_right hstep hzp.le
    · rw [hT]
      have hstep : ((rnd (k * x.1) (2 ^ j) : ℕ) : ℚ) ≤
          ((k * x.1 : ℕ) : ℚ) / ((2 ^ j : ℕ) : ℚ) * (1 + ((2 : ℚ) ^ 53)⁻¹) := by
        have hexp : ((k * x.1 : ℕ) : ℚ) / ((2 ^ j : ℕ) : ℚ) * (1 + ((2 : ℚ) ^ 53)⁻¹) =
            ((k * x.1 : ℕ) : ℚ) / ((2 ^ j : ℕ) : ℚ) +
              ((k * x.1 : ℕ) : ℚ) / ((2 ^ j : ℕ) : ℚ) * ((2 : ℚ) ^ 53)⁻¹ := by
          ring
        rw [hexp]
        linarith
      calc ((rnd (k * x.1) (2 ^ j) : ℕ) : ℚ) * (2 : ℚ) ^ (x.2 + (j : ℕ))
          ≤ ((k * x.1 : ℕ) : ℚ) / ((2 ^ j : ℕ) : ℚ) * (1 + ((2 : ℚ) ^ 53)⁻¹) *
              (2 : ℚ) ^ (x.2 + (j : ℕ)) := mul_le_mul_of_nonneg_right hstep hzp.le
        _ = _ := by ring
/-- An `Option`-valued `mapM` succeeds when each element succeeds, with
pointwise-described output. -/
theorem mapM_option_eq_some {α β : Type} (xs : List α) (f : α → Option β)
    (h : ∀ x ∈ xs, (f x).isSome) :
    ∃ l, xs.mapM f = some l ∧ l.length = xs.length ∧
      ∀ i : Nat, ∀ x, xs.get? i = some x → l.get? i = f x := by
  induction xs with
  | nil => exact ⟨[], rfl, rfl, by simp⟩
  | cons x rest ih =>
      obtain ⟨y, hy⟩ := Option.isSome_iff_exists.mp (h x (by simp))
      obtain ⟨l, hl, hlen, hget⟩ := ih (fun z hz => h z (by simp [hz]))
      refine ⟨y :: l, ?_, by simp [hlen], ?_⟩
      · rw [List.mapM_cons, hy, hl]; rfl
      · intro i z hz
        cases i with
        | zero =>
            simp only [List.get?] at hz
            cases hz
            simpa using hy.symm
        | succ n =>
            simp only [List.get?] at hz ⊢
            exact hget n z hz

/-- C7 counterexample: with a malformed group count and a one-element
sequence, the reset default of 4 makes the binner index position 1 of a
length-1 list, which raises an `IndexError` (modelled by `none`) — the
transformer does not "return a result without raising". -/
theorem c7_counterexample_short_sequence_raises :
    calculate_quantiles (some 0) ([5] : List Nat) = none := rfl

/-- Rewrites `calculate_quantiles` to its `mapM` body once the effective
group count is known. -/
theorem calculate_quantiles_eq_mapM {α : Type} (g? : Option Int) (qs : List α) (g : Int)
    (hg : (match g? with
      | none => (4 : Int)
      | some g0 => if ¬g0 = 0 ∧ 0 < g0 ∧ g0 ≤ (qs.length : Int) + 1 then g0 else 4) = g) :
    calculate_quantiles g? qs =
      (List.range (g - 1).toNat).mapM (fun (ind : Nat) =>
        (pyGet qs (fceil (fmulNat (ind + 1) (fdiv (qs.length + 1) g.toNat)) - 1)).map
          (fun v => (ind, v))) := by
  unfold calculate_quantiles
  simp only [hg]

/-- With the default group count 4 and at least 3 values, the selected
source index of bin `ind` — computed through the binary64 quotient and
product — lands inside the sequence. -/
theorem c7_float_index_range {α : Type} (qs : List α) (ind : Nat)
    (hlen : 3 ≤ qs.length) (hind : ind < 3) :
    ∃ (j : Nat) (hj : j < qs.length),
      fceil (fmulNat (ind + 1) (fdiv (qs.length + 1) 4)) - 1 = (j : ℤ) := by
  by_cases h3 : qs.length = 3
  · obtain ⟨d, hd⟩ := fdiv_exact_rep 4 4 1 (by omega) (by omega) (by omega) (by norm_num)
    refine ⟨ind, by omega, ?_⟩
    rw [h3, show (3 : ℕ) + 1 = 4 from rfl, hd, fceil_eq]
    have h1x : 1 ≤ (ind + 1) * 1 := by omega
    have h2x : (ind + 1) * 1 < 2 ^ 53 :=
      lt_of_le_of_lt (by omega : (ind + 1) * 1 ≤ 3) (by norm_num)
    rw [fmulNat_exact (ind + 1) 1 d h1x h2x, Int.ceil_natCast]
    omega
  · have h4 : 4 ≤ qs.length := by omega
    rw [fceil_eq]
    obtain ⟨hm1, hd1, hd2⟩ := fdiv_spec (qs.length + 1) 4 (by omega) (by omega)
    obtain ⟨hp1, hp2⟩ := fmulNat_spec (ind + 1) (fdiv (qs.length + 1) 4) (by omega)
      (le_trans (by norm_num) hm1)
    have hQc : ((qs.length + 1 : ℕ) : ℚ) / ((4 : ℕ) : ℚ) =
        ((qs.length : ℚ) + 1) / 4 := by
      push_cast
      ring
    have hKc : ((ind + 1 : ℕ) : ℚ) = (ind : ℚ) + 1 := by
      push_cast
      ring
    rw [hQc] at hd1 hd2
    rw [hKc] at hp1 hp2
    have hu0 : (0 : ℚ) < ((2 : ℚ) ^ 53)⁻¹ := by positivity
    have hu45 : ((2 : ℚ) ^ 53)⁻¹ ≤ 1 / 45 := by norm_num
    have hNq : (4 : ℚ) ≤ (qs.length : ℚ) := by exact_mod_cast h4
    have hK1 : (1 : ℚ) ≤ (ind : ℚ) + 1 := by
      have h0 : (0 : ℚ) ≤ (ind : ℚ) := Nat.cast_nonneg ind
      linarith
    have hK3 : (ind : ℚ) + 1 ≤ 3 := by
      have h5 : (ind : ℚ) ≤ 2 := by exact_mod_cast (by omega : ind ≤ 2)
      linarith
    have hQpos : (0 : ℚ) < ((qs.length : ℚ) + 1) / 4 := by positivity
    have hF0 : (0 : ℚ) < fval (fdiv (qs.length + 1) 4) := by
      have h6 : (0 : ℚ) < ((qs.length : ℚ) + 1) / 4 * (1 - ((2 : ℚ) ^ 53)⁻¹) := by
        apply mul_pos hQpos
        linarith
      linarith
    have hP0 : (0 : ℚ) < fval (fmulNat (ind + 1) (fdiv (qs.length + 1) 4)) := by
      have h6 : (0 : ℚ) < ((ind : ℚ) + 1) * fval (fdiv (qs.length + 1) 4) *
          (1 - ((2 : ℚ) ^ 53)⁻¹) := by
        apply mul_pos (mul_pos (by linarith) hF0)
        linarith
      linarith
    have hPN : fval (fmulNat (ind + 1) (fdiv (qs.length + 1) 4)) ≤ (qs.length : ℚ) := by
      have hchain : fval (fmulNat (ind + 1) (fdiv (qs.length + 1) 4)) ≤
          ((ind : ℚ) + 1) * (((qs.length : ℚ) + 1) / 4) * (1 + ((2 : ℚ) ^ 53)⁻¹) *
            (1 + ((2 : ℚ) ^ 53)⁻¹) := by
        have h1u : (0 : ℚ) ≤ 1 + ((2 : ℚ) ^ 53)⁻¹ := by linarith
        calc fval (fmulNat (ind + 1) (fdiv (qs.length + 1) 4))
            ≤ ((ind : ℚ) + 1) * fval (fdiv (qs.length + 1) 4) *
                (1 + ((2 : ℚ) ^ 53)⁻¹) := hp2
          _ ≤ ((ind : ℚ) + 1) * (((qs.length : ℚ) + 1) / 4 * (1 + ((2 : ℚ) ^ 53)⁻¹)) *
                (1 + ((2 : ℚ) ^ 53)⁻¹) := by
              apply mul_le_mul_of_nonneg_right _ h1u
              exact mul_le_mul_of_nonneg_left hd2 (by linarith)
          _ = ((ind : ℚ) + 1) * (((qs.length : ℚ) + 1) / 4) * (1 + ((2 : ℚ) ^ 53)⁻¹) *
                (1 + ((2 : ℚ) ^ 53)⁻¹) := by ring
      have hkey : ((ind : ℚ) + 1) * (((qs.length : ℚ) + 1) / 4) * (1 + ((2 : ℚ) ^ 53)⁻¹) *
          (1 + ((2 : ℚ) ^ 53)⁻¹) ≤ (qs.length : ℚ) := by
        have e2 : (0 : ℚ) ≤ (qs.length : ℚ) + 1 := by positivity
        have e3 : (1 + ((2 : ℚ) ^ 53)⁻¹) * (1 + ((2 : ℚ) ^ 53)⁻¹) ≤
            1 + 3 * ((2 : ℚ) ^ 53)⁻¹ := by
          have h7 : ((2 : ℚ) ^ 53)⁻¹ * ((2 : ℚ) ^ 53)⁻¹ ≤ ((2 : ℚ) ^ 53)⁻¹ * 1 :=
            mul_le_mul_of_nonneg_left (by linarith) hu0.le
          nlinarith
        have e4 : ((2 : ℚ) ^ 53)⁻¹ * ((qs.length : ℚ) + 1) ≤ ((qs.length : ℚ) + 1) / 45 := by
          calc ((2 : ℚ) ^ 53)⁻¹ * ((qs.length : ℚ) + 1)
              ≤ 1 / 45 * ((qs.length : ℚ) + 1) := mul_le_mul_of_nonneg_right hu45 e2
            _ = ((qs.length : ℚ) + 1) / 45 := by ring
        have e5 : ((ind : ℚ) + 1) * (((qs.length : ℚ) + 1) *
            ((1 + ((2 : ℚ) ^ 53)⁻¹) * (1 + ((2 : ℚ) ^ 53)⁻¹))) ≤
            3 * (((qs.length : ℚ) + 1) * (1 + 3 * ((2 : ℚ) ^ 53)⁻¹)) := by
          apply mul_le_mul hK3 (mul_le_mul_of_nonneg_left e3 e2) _ (by norm_num)
          positivity
        have e6 : 3 * (((qs.length : ℚ) + 1) * (1 + 3 * ((2 : ℚ) ^ 53)⁻¹)) ≤
            4 * (qs.length : ℚ) := by
          have e7 : 3 * (((qs.length : ℚ) + 1) * (1 + 3 * ((2 : ℚ) ^ 53)⁻¹)) =
              3 * ((qs.length : ℚ) + 1) +
                9 * (((2 : ℚ) ^ 53)⁻¹ * ((qs.length : ℚ) + 1)) := by
            ring
          rw [e7]
          linarith
        calc ((ind : ℚ) + 1) * (((qs.length : ℚ) + 1) / 4) * (1 + ((2 : ℚ) ^ 53)⁻¹) *
              (1 + ((2 : ℚ) ^ 53)⁻¹)
            = ((ind : ℚ) + 1) * (((qs.length : ℚ) + 1) *
                ((1 + ((2 : ℚ) ^ 53)⁻¹) * (1 + ((2 : ℚ) ^ 53)⁻¹))) / 4 := by ring
          _ ≤ 4 * (qs.length : ℚ) / 4 := by
              apply div_le_div_of_nonneg_right ?_ (by norm_num)
              exact le_trans e5 e6
          _ = (qs.length : ℚ) := by ring
      linarith
    have hceil1 : 1 ≤ ⌈fval (fmulNat (ind + 1) (fdiv (qs.length + 1) 4))⌉ :=
      Int.ceil_pos.mpr hP0
    have hceilN : ⌈fval (fmulNat (ind + 1) (fdiv (qs.length + 1) 4))⌉ ≤
        (qs.length : ℤ) := by
      rw [Int.ceil_le]
      push_cast
      exact hPN
    refine ⟨(⌈fval (fmulNat (ind + 1) (fdiv (qs.length + 1) 4))⌉ - 1).toNat,
      by omega, by omega⟩

/-- C7 (amended): for sequences of at least 3 values, a malformed group
count (absent, zero, negative, or exceeding N+1) is silently replaced by the
default 4 and the binner returns normally, exactly as if called with group
count 4; for shorter sequences the reset default itself drives the selection
index out of range and the binner raises an `IndexError`. -/
theorem c7_amended_default_reset {α : Type} (g? : Option Int) (qs : List α)
    (hlen : 3 ≤ qs.length)
    (hbad : g? = none ∨ ∃ g0, g? = some g0 ∧ (g0 ≤ 0 ∨ (qs.length : Int) + 1 < g0)) :
    calculate_quantiles g? qs = calculate_quantiles (some 4) qs ∧
    ∃ l, calculate_quantiles g? qs = some l := by
  have hg : (match g? with
      | none => (4 : Int)
      | some g0 => if ¬g0 = 0 ∧ 0 < g0 ∧ g0 ≤ (qs.length : Int) + 1 then g0 else 4) = 4 := by
    rcases hbad with h | ⟨g0, hsome, hb⟩
    · rw [h]
    · rw [hsome]
      show (if ¬g0 = 0 ∧ 0 < g0 ∧ g0 ≤ (qs.length : Int) + 1 then g0 else (4 : Int)) = 4
      rw [if_neg]
      omega
  have hg4 : (match (some 4 : Option Int) with
      | none => (4 : Int)
      | some g0 => if ¬g0 = 0 ∧ 0 < g0 ∧ g0 ≤ (qs.length : Int) + 1 then g0 else 4) = 4 := by
    show (if ¬(4 : Int) = 0 ∧ 0 < (4 : Int) ∧ (4 : Int) ≤ (qs.length : Int) + 1 then (4 : Int)
          else (4 : Int)) = 4
    rw [if_pos]
    refine ⟨by omega, by omega, by omega⟩
  have e1 := calculate_quantiles_eq_mapM g? qs 4 hg
  have e2 := calculate_quantiles_eq_mapM (some 4) qs 4 hg4
  refine ⟨e1.trans e2.symm, ?_⟩
  rw [e1, show ((4 : Int)).toNat = 4 from rfl, show ((4 : Int) - 1).toNat = 3 from rfl]
  have hall : ∀ ind ∈ List.range 3,
      ((pyGet qs (fceil (fmulNat (ind + 1) (fdiv (qs.length + 1) 4)) - 1)).map
        (fun v => (ind, v))).isSome := by
    intro ind hmem
    rw [List.mem_range] at hmem
    obtain ⟨j, hj, hje⟩ := c7_float_index_range qs ind hlen hmem
    rw [hje]
    have hpg : pyGet qs ((j : ℤ)) = some (qs.get ⟨j, hj⟩) := by
      unfold pyGet
      rw [if_pos (Int.natCast_nonneg j), Int.toNat_natCast]
      exact List.get?_eq_get hj
    rw [hpg]
    rfl
  obtain ⟨l, hl, -, -⟩ := mapM_option_eq_some _ _ hall
  exact ⟨l, hl⟩

/-- Witness for the amended C7 at group count 0 and a three-element
sequence. -/
theorem c7_witness :
    calculate_quantiles (some 0) ([10, 20, 30] : List Nat) =
      calculate_quantiles (some 4) ([10, 20, 30] : List Nat) ∧
    ∃ l, calculate_quantiles (some 0) ([10, 20, 30] : List Nat) = some l :=
  c7_amended_default_reset (some 0) [10, 20, 30] (by decide)
    (Or.inr ⟨0, rfl, Or.inl (by decide)⟩)

set_option maxRecDepth 40000 in
/-- C6 counterexample: on the 35-value ascending sequence with group count
28 the binary64 multiplication drifts above the exact product at bin 20
(`21 · (36/28)` evaluates to `27.000000000000004`), so the binner selects
source index 27 where exact rational arithmetic selects
`⌈21 · 36/28⌉ - 1 = 26` — the spec's exact-arithmetic index formula does
not hold of the program. -/
theorem c6_counterexample_float_drift :
    (calculate_quantiles (some 28) (List.range 35)).bind (fun l => l.get? 20) =
      some (20, 27) ∧
    iceilDiv ((20 + 1) * (35 + 1)) 28 - 1 = 26 := ⟨rfl, rfl⟩

/-- C6 (amended): for a valid group count `0 < g ≤ N + 1` that divides
`N + 1` (with `N + 1 < 2^53`), the binary64 quotient `(N+1)/g` and the
bin products are exact, so the binner returns exactly `g - 1` entries keyed
`0 … g - 2` in order, entry `i` holding the source value at index
`⌈(i+1) · (N+1)/g⌉ - 1 = (i+1)·(N+1)/g - 1`; for group counts that do not
divide `N + 1` the floating-point product can drift across the ceiling
boundary and shift the selected index (see the counterexample). -/
theorem c6_amended_exact_when_divisible {α : Type} (g : Nat) (qs : List α)
    (h1 : 0 < g) (h2 : g ≤ qs.length + 1) (hdvd : g ∣ qs.length + 1)
    (hsz : qs.length + 1 < 2 ^ 53) :
    ∃ l, calculate_quantiles (some (g : Int)) qs = some l ∧
      l.length = g - 1 ∧
      ∀ i : Nat, i < g - 1 →
        ∃ (j : Nat) (hj : j < qs.length),
          (j : Int) = ⌈((i : ℚ) + 1) * (((qs.length : ℚ) + 1) / (g : ℚ))⌉ - 1 ∧
          l.get? i = some (i, qs.get ⟨j, hj⟩) := by
  obtain ⟨k, hk⟩ := hdvd
  have hk1 : 1 ≤ k := by
    rcases Nat.eq_zero_or_pos k with h0 | h0
    · rw [h0, Nat.mul_zero] at hk
      omega
    · exact h0
  have hk53 : k < 2 ^ 53 := by
    have h5 : k ≤ g * k := Nat.le_mul_of_pos_left k h1
    omega
  have hgm : (match (some (g : Int)) with
      | none => (4 : Int)
      | some g0 => if ¬g0 = 0 ∧ 0 < g0 ∧ g0 ≤ (qs.length : Int) + 1 then g0 else 4) =
      (g : Int) := by
    show (if ¬(g : Int) = 0 ∧ 0 < (g : Int) ∧ (g : Int) ≤ (qs.length : Int) + 1 then (g : Int)
          else 4) = (g : Int)
    rw [if_pos]
    refine ⟨by omega, by omega, by omega⟩
  obtain ⟨d, hd⟩ := fdiv_exact_rep (qs.length + 1) g k h1 hk.symm hk1 hk53
  have e1 := calculate_quantiles_eq_mapM (some (g : Int)) qs (g : Int) hgm
  rw [e1, Int.toNat_natCast, show (((g : ℕ) : Int) - 1).toNat = g - 1 by omega, hd]
  have hle : ∀ i : Nat, i < g - 1 → (i + 1) * k ≤ qs.length := by
    intro i hi
    have h7 : k ≤ g * k := Nat.le_mul_of_pos_left k h1
    have h8 : (i + 1) * k ≤ (g - 1) * k := Nat.mul_le_mul_right k (by omega)
    have h9 : (g - 1) * k = g * k - k := by rw [Nat.sub_mul, one_mul]
    omega
  have hone : ∀ i : Nat, 1 ≤ (i + 1) * k := by
    intro i
    calc 1 = 1 * 1 := rfl
      _ ≤ (i + 1) * k := Nat.mul_le_mul (by omega) hk1
  have hidx : ∀ i : Nat, i < g - 1 →
      fceil (fmulNat (i + 1) (k * 2 ^ d, -(d : ℤ))) = (((i + 1) * k : ℕ) : ℤ) := by
    intro i hi
    have h2x : (i + 1) * k < 2 ^ 53 := by
      have := hle i hi
      omega
    rw [fceil_eq, fmulNat_exact (i + 1) k d (hone i) h2x, Int.ceil_natCast]
  have hall : ∀ ind ∈ List.range (g - 1),
      ((pyGet qs (fceil (fmulNat (ind + 1) (k * 2 ^ d, -(d : ℤ))) - 1)).map
        (fun v => (ind, v))).isSome := by
    intro ind hmem
    rw [List.mem_range] at hmem
    have hjlt : (ind + 1) * k - 1 < qs.length := by
      have := hle ind hmem
      have := hone ind
      omega
    rw [hidx ind hmem, show (((ind + 1) * k : ℕ) : ℤ) - 1 =
      (((ind + 1) * k - 1 : ℕ) : ℤ) by
        have := hone ind
        omega]
    have hpg : pyGet qs ((((ind + 1) * k - 1 : ℕ)) : ℤ) =
        some (qs.get ⟨(ind + 1) * k - 1, hjlt⟩) := by
      unfold pyGet
      rw [if_pos (Int.natCast_nonneg _), Int.toNat_natCast]
      exact List.get?_eq_get hjlt
    rw [hpg]
    rfl
  obtain ⟨l, hl, hlen, hget⟩ := mapM_option_eq_some _ _ hall
  refine ⟨l, hl, ?_, ?_⟩
  · rw [hlen, List.length_range]
  · intro i hi
    have hjlt : (i + 1) * k - 1 < qs.length := by
      have := hle i hi
      have := hone i
      omega
    have hceilq : (((i + 1) * k : ℕ) : ℤ) =
        ⌈((i : ℚ) + 1) * (((qs.length : ℚ) + 1) / (g : ℚ))⌉ := by
      have hgq : ((g : ℕ) : ℚ) ≠ 0 := Nat.cast_ne_zero.mpr (by omega)
      have hcast : ((qs.length : ℚ) + 1) = (g : ℚ) * (k : ℚ) := by
        exact_mod_cast hk
      have hQ : ((i : ℚ) + 1) * (((g : ℚ) * (k : ℚ)) / (g : ℚ)) =
          (((i + 1) * k : ℕ) : ℚ) := by
        rw [mul_div_cancel_left₀ _ hgq]
        push_cast
        ring
      rw [hcast, hQ, Int.ceil_natCast]
    refine ⟨(i + 1) * k - 1, hjlt, ?_, ?_⟩
    · rw [← hceilq]
      have := hone i
      omega
    · have hr : (List.range (g - 1)).get? i = some i := List.get?_range (by omega)
      have hli := hget i i hr
      rw [hli, hidx i hi, show (((i + 1) * k : ℕ) : ℤ) - 1 =
        (((i + 1) * k - 1 : ℕ) : ℤ) by
          have := hone i
          omega]
      have hpg : pyGet qs ((((i + 1) * k - 1 : ℕ)) : ℤ) =
          some (qs.get ⟨(i + 1) * k - 1, hjlt⟩) := by
        unfold pyGet
        rw [if_pos (Int.natCast_nonneg _), Int.toNat_natCast]
        exact List.get?_eq_get hjlt
      rw [hpg]
      rfl

set_option maxRecDepth 40000 in
/-- Witness for the amended C6: on the 999-element ascending sequence
`0, 1, …, 998` with group count 4 (which divides 1000, so every product is
float-exact), the binner returns exactly the three boundary entries taken
from source indices 249, 499 and 749. -/
theorem c6_witness :
    (∃ l, calculate_quantiles (some ((4 : Nat) : Int)) (List.range 999) = some l ∧
       l.length = 3) ∧
    calculate_quantiles (some 4) (List.range 999) = some [(0, 249), (1, 499), (2, 749)] := by
  constructor
  · obtain ⟨l, hl, hlen, -⟩ := c6_amended_exact_when_divisible 4 (List.range 999)
      (by norm_num) (by rw [List.length_range]; norm_num)
      (by rw [List.length_range]; norm_num) (by rw [List.length_range]; norm_num)
    exact ⟨l, hl, by rw [hlen]⟩
  · rfl


/-! ### Per-level characterization of the transformer -/

theorem prepEntries_cons (f : Nat) (key : String) (value : Value)
    (rest : List (String × Value)) (fmt : Option String) (omitKeys : List String) :
    prepEntries (f + 1) ((key, value) :: rest) fmt omitKeys =
      (prepEntry f key value fmt omitKeys).bind fun headOpt =>
        (prepEntries f rest fmt omitKeys).bind fun tail =>
          .ok (headOpt.toList ++ tail) := rfl

/-- A successful sequence-leaf treatment emits an entry under the same key. -/
theorem seqLeaf_ok_shape {f : Nat} {key : String} {value : Value} {l : List Value}
    {fmt : Option String} {ho : Option (String × Value)}
    (h : seqLeaf f key value l fmt = .ok ho) : ∃ v', ho = some (key, v') := by
  unfold seqLeaf at h
  split at h
  · split at h
    · exact (nomatch h)
    · cases h; exact ⟨_, rfl⟩
  · split at h
    · split at h
      · exact (nomatch h)
      · cases h; exact ⟨_, rfl⟩
    · cases h; exact ⟨_, rfl⟩

/-- A successful loop iteration either skips an omitted key or emits an entry
under the processed key. -/
theorem prepEntry_ok_shape {f : Nat} {key : String} {value : Value} {fmt : Option String}
    {omitKeys : List String} {ho : Option (String × Value)}
    (h : prepEntry f key value fmt omitKeys = .ok ho) :
    (omitKeys.contains key = true ∧ ho = none) ∨
      (omitKeys.contains key = false ∧ ∃ v', ho = some (key, v')) := by
  cases f with
  | zero => exact (nomatch h)
  | succ f =>
      unfold prepEntry at h
      by_cases hc : omitKeys.contains key = true
      · rw [if_pos hc] at h
        cases h
        exact Or.inl ⟨hc, rfl⟩
      · rw [if_neg hc] at h
        refine Or.inr ⟨by simpa using hc, ?_⟩
        split at h
        · split at h
          · split at h
            · exact (nomatch h)
            · exact (nomatch h)
            · cases h; exact ⟨_, rfl⟩
          · split at h
            · cases h; exact ⟨_, rfl⟩
            · exact seqLeaf_ok_shape h
        · split at h
          · cases h; exact ⟨_, rfl⟩
          · exact seqLeaf_ok_shape h
        · split at h
          · cases h; exact ⟨_, rfl⟩
          · split at h
            · exact (nomatch h)
            · exact (nomatch h)
            · cases h; exact ⟨_, rfl⟩
        · split at h
          · cases h; exact ⟨_, rfl⟩
          · split at h
            · cases h; exact ⟨_, rfl⟩
            · cases h; exact ⟨_, rfl⟩
        · cases h; exact ⟨_, rfl⟩

/-- The keys of a transformed level are exactly the input keys that are not
in the (resolved) omission list, in order. -/
theorem prepEntries_keys (kvs : List (String × Value)) :
    ∀ (fuel : Nat) (fmt : Option String) (omitKeys : List String)
      (out : List (String × Value)),
      prepEntries fuel kvs fmt omitKeys = .ok out →
      out.map Prod.fst = (kvs.map Prod.fst).filter (fun k => !(omitKeys.contains k)) := by
  induction kvs with
  | nil =>
      intro fuel fmt omitKeys out h
      cases fuel with
      | zero => exact (nomatch h)
      | succ f => cases h; rfl
  | cons e rest ih =>
      intro fuel fmt omitKeys out h
      obtain ⟨key, value⟩ := e
      cases fuel with
      | zero => exact (nomatch h)
      | succ f =>
          rw [prepEntries_cons] at h
          obtain ⟨ho, hho, h2⟩ := PRes.bind_eq_ok h
          obtain ⟨tail, htail, h3⟩ := PRes.bind_eq_ok h2
          cases h3
          rcases prepEntry_ok_shape hho with ⟨hc, rfl⟩ | ⟨hc, v', rfl⟩
          · have hm : key ∈ omitKeys := by simpa using hc
            simp only [Option.toList, List.nil_append]
            rw [ih f fmt omitKeys tail htail]
            simp [List.filter_cons, hm]
          · have hm : key ∉ omitKeys := by simpa using hc
            simp only [Option.toList, List.singleton_append, List.map_cons]
            rw [ih f fmt omitKeys tail htail]
            simp [List.filter_cons, hm]

/-- A non-omitted key present in the level is present in the output, bound
to the value its loop iteration produced. -/
theorem prepEntries_lookup (kvs : List (String × Value)) :
    ∀ (fuel : Nat) (fmt : Option String) (omitKeys : List String)
      (out : List (String × Value)) (key : String) (v : Value),
      prepEntries fuel kvs fmt omitKeys = .ok out →
      lookupKey kvs key = some v →
      omitKeys.contains key = false →
      ∃ (f' : Nat) (v' : Value), prepEntry f' key v fmt omitKeys = .ok (some (key, v')) ∧
        lookupKey out key = some v' := by
  induction kvs with
  | nil => intro _ _ _ _ _ _ _ hlk; exact (nomatch hlk)
  | cons e rest ih =>
      intro fuel fmt omitKeys out key v h hlk hno
      obtain ⟨k0, v0⟩ := e
      cases fuel with
      | zero => exact (nomatch h)
      | succ f =>
          rw [prepEntries_cons] at h
          obtain ⟨ho, hho, h2⟩ := PRes.bind_eq_ok h
          obtain ⟨tail, htail, h3⟩ := PRes.bind_eq_ok h2
          cases h3
          by_cases hk : k0 = key
          · subst hk
            unfold lookupKey at hlk
            rw [if_pos rfl] at hlk
            cases hlk
            rcases prepEntry_ok_shape hho with ⟨hc, rfl⟩ | ⟨hc, v', rfl⟩
            · rw [hno] at hc; exact (nomatch hc)
            · refine ⟨f, v', hho, ?_⟩
              simp only [Option.toList, List.singleton_append]
              unfold lookupKey
              rw [if_pos rfl]
          · unfold lookupKey at hlk
            rw [if_neg hk] at hlk
            obtain ⟨f', v', hpe, hlk'⟩ := ih f fmt omitKeys tail key v htail hlk hno
            refine ⟨f', v', hpe, ?_⟩
            rcases prepEntry_ok_shape hho with ⟨hc, rfl⟩ | ⟨hc, w', rfl⟩
            · simpa using hlk'
            · simp only [Option.toList, List.singleton_append]
              unfold lookupKey
              rw [if_neg hk]
              exact hlk'

/-- Unfolding equation of `_prepare_report` on a dict at positive fuel. -/
theorem _prepare_report_succ_eq (f : Nat) (kvs : List (String × Value))
    (fmt : Option String) (omitKeys : List String) :
    _prepare_report (f + 1) (.vdict kvs) fmt omitKeys =
      match resolve_omit_keys kvs (effOmit fmt omitKeys) with
      | none => .error
      | some omit2 =>
          match prepEntries f kvs (effFormat fmt) omit2 with
          | .timeout => .timeout
          | .error => .error
          | .ok out =>
              if effFormat fmt = some "flat" then
                match flat_dictF f (.vdict out) "_" "" with
                | none => .timeout
                | some fl => .ok (.vdict fl)
              else .ok (.vdict out) := rfl

/-- Unfolding equation of `prepRecords` on a cons at positive fuel. -/
theorem prepRecords_cons (f : Nat) (v : Value) (rest : List Value) (i : Nat)
    (fmt : Option String) (dsKeys : List String) :
    prepRecords (f + 1) (v :: rest) i fmt dsKeys =
      (_prepare_report f v fmt (i_index_omit_keys i dsKeys)).bind fun v' =>
        (prepRecords f rest (i + 1) fmt dsKeys).bind fun tail =>
          .ok (v' :: tail) := rfl

/-- Unfolding equation of the loop iteration on a kept dict-valued entry. -/
theorem prepEntry_dict_eq (f : Nat) (key : String) (kvs' : List (String × Value))
    (fmt : Option String) (omitKeys : List String) (hc : omitKeys.contains key = false) :
    prepEntry (f + 1) key (.vdict kvs') fmt omitKeys =
      if key = "profile_schema" then .ok (some (key, .vdict kvs'))
      else
        match _prepare_report f (.vdict kvs') fmt (next_layer_omit_keys key omitKeys) with
        | .timeout => .timeout
        | .error => .error
        | .ok v' => .ok (some (key, v')) := by
  unfold prepEntry
  rw [if_neg (by simpa using hc)]
  rfl

/-- Unfolding equation of the loop iteration on a kept list-valued entry. -/
theorem prepEntry_vlist_eq (f : Nat) (key : String) (l : List Value)
    (fmt : Option String) (omitKeys : List String) (hc : omitKeys.contains key = false) :
    prepEntry (f + 1) key (.vlist l) fmt omitKeys =
      if key = "data_stats" then
        match prepRecords f l 0 fmt (next_layer_omit_keys "data_stats" omitKeys) with
        | .timeout => .timeout
        | .error => .error
        | .ok outl => .ok (some (key, .vlist outl))
      else if key = "profile_schema" then .ok (some (key, .vlist l))
      else seqLeaf f key (.vlist l) l fmt := by
  unfold prepEntry
  rw [if_neg (by simpa using hc)]
  rfl

/-- Unfolding equation of the loop iteration on a kept ndarray-valued
entry. -/
theorem prepEntry_vndarray_eq (f : Nat) (key : String) (l : List Value)
    (fmt : Option String) (omitKeys : List String)
    (hc : omitKeys.contains key = false) :
    prepEntry (f + 1) key (.vndarray l) fmt omitKeys =
      if key = "profile_schema" then .ok (some (key, .vndarray l))
      else seqLeaf f key (.vndarray l) l fmt := by
  unfold prepEntry
  rw [if_neg (by simpa using hc)]
  rfl

/-- A set-valued entry behaves exactly as its sorted-list form. -/
theorem prepEntry_vset_eq (f : Nat) (key : String) (l : List Value)
    (fmt : Option String) (omitKeys : List String) :
    prepEntry (f + 1) key (.vset l) fmt omitKeys =
      prepEntry (f + 1) key (.vlist (sortValues l)) fmt omitKeys := rfl

/-- A successful dict-level transform is itself a dict level, produced by
the entry loop under the resolved omission keys (in a non-flat format). -/
theorem _prepare_report_ok_shape {f : Nat} {kvs : List (String × Value)}
    {fmt : Option String} {omitKeys : List String} {v : Value}
    (h : _prepare_report f (.vdict kvs) fmt omitKeys = .ok v)
    (hfmt : ¬ effFormat fmt = some "flat") :
    ∃ (f' : Nat) (omit2 : List String) (out : List (String × Value)),
      resolve_omit_keys kvs (effOmit fmt omitKeys) = some omit2 ∧
      prepEntries f' kvs (effFormat fmt) omit2 = .ok out ∧ v = .vdict out := by
  cases f with
  | zero => exact (nomatch h)
  | succ f =>
      rw [_prepare_report_succ_eq] at h
      split at h
      · exact (nomatch h)
      · rename_i omit2 hres
        split at h
        · exact (nomatch h)
        · exact (nomatch h)
        · rename_i out hent
          rw [if_neg hfmt] at h
          cases h
          exact ⟨f, omit2, out, hres, hent, rfl⟩

/-- The record loop of `data_stats` preserves list length and transforms
the record at each position with its positional residual keys. -/
theorem prepRecords_spec (l : List Value) :
    ∀ (fuel i : Nat) (fmt : Option String) (dsKeys : List String) (outl : List Value),
      prepRecords fuel l i fmt dsKeys = .ok outl →
      outl.length = l.length ∧
      ∀ (j : Nat) (rec : Value), l.get? j = some rec →
        ∃ v', outl.get? j = some v' ∧
          ∃ f', _prepare_report f' rec fmt (i_index_omit_keys (i + j) dsKeys) = .ok v' := by
  induction l with
  | nil =>
      intro fuel i fmt dsKeys outl h
      cases fuel with
      | zero => exact (nomatch h)
      | succ f =>
          cases h
          exact ⟨rfl, fun j rec hj => (nomatch hj)⟩
  | cons v rest ih =>
      intro fuel i fmt dsKeys outl h
      cases fuel with
      | zero => exact (nomatch h)
      | succ f =>
          rw [prepRecords_cons] at h
          obtain ⟨v', hv', h2⟩ := PRes.bind_eq_ok h
          obtain ⟨tail, htail, h3⟩ := PRes.bind_eq_ok h2
          cases h3
          obtain ⟨hlen, hpt⟩ := ih f (i + 1) fmt dsKeys tail htail
          refine ⟨by simp [hlen], ?_⟩
          intro j rec hj
          cases j with
          | zero =>
              simp only [List.get?] at hj
              cases hj
              exact ⟨v', by simp, f, by simpa using hv'⟩
          | succ n =>
              simp only [List.get?] at hj
              obtain ⟨v'', hv'', f', hrec⟩ := hpt n rec hj
              refine ⟨v'', by simpa using hv'', f', ?_⟩
              rw [show i + (n + 1) = i + 1 + n by omega]
              exact hrec

/-- A kept dict-valued entry (other than `profile_schema`) is the result of
the recursive call under its residual keys. -/
theorem prepEntry_dict {f : Nat} {key : String} {kvs' : List (String × Value)}
    {fmt : Option String} {omitKeys : List String} {v' : Value}
    (h : prepEntry f key (.vdict kvs') fmt omitKeys = .ok (some (key, v')))
    (hkey : ¬ key = "profile_schema") :
    ∃ f', _prepare_report f' (.vdict kvs') fmt (next_layer_omit_keys key omitKeys) = .ok v' := by
  cases f with
  | zero => exact (nomatch h)
  | succ f =>
      by_cases hc : omitKeys.contains key = true
      · unfold prepEntry at h
        rw [if_pos (by simpa using hc)] at h
        simp at h
      · rw [prepEntry_dict_eq f key kvs' fmt omitKeys (by simpa using hc)] at h
        rw [if_neg hkey] at h
        split at h
        · exact (nomatch h)
        · exact (nomatch h)
        · rename_i w hw
          refine ⟨f, ?_⟩
          rw [hw]
          have : w = v' := by
            have h1 := Option.some.inj (PRes.ok.inj h)
            exact congrArg Prod.snd h1
          rw [this]

/-- A kept `data_stats` entry holding a list is the result of the record
loop under the `data_stats` residual keys. -/
theorem prepEntry_data_stats {f : Nat} {l : List Value}
    {fmt : Option String} {omitKeys : List String} {v' : Value}
    (h : prepEntry f "data_stats" (.vlist l) fmt omitKeys = .ok (some ("data_stats", v'))) :
    ∃ f' outl, v' = .vlist outl ∧
      prepRecords f' l 0 fmt (next_layer_omit_keys "data_stats" omitKeys) = .ok outl := by
  cases f with
  | zero => exact (nomatch h)
  | succ f =>
      by_cases hc : omitKeys.contains "data_stats" = true
      · unfold prepEntry at h
        rw [if_pos (by simpa using hc)] at h
        simp at h
      · rw [prepEntry_vlist_eq f "data_stats" l fmt omitKeys (by simpa using hc)] at h
        rw [if_pos rfl] at h
        split at h
        · exact (nomatch h)
        · exact (nomatch h)
        · rename_i outl houtl
          refine ⟨f, outl, ?_, houtl⟩
          have h1 := Option.some.inj (PRes.ok.inj h)
          exact (congrArg Prod.snd h1).symm

/-- C4 counterexample: with the omission list `["*"]` the transformer keeps
every key that is not literally named `"*"`; the level is not emptied (the
claim requires `{}`). -/
theorem c4_counterexample :
    _prepare_report 10 (.vdict [("a", .vint 1)]) none ["*"] =
      .ok (.vdict [("a", .vint 1)]) ∧
    (.ok (.vdict [("a", .vint 1)]) : PRes Value) ≠ .ok (.vdict []) := by
  refine ⟨rfl, ?_⟩
  intro hfalse
  simp at hfalse

/-- C4 (amended): the single-segment path `*` receives no wildcard meaning
at the key-omission step: `key in omit_keys` is literal string membership,
so the omission list `["*"]` removes exactly the keys literally named `"*"`
and keeps every other key; total suppression of a level does not occur. -/
theorem c4_amended_star_matches_literal_only (fuel : Nat)
    (kvs out : List (String × Value)) (fmt : Option String)
    (hfmt : ¬ effFormat fmt = some "flat")
    (hcpt : ¬ fmt.map strLower = some "compact")
    (h : _prepare_report fuel (.vdict kvs) fmt ["*"] = .ok (.vdict out)) :
    out.map Prod.fst = (kvs.map Prod.fst).filter (fun k => !(k == "*")) := by
  obtain ⟨f', omit2, out', hres, hent, hout⟩ := _prepare_report_ok_shape h hfmt
  have heo : effOmit fmt ["*"] = ["*"] := by
    unfold effOmit
    rw [if_neg hcpt]
  rw [heo] at hres
  have hres' : resolve_omit_keys kvs ["*"] = some ["*"] := rfl
  rw [hres'] at hres
  cases hres
  have hkeys := prepEntries_keys kvs f' (effFormat fmt) ["*"] out' hent
  have hoe : out = out' := by
    injection hout with h1
  rw [hoe, hkeys]
  apply List.filter_congr
  intro k _
  by_cases hk : k = "*"
  · subst hk; rfl
  · simp [hk]

/-- Witness for the amended C4: with keys `a` and `*` at one level, the
omission list `["*"]` removes exactly the key literally named `*`. -/
theorem c4_witness :
    ([("a", Value.vint 1)] : List (String × Value)).map Prod.fst =
      (([("a", Value.vint 1), ("*", Value.vint 2)] : List (String × Value)).map
        Prod.fst).filter (fun k => !(k == "*")) :=
  c4_amended_star_matches_literal_only 10 [("a", Value.vint 1), ("*", Value.vint 2)]
    [("a", Value.vint 1)] none (by decide) (by decide) (by rfl)

/-- C1 counterexample: the omission path `data_stats.colA` — resolved via
`profile_schema` to the positional form `data_stats.0`, which per the
specified omission rules entirely omits record 0 — leaves the record intact
at position 0 instead of emitting a null placeholder: the whole transform
is the identity here, and position 0 of the output `data_stats` is the
(non-null) record itself. -/
theorem c1_counterexample :
    _prepare_report 30
        (.vdict [("global_stats",
                   .vdict [("profile_schema", .vdict [("colA", .vlist [.vint 0])])]),
                 ("data_stats", .vlist [.vdict [("a", .vint 1)]])])
        none ["data_stats.colA"] =
      .ok (.vdict [("global_stats",
                     .vdict [("profile_schema", .vdict [("colA", .vlist [.vint 0])])]),
                   ("data_stats", .vlist [.vdict [("a", .vint 1)]])]) ∧
    ((Value.vdict [("global_stats",
        .vdict [("profile_schema", .vdict [("colA", .vlist [.vint 0])])]),
      ("data_stats", .vlist [.vdict [("a", .vint 1)]])]).getKey "data_stats" >>=
        fun d => d.getIdx 0) = some (.vdict [("a", .vint 1)]) ∧
    (Value.vdict [("a", .vint 1)]).isNull = false :=
  ⟨rfl, rfl, rfl⟩

/-- C1 (amended): for a `data_stats` list entry that is not itself omitted,
the output holds at the same key a list of the same length, and the record
at every position is the recursive transform of the input record under its
positional residual keys.  No record is ever replaced by a null
placeholder: record-level omission does not occur (a path that addresses a
whole record with no residual is silently dropped by the residual-key
filters), so every position holds a transformed record. -/
theorem c1_amended_positional_records_transformed
    (fuel : Nat) (kvs out : List (String × Value)) (fmt : Option String)
    (omitKeys omit2 : List String) (dsl : List Value)
    (hfmt : ¬ effFormat fmt = some "flat")
    (h : _prepare_report fuel (.vdict kvs) fmt omitKeys = .ok (.vdict out))
    (hres : resolve_omit_keys kvs (effOmit fmt omitKeys) = some omit2)
    (hds : lookupKey kvs "data_stats" = some (.vlist dsl))
    (hno : omit2.contains "data_stats" = false) :
    ∃ outl, lookupKey out "data_stats" = some (.vlist outl) ∧
      outl.length = dsl.length ∧
      ∀ (j : Nat) (rec : Value), dsl.get? j = some rec →
        ∃ v', outl.get? j = some v' ∧
          ∃ f', _prepare_report f' rec (effFormat fmt)
            (i_index_omit_keys j (next_layer_omit_keys "data_stats" omit2)) = .ok v' := by
  obtain ⟨f', omit2', out', hres', hent, hout⟩ := _prepare_report_ok_shape h hfmt
  rw [hres] at hres'
  cases hres'
  obtain ⟨f'', v', hpe, hlk⟩ := prepEntries_lookup kvs f' (effFormat fmt) omit2 out'
    "data_stats" (.vlist dsl) hent hds hno
  obtain ⟨f3, outl, hv', hrecs⟩ := prepEntry_data_stats hpe
  subst hv'
  obtain ⟨hlen, hpt⟩ := prepRecords_spec dsl f3 0 (effFormat fmt)
    (next_layer_omit_keys "data_stats" omit2) outl hrecs
  have hoe : out = out' := by injection hout
  refine ⟨outl, by rw [hoe]; exact hlk, hlen, ?_⟩
  intro j rec hj
  obtain ⟨v', hv', f4, hrec⟩ := hpt j rec hj
  exact ⟨v', hv', f4, by simpa using hrec⟩

/-- Witness for the amended C1 at a two-record `data_stats` with the
wildcard omission `data_stats.*.a`. -/
theorem c1_witness :
    ∃ outl,
      lookupKey [("data_stats", Value.vlist [Value.vdict [], Value.vdict [("b", Value.vint 2)]])]
        "data_stats" = some (.vlist outl) ∧
      outl.length =
        ([Value.vdict [("a", Value.vint 1)], Value.vdict [("b", Value.vint 2)]] : List Value).length ∧
      ∀ (j : Nat) (rec : Value),
        ([Value.vdict [("a", Value.vint 1)], Value.vdict [("b", Value.vint 2)]] : List Value).get? j =
          some rec →
        ∃ v', outl.get? j = some v' ∧
          ∃ f', _prepare_report f' rec (effFormat none)
            (i_index_omit_keys j (next_layer_omit_keys "data_stats" ["data_stats.*.a"])) = .ok v' :=
  c1_amended_positional_records_transformed 30
    [("data_stats", Value.vlist [Value.vdict [("a", Value.vint 1)], Value.vdict [("b", Value.vint 2)]])]
    [("data_stats", Value.vlist [Value.vdict [], Value.vdict [("b", Value.vint 2)]])]
    none ["data_stats.*.a"] ["data_stats.*.a"]
    [Value.vdict [("a", Value.vint 1)], Value.vdict [("b", Value.vint 2)]]
    (by decide) (by rfl) (by rfl) (by rfl) (by rfl)

/-- C3 counterexample: the three-segment path `*.statistics.histogram` never
reaches inside `data_stats` records — its second segment is matched against
the record's positional index (a digit string) or `*`, not against the
record's `statistics` field — so the histogram of every column survives:
the whole transform is the identity on this report. -/
theorem c3_counterexample :
    _prepare_report 30
        (.vdict [("data_stats",
          .vlist [.vdict [("statistics",
            .vdict [("histogram", .vint 1), ("mean", .vint 2)])]])])
        none ["*.statistics.histogram"] =
      .ok (.vdict [("data_stats",
            .vlist [.vdict [("statistics",
              .vdict [("histogram", .vint 1), ("mean", .vint 2)])]])]) ∧
    ((Value.vdict [("statistics",
        .vdict [("histogram", .vint 1), ("mean", .vint 2)])]).getKey "statistics" >>=
      fun s => s.getKey "histogram") = some (.vint 1) :=
  ⟨rfl, rfl⟩

/-- C3 (amended): the omission path that removes the `histogram` field from
every column's `statistics` regardless of column name is the four-segment
`data_stats.*.statistics.histogram` (as used by the compact shortcut), not
`*.statistics.histogram`: under it, every record's `statistics` loses
exactly its `histogram` field while all other statistics fields remain, in
order. -/
theorem c3_amended_data_stats_wildcard_histogram
    (fuel : Nat) (kvs out : List (String × Value)) (fmt : Option String) (dsl : List Value)
    (hfmt : effFormat fmt = none ∨ effFormat fmt = some "pretty" ∨
            effFormat fmt = some "serializable")
    (hcpt : ¬ fmt.map strLower = some "compact")
    (h : _prepare_report fuel (.vdict kvs) fmt ["data_stats.*.statistics.histogram"] =
          .ok (.vdict out))
    (hds : lookupKey kvs "data_stats" = some (.vlist dsl)) :
    ∃ outl, lookupKey out "data_stats" = some (.vlist outl) ∧
      outl.length = dsl.length ∧
      ∀ (j : Nat) (rkvs skvs : List (String × Value)),
        dsl.get? j = some (.vdict rkvs) →
        lookupKey rkvs "statistics" = some (.vdict skvs) →
        ∃ (orkvs oskvs : List (String × Value)),
          outl.get? j = some (.vdict orkvs) ∧
          lookupKey orkvs "statistics" = some (.vdict oskvs) ∧
          oskvs.map Prod.fst = (skvs.map Prod.fst).filter (fun k => !(k == "histogram")) := by
  have hF : effFormat (effFormat fmt) = effFormat fmt := by
    rcases hfmt with h1 | h1 | h1 <;> rw [h1] <;> rfl
  have hFflat : ¬ effFormat fmt = some "flat" := by
    rcases hfmt with h1 | h1 | h1 <;> rw [h1] <;> decide
  have hFFflat : ¬ effFormat (effFormat fmt) = some "flat" := by rw [hF]; exact hFflat
  have hFcpt : ¬ (effFormat fmt).map strLower = some "compact" := by
    rcases hfmt with h1 | h1 | h1 <;> rw [h1] <;> decide
  have heo : effOmit fmt ["data_stats.*.statistics.histogram"] =
      ["data_stats.*.statistics.histogram"] := by
    unfold effOmit
    rw [if_neg hcpt]
  have hres : resolve_omit_keys kvs (effOmit fmt ["data_stats.*.statistics.histogram"]) =
      some ["data_stats.*.statistics.histogram"] := by
    rw [heo]
    rfl
  obtain ⟨outl, hlk, hlen, hpt⟩ :=
    c1_amended_positional_records_transformed fuel kvs out fmt
      ["data_stats.*.statistics.histogram"] ["data_stats.*.statistics.histogram"] dsl
      hFflat h hres hds rfl
  refine ⟨outl, hlk, hlen, ?_⟩
  intro j rkvs skvs hj hstat
  obtain ⟨v', hv', f', hrec⟩ := hpt j (.vdict rkvs) hj
  have hik : i_index_omit_keys j
      (next_layer_omit_keys "data_stats" ["data_stats.*.statistics.histogram"]) =
      ["statistics.histogram"] := rfl
  rw [hik] at hrec
  obtain ⟨f2, omit2r, orkvs, hres2, hent2, hv'eq⟩ := _prepare_report_ok_shape hrec hFFflat
  subst hv'eq
  have heo2 : effOmit (effFormat fmt) ["statistics.histogram"] = ["statistics.histogram"] := by
    unfold effOmit
    rw [if_neg hFcpt]
  rw [heo2] at hres2
  have hres2' : resolve_omit_keys rkvs ["statistics.histogram"] =
      some ["statistics.histogram"] := rfl
  rw [hres2'] at hres2
  cases hres2
  obtain ⟨f3, v2, hpe2, hlk2⟩ := prepEntries_lookup rkvs f2 (effFormat (effFormat fmt))
    ["statistics.histogram"] orkvs "statistics" (.vdict skvs) hent2 hstat rfl
  obtain ⟨f4, hrec2⟩ := prepEntry_dict hpe2 (by decide)
  have hnl : next_layer_omit_keys "statistics" ["statistics.histogram"] = ["histogram"] := rfl
  rw [hnl, hF] at hrec2
  obtain ⟨f5, omit3, oskvs, hres3, hent3, hv2eq⟩ := _prepare_report_ok_shape hrec2 hFFflat
  subst hv2eq
  have heo3 : effOmit (effFormat fmt) ["histogram"] = ["histogram"] := by
    unfold effOmit
    rw [if_neg hFcpt]
  rw [heo3] at hres3
  have hres3' : resolve_omit_keys skvs ["histogram"] = some ["histogram"] := rfl
  rw [hres3'] at hres3
  cases hres3
  have hkeys := prepEntries_keys skvs f5 (effFormat (effFormat fmt)) ["histogram"] oskvs hent3
  refine ⟨orkvs, oskvs, hv', hlk2, ?_⟩
  rw [hkeys]
  apply List.filter_congr
  intro k _
  by_cases hk : k = "histogram"
  · subst hk; rfl
  · simp [hk]

/-- Witness for the amended C3 on a one-column report whose statistics hold
a histogram and a mean. -/
theorem c3_witness :
    ∃ outl,
      lookupKey [("data_stats",
          Value.vlist [Value.vdict [("statistics", Value.vdict [("mean", Value.vint 2)])]])]
        "data_stats" = some (.vlist outl) ∧
      outl.length = ([Value.vdict [("statistics",
          Value.vdict [("histogram", Value.vint 1), ("mean", Value.vint 2)])]] : List Value).length ∧
      ∀ (j : Nat) (rkvs skvs : List (String × Value)),
        ([Value.vdict [("statistics",
            Value.vdict [("histogram", Value.vint 1), ("mean", Value.vint 2)])]] : List Value).get? j =
          some (.vdict rkvs) →
        lookupKey rkvs "statistics" = some (.vdict skvs) →
        ∃ (orkvs oskvs : List (String × Value)),
          outl.get? j = some (.vdict orkvs) ∧
          lookupKey orkvs "statistics" = some (.vdict oskvs) ∧
          oskvs.map Prod.fst = (skvs.map Prod.fst).filter (fun k => !(k == "histogram")) :=
  c3_amended_data_stats_wildcard_histogram 30
    [("data_stats",
      Value.vlist [Value.vdict [("statistics",
        Value.vdict [("histogram", Value.vint 1), ("mean", Value.vint 2)])]])]
    [("data_stats", Value.vlist [Value.vdict [("statistics", Value.vdict [("mean", Value.vint 2)])]])]
    none
    [Value.vdict [("statistics", Value.vdict [("histogram", Value.vint 1), ("mean", Value.vint 2)])]]
    (Or.inl rfl) (by decide) (by rfl) (by rfl)

/-! ### Fuel monotonicity -/

theorem tolist_mono (f : Nat) :
    (∀ v r, tolistF f v = some r → ∀ g, f ≤ g → tolistF g v = some r) ∧
    (∀ l r, tolistLF f l = some r → ∀ g, f ≤ g → tolistLF g l = some r) := by
  induction f with
  | zero => exact ⟨fun v r h => (nomatch h), fun l r h => (nomatch h)⟩
  | succ f ih =>
      constructor
      · intro v r h g hg
        cases g with
        | zero => omega
        | succ g' =>
            have hg' : f ≤ g' := by omega
            cases v
            case vndarray l =>
              unfold tolistF at h ⊢
              cases hl : tolistLF f l with
              | none => rw [hl] at h; exact (nomatch h)
              | some l' =>
                  rw [hl] at h
                  rw [ih.2 l l' hl g' hg']
                  exact h
            all_goals exact h
      · intro l r h g hg
        cases g with
        | zero => omega
        | succ g' =>
            have hg' : f ≤ g' := by omega
            cases l with
            | nil => exact h
            | cons x xs =>
                unfold tolistLF at h ⊢
                cases hx : tolistF f x with
                | none => simp [hx] at h
                | some x' =>
                    cases hxs : tolistLF f xs with
                    | none => simp [hx, hxs] at h
                    | some xs' =>
                        simp [hx, hxs] at h
                        simp [ih.1 x x' hx g' hg', ih.2 xs xs' hxs g' hg']
                        exact h

theorem flat_mono (f : Nat) :
    (∀ od sep key r, flat_dictF f od sep key = some r →
        ∀ g, f ≤ g → flat_dictF g od sep key = some r) ∧
    (∀ kvs sep r, flat_entriesF f kvs sep = some r →
        ∀ g, f ≤ g → flat_entriesF g kvs sep = some r) := by
  induction f with
  | zero => exact ⟨fun _ _ _ _ h => (nomatch h), fun _ _ _ h => (nomatch h)⟩
  | succ f ih =>
      constructor
      · intro od sep key r h g hg
        cases g with
        | zero => omega
        | succ g' =>
            have hg' : f ≤ g' := by omega
            cases od
            case vdict kvs =>
              unfold flat_dictF at h ⊢
              cases hk : flat_entriesF f kvs sep with
              | none => simp [hk] at h
              | some inner =>
                  simp [hk] at h
                  simp [ih.2 kvs sep inner hk g' hg']
                  exact h
            all_goals exact h
      · intro kvs sep r h g hg
        cases g with
        | zero => omega
        | succ g' =>
            have hg' : f ≤ g' := by omega
            cases kvs with
            | nil => exact h
            | cons e rest =>
                obtain ⟨kk, vv⟩ := e
                unfold flat_entriesF at h ⊢
                cases hd : flat_dictF f vv sep kk with
                | none => simp [hd] at h
                | some hdl =>
                    cases ht : flat_entriesF f rest sep with
                    | none => simp [hd, ht] at h
                    | some tl =>
                        simp [hd, ht] at h
                        simp [ih.1 vv sep kk hdl hd g' hg', ih.2 rest sep tl ht g' hg']
                        exact h

theorem match_bind {α β : Type} (x : PRes α) (k : α → PRes β) :
    (match x with | .timeout => PRes.timeout | .error => PRes.error | .ok a => k a) =
      x.bind k := by
  cases x <;> rfl

/-- A non-dict report argument raises (models the `TypeError`/`KeyError` of
iterating/indexing it). -/
theorem _prepare_report_nondict (f : Nat) (r : Value) (fmt : Option String)
    (oks : List String) (hr : isVdict r = false) :
    _prepare_report (f + 1) r fmt oks = .error := by
  cases r <;> first | rfl | simp [isVdict] at hr

theorem _prepare_report_resolve_error_eq (f : Nat) (kvs : List (String × Value))
    (fmt : Option String) (oks : List String)
    (hres : resolve_omit_keys kvs (effOmit fmt oks) = none) :
    _prepare_report (f + 1) (.vdict kvs) fmt oks = .error := by
  rw [_prepare_report_succ_eq, hres]

/-- Unfolding of a dict-level transform once the omission keys resolved. -/
theorem _prepare_report_resolved_eq (f : Nat) (kvs : List (String × Value))
    (fmt : Option String) (oks : List String) (omit2 : List String)
    (hres : resolve_omit_keys kvs (effOmit fmt oks) = some omit2) :
    _prepare_report (f + 1) (.vdict kvs) fmt oks =
      match prepEntries f kvs (effFormat fmt) omit2 with
      | .timeout => .timeout
      | .error => .error
      | .ok out =>
          if effFormat fmt = some "flat" then
            match flat_dictF f (.vdict out) "_" "" with
            | none => .timeout
            | some fl => .ok (.vdict fl)
          else .ok (.vdict out) := by
  rw [_prepare_report_succ_eq, hres]

/-- If the entry loop times out, so does the level transform. -/
theorem _prepare_report_entries_timeout_eq (f : Nat) (kvs : List (String × Value))
    (fmt : Option String) (oks : List String) (omit2 : List String)
    (hres : resolve_omit_keys kvs (effOmit fmt oks) = some omit2)
    (hE : prepEntries f kvs (effFormat fmt) omit2 = .timeout) :
    _prepare_report (f + 1) (.vdict kvs) fmt oks = .timeout := by
  rw [_prepare_report_resolved_eq f kvs fmt oks omit2 hres, hE]

/-- If the entry loop raises, so does the level transform. -/
theorem _prepare_report_entries_error_eq (f : Nat) (kvs : List (String × Value))
    (fmt : Option String) (oks : List String) (omit2 : List String)
    (hres : resolve_omit_keys kvs (effOmit fmt oks) = some omit2)
    (hE : prepEntries f kvs (effFormat fmt) omit2 = .error) :
    _prepare_report (f + 1) (.vdict kvs) fmt oks = .error := by
  rw [_prepare_report_resolved_eq f kvs fmt oks omit2 hres, hE]

/-- A successful entry loop determines the level transform's result. -/
theorem _prepare_report_entries_ok_eq (f : Nat) (kvs : List (String × Value))
    (fmt : Option String) (oks : List String) (omit2 : List String)
    (out : List (String × Value))
    (hres : resolve_omit_keys kvs (effOmit fmt oks) = some omit2)
    (hE : prepEntries f kvs (effFormat fmt) omit2 = .ok out) :
    _prepare_report (f + 1) (.vdict kvs) fmt oks =
      if effFormat fmt = some "flat" then
        match flat_dictF f (.vdict out) "_" "" with
        | none => .timeout
        | some fl => .ok (.vdict fl)
      else .ok (.vdict out) := by
  rw [_prepare_report_resolved_eq f kvs fmt oks omit2 hres, hE]

/-- `seqLeaf` at larger fuel gives the same non-timeout result. -/
theorem seqLeaf_mono {f : Nat} {key : String} {value : Value} {l : List Value}
    {fmt : Option String} {res : PRes (Option (String × Value))}
    (h : seqLeaf f key value l fmt = res) (hnt : res ≠ .timeout) :
    ∀ g, f ≤ g → seqLeaf g key value l fmt = res := by
  intro g hg
  unfold seqLeaf at h ⊢
  by_cases h1 : fmt = some "pretty"
  · rw [if_pos h1] at h ⊢
    exact h
  · rw [if_neg h1] at h ⊢
    by_cases h2 : fmt = some "serializable" ∧ isVndarray value = true
    · rw [if_pos h2] at h ⊢
      cases ht : tolistF f value with
      | none => rw [ht] at h; exact absurd h.symm hnt
      | some v' =>
          rw [ht] at h
          rw [(tolist_mono f).1 value v' ht g hg]
          exact h
    · rw [if_neg h2] at h ⊢
      exact h

/-- Fuel monotonicity: any non-timeout result of the transformer is stable
under increasing the fuel. -/
theorem prep_mono_all (f : Nat) :
    (∀ r fmt oks res, _prepare_report f r fmt oks = res → res ≠ .timeout →
        ∀ g, f ≤ g → _prepare_report g r fmt oks = res) ∧
    (∀ kvs fmt oks res, prepEntries f kvs fmt oks = res → res ≠ .timeout →
        ∀ g, f ≤ g → prepEntries g kvs fmt oks = res) ∧
    (∀ key v fmt oks res, prepEntry f key v fmt oks = res → res ≠ .timeout →
        ∀ g, f ≤ g → prepEntry g key v fmt oks = res) ∧
    (∀ l i fmt ds res, prepRecords f l i fmt ds = res → res ≠ .timeout →
        ∀ g, f ≤ g → prepRecords g l i fmt ds = res) := by
  induction f with
  | zero =>
      refine ⟨?_, ?_, ?_, ?_⟩
      · intro _ _ _ res h hnt _ _
        exact absurd h.symm hnt
      · intro _ _ _ res h hnt _ _
        exact absurd h.symm hnt
      · intro _ _ _ _ res h hnt _ _
        exact absurd h.symm hnt
      · intro _ _ _ _ res h hnt _ _
        exact absurd h.symm hnt
  | succ f ih =>
      obtain ⟨ihP, ihE, ihEn, ihR⟩ := ih
      refine ⟨?_, ?_, ?_, ?_⟩
      · intro r fmt oks res h hnt g hg
        cases g with
        | zero => omega
        | succ g' =>
            have hg' : f ≤ g' := by omega
            by_cases hd : isVdict r = true
            · obtain ⟨kvs, rfl⟩ : ∃ kvs, r = .vdict kvs := by
                cases r <;> simp [isVdict] at hd <;> exact ⟨_, rfl⟩
              cases hres : resolve_omit_keys kvs (effOmit fmt oks) with
              | none =>
                  rw [_prepare_report_resolve_error_eq f kvs fmt oks hres] at h
                  rw [_prepare_report_resolve_error_eq g' kvs fmt oks hres]
                  exact h
              | some omit2 =>
                  cases hE : prepEntries f kvs (effFormat fmt) omit2 with
                  | timeout =>
                      rw [_prepare_report_entries_timeout_eq f kvs fmt oks omit2
                        hres hE] at h
                      exact absurd h.symm hnt
                  | error =>
                      rw [_prepare_report_entries_error_eq f kvs fmt oks omit2
                        hres hE] at h
                      rw [_prepare_report_entries_error_eq g' kvs fmt oks omit2
                        hres (ihE _ _ _ _ hE nofun g' hg')]
                      exact h
                  | ok out =>
                      rw [_prepare_report_entries_ok_eq f kvs fmt oks omit2 out
                        hres hE] at h
                      rw [_prepare_report_entries_ok_eq g' kvs fmt oks omit2 out
                        hres (ihE _ _ _ _ hE nofun g' hg')]
                      by_cases hf : effFormat fmt = some "flat"
                      · rw [if_pos hf] at h ⊢
                        cases hfl : flat_dictF f (.vdict out) "_" "" with
                        | none => rw [hfl] at h; exact absurd h.symm hnt
                        | some fl =>
                            rw [hfl] at h
                            rw [(flat_mono f).1 _ _ _ fl hfl g' hg']
                            exact h
                      · rw [if_neg hf] at h ⊢
                        exact h
            · have hd' : isVdict r = false := by simpa using hd
              rw [_prepare_report_nondict f r fmt oks hd'] at h
              rw [_prepare_report_nondict g' r fmt oks hd']
              exact h
      · intro kvs fmt oks res h hnt g hg
        cases g with
        | zero => omega
        | succ g' =>
            have hg' : f ≤ g' := by omega
            cases kvs with
            | nil => exact h
            | cons e rest =>
                obtain ⟨key, value⟩ := e
                rw [prepEntries_cons] at h ⊢
                cases hH : prepEntry f key value fmt oks with
                | timeout => rw [hH, PRes.bind_timeout] at h; exact absurd h.symm hnt
                | error =>
                    rw [hH, PRes.bind_error] at h
                    rw [ihEn _ _ _ _ _ hH nofun g' hg', PRes.bind_error]
                    exact h
                | ok ho =>
                    rw [hH, PRes.bind_ok] at h
                    rw [ihEn _ _ _ _ _ hH nofun g' hg', PRes.bind_ok]
                    cases hT : prepEntries f rest fmt oks with
                    | timeout => rw [hT, PRes.bind_timeout] at h; exact absurd h.symm hnt
                    | error =>
                        rw [hT, PRes.bind_error] at h
                        rw [ihE _ _ _ _ hT nofun g' hg', PRes.bind_error]
                        exact h
                    | ok tail =>
                        rw [hT, PRes.bind_ok] at h
                        rw [ihE _ _ _ _ hT nofun g' hg', PRes.bind_ok]
                        exact h
      · intro key v fmt oks res h hnt g hg
        cases g with
        | zero => omega
        | succ g' =>
            have hg' : f ≤ g' := by omega
            by_cases hc : oks.contains key = true
            · unfold prepEntry at h ⊢
              rw [if_pos hc] at h ⊢
              exact h
            · have hc' : oks.contains key = false := by simpa using hc
              cases v with
              | vstr s => exact h
              | vint n => exact h
              | vfloat q => exact h
              | vbool b => exact h
              | vnone => exact h
              | vndarray l =>
                  rw [prepEntry_vndarray_eq f key l fmt oks hc'] at h
                  rw [prepEntry_vndarray_eq g' key l fmt oks hc']
                  by_cases hps : key = "profile_schema"
                  · rw [if_pos hps] at h ⊢
                    exact h
                  · rw [if_neg hps] at h ⊢
                    exact seqLeaf_mono h hnt g' hg'
              | vlist l =>
                  rw [prepEntry_vlist_eq f key l fmt oks hc'] at h
                  rw [prepEntry_vlist_eq g' key l fmt oks hc']
                  by_cases hds : key = "data_stats"
                  · rw [if_pos hds] at h ⊢
                    cases hR : prepRecords f l 0 fmt (next_layer_omit_keys "data_stats" oks) with
                    | timeout => rw [hR] at h; exact absurd h.symm hnt
                    | error =>
                        rw [hR] at h
                        rw [ihR _ _ _ _ _ hR nofun g' hg']
                        exact h
                    | ok outl =>
                        rw [hR] at h
                        rw [ihR _ _ _ _ _ hR nofun g' hg']
                        exact h
                  · rw [if_neg hds] at h ⊢
                    by_cases hps : key = "profile_schema"
                    · rw [if_pos hps] at h ⊢
                      exact h
                    · rw [if_neg hps] at h ⊢
                      exact seqLeaf_mono h hnt g' hg'
              | vset l =>
                  rw [prepEntry_vset_eq f key l fmt oks] at h
                  rw [prepEntry_vset_eq g' key l fmt oks]
                  rw [prepEntry_vlist_eq f key (sortValues l) fmt oks hc'] at h
                  rw [prepEntry_vlist_eq g' key (sortValues l) fmt oks hc']
                  by_cases hds : key = "data_stats"
                  · rw [if_pos hds] at h ⊢
                    cases hR : prepRecords f (sortValues l) 0 fmt
                        (next_layer_omit_keys "data_stats" oks) with
                    | timeout => rw [hR] at h; exact absurd h.symm hnt
                    | error =>
                        rw [hR] at h
                        rw [ihR _ _ _ _ _ hR nofun g' hg']
                        exact h
                    | ok outl =>
                        rw [hR] at h
                        rw [ihR _ _ _ _ _ hR nofun g' hg']
                        exact h
                  · rw [if_neg hds] at h ⊢
                    by_cases hps : key = "profile_schema"
                    · rw [if_pos hps] at h ⊢
                      exact h
                    · rw [if_neg hps] at h ⊢
                      exact seqLeaf_mono h hnt g' hg'
              | vdict kvs2 =>
                  rw [prepEntry_dict_eq f key kvs2 fmt oks hc'] at h
                  rw [prepEntry_dict_eq g' key kvs2 fmt oks hc']
                  by_cases hps : key = "profile_schema"
                  · rw [if_pos hps] at h ⊢
                    exact h
                  · rw [if_neg hps] at h ⊢
                    cases hP : _prepare_report f (.vdict kvs2) fmt
                        (next_layer_omit_keys key oks) with
                    | timeout => rw [hP] at h; exact absurd h.symm hnt
                    | error =>
                        rw [hP] at h
                        rw [ihP _ _ _ _ hP nofun g' hg']
                        exact h
                    | ok v' =>
                        rw [hP] at h
                        rw [ihP _ _ _ _ hP nofun g' hg']
                        exact h
      · intro l i fmt ds res h hnt g hg
        cases g with
        | zero => omega
        | succ g' =>
            have hg' : f ≤ g' := by omega
            cases l with
            | nil => exact h
            | cons v rest =>
                rw [prepRecords_cons] at h ⊢
                cases hH : _prepare_report f v fmt (i_index_omit_keys i ds) with
                | timeout => rw [hH, PRes.bind_timeout] at h; exact absurd h.symm hnt
                | error =>
                    rw [hH, PRes.bind_error] at h
                    rw [ihP _ _ _ _ hH nofun g' hg', PRes.bind_error]
                    exact h
                | ok v' =>
                    rw [hH, PRes.bind_ok] at h
                    rw [ihP _ _ _ _ hH nofun g' hg', PRes.bind_ok]
                    cases hT : prepRecords f rest (i + 1) fmt ds with
                    | timeout => rw [hT, PRes.bind_timeout] at h; exact absurd h.symm hnt
                    | error =>
                        rw [hT, PRes.bind_error] at h
                        rw [ihR _ _ _ _ _ hT nofun g' hg', PRes.bind_error]
                        exact h
                    | ok tail =>
                        rw [hT, PRes.bind_ok] at h
                        rw [ihR _ _ _ _ _ hT nofun g' hg', PRes.bind_ok]
                        exact h

/-! ### Sufficient fuel: enough fuel makes every auxiliary call succeed -/

theorem sizeOf_insertSorted (x : Value) : ∀ l : List Value,
    sizeOf (insertSorted x l) = 1 + sizeOf x + sizeOf l := by
  intro l
  induction l with
  | nil => simp [insertSorted]
  | cons y ys ih =>
      simp only [insertSorted]
      split
      · simp <;> omega
      · simp [ih] <;> omega

theorem sizeOf_sortValues (l : List Value) :
    sizeOf (sortValues l) = sizeOf l := by
  induction l with
  | nil => rfl
  | cons x xs ih =>
      simp [sortValues, sizeOf_insertSorted, ih] <;> omega

/-- Fuel `sizeOf` suffices for `tolistF` / `tolistLF`. -/
theorem tolist_suff (n : Nat) :
    (∀ v : Value, sizeOf v ≤ n → ∃ r, tolistF n v = some r) ∧
    (∀ l : List Value, sizeOf l ≤ n → ∃ r, tolistLF n l = some r) := by
  induction n with
  | zero =>
      constructor
      · intro v hv
        exact absurd hv (by cases v <;> simp)
      · intro l hl
        exact absurd hl (by cases l <;> simp)
  | succ n ih =>
      constructor
      · intro v hv
        cases v with
        | vndarray l =>
            have hl : sizeOf l ≤ n := by simp at hv; omega
            obtain ⟨r, hr⟩ := ih.2 l hl
            exact ⟨.vlist r, by simp [tolistF, hr]⟩
        | vstr s => exact ⟨_, rfl⟩
        | vint m => exact ⟨_, rfl⟩
        | vfloat q => exact ⟨_, rfl⟩
        | vbool b => exact ⟨_, rfl⟩
        | vnone => exact ⟨_, rfl⟩
        | vlist l => exact ⟨_, rfl⟩
        | vset l => exact ⟨_, rfl⟩
        | vdict kvs => exact ⟨_, rfl⟩
      · intro l hl
        cases l with
        | nil => exact ⟨[], rfl⟩
        | cons v rest =>
            have hv : sizeOf v ≤ n := by simp at hl; omega
            have hrest : sizeOf rest ≤ n := by simp at hl; omega
            obtain ⟨v', hv'⟩ := ih.1 v hv
            obtain ⟨r', hr'⟩ := ih.2 rest hrest
            exact ⟨v' :: r', by simp [tolistLF, hv', hr']⟩

/-- Fuel `sizeOf` suffices for `flat_dictF` / `flat_entriesF`. -/
theorem flat_suff (n : Nat) :
    (∀ (od : Value) (sep key : String), sizeOf od ≤ n →
        ∃ r, flat_dictF n od sep key = some r) ∧
    (∀ (kvs : List (String × Value)) (sep : String), sizeOf kvs ≤ n →
        ∃ r, flat_entriesF n kvs sep = some r) := by
  induction n with
  | zero =>
      constructor
      · intro od _ _ h
        exact absurd h (by cases od <;> simp)
      · intro kvs _ h
        exact absurd h (by cases kvs <;> simp)
  | succ n ih =>
      constructor
      · intro od sep key hod
        cases od with
        | vdict kvs =>
            have hk : sizeOf kvs ≤ n := by simp at hod; omega
            obtain ⟨inner, hin⟩ := ih.2 kvs sep hk
            refine ⟨inner.map fun p =>
              (if key = "" then p.1 else strReplaceSpace key ++ sep ++ p.1, p.2), ?_⟩
            simp [flat_dictF, hin]
        | vstr s => exact ⟨_, rfl⟩
        | vint m => exact ⟨_, rfl⟩
        | vfloat q => exact ⟨_, rfl⟩
        | vbool b => exact ⟨_, rfl⟩
        | vnone => exact ⟨_, rfl⟩
        | vlist l => exact ⟨_, rfl⟩
        | vndarray l => exact ⟨_, rfl⟩
        | vset l => exact ⟨_, rfl⟩
      · intro kvs sep hkvs
        cases kvs with
        | nil => exact ⟨[], rfl⟩
        | cons e rest =>
            obtain ⟨kk, vv⟩ := e
            have hv : sizeOf vv ≤ n := by simp at hkvs; omega
            have hrest : sizeOf rest ≤ n := by simp at hkvs; omega
            obtain ⟨hd, hhd⟩ := ih.1 vv sep kk hv
            obtain ⟨tl, htl⟩ := ih.2 rest sep hrest
            exact ⟨hd ++ tl, by simp [flat_entriesF, hhd, htl]⟩

theorem ite_ne_both {α : Type} {c : Prop} [Decidable c] {a b t : α}
    (ha : a ≠ t) (hb : b ≠ t) : (if c then a else b) ≠ t := by
  split
  · exact ha
  · exact hb

/-- Unfolding equation of the loop iteration on a kept float-valued entry. -/
theorem prepEntry_vfloat_eq (f : Nat) (key : String) (q : Rat)
    (fmt : Option String) (omitKeys : List String)
    (hc : omitKeys.contains key = false) :
    prepEntry (f + 1) key (.vfloat q) fmt omitKeys =
      if key = "profile_schema" then .ok (some (key, .vfloat q))
      else if fmt = some "pretty" then .ok (some (key, .vfloat (pyRound4 q)))
      else .ok (some (key, .vfloat q)) := by
  unfold prepEntry
  rw [if_neg (by simpa using hc)]
  rfl

/-- Sufficient fuel: every call of the transformer reaches a non-timeout
result at some finite fuel (by fuel monotonicity, at every larger fuel as
well). -/
theorem prep_suff_all (n : Nat) :
    (∀ r fmt oks, sizeOf r ≤ n →
        ∃ N res, _prepare_report N r fmt oks = res ∧ res ≠ PRes.timeout) ∧
    (∀ kvs fmt oks, sizeOf kvs ≤ n →
        ∃ N res, prepEntries N kvs fmt oks = res ∧ res ≠ PRes.timeout) ∧
    (∀ key v fmt oks, sizeOf v ≤ n →
        ∃ N res, prepEntry N key v fmt oks = res ∧ res ≠ PRes.timeout) ∧
    (∀ l i fmt ds, sizeOf l ≤ n →
        ∃ N res, prepRecords N l i fmt ds = res ∧ res ≠ PRes.timeout) := by
  induction n using Nat.strong_induction_on with
  | _ n ih =>
  have hP : ∀ r fmt oks, sizeOf r ≤ n →
      ∃ N res, _prepare_report N r fmt oks = res ∧ res ≠ PRes.timeout := by
    intro r fmt oks hr
    by_cases hd : isVdict r = true
    · obtain ⟨kvs, rfl⟩ : ∃ kvs, r = .vdict kvs := by
        cases r <;> simp [isVdict] at hd <;> exact ⟨_, rfl⟩
      have hkvs : sizeOf kvs < n := by simp at hr; omega
      cases hres : resolve_omit_keys kvs (effOmit fmt oks) with
      | none =>
          exact ⟨1, .error, _prepare_report_resolve_error_eq 0 kvs fmt oks hres, nofun⟩
      | some omit2 =>
          obtain ⟨N1, res1, h1, hnt1⟩ :=
            (ih (sizeOf kvs) hkvs).2.1 kvs (effFormat fmt) omit2 le_rfl
          cases res1 with
          | timeout => exact absurd rfl hnt1
          | error =>
              exact ⟨N1 + 1, .error,
                _prepare_report_entries_error_eq N1 kvs fmt oks omit2 hres h1, nofun⟩
          | ok out =>
              by_cases hf : effFormat fmt = some "flat"
              · obtain ⟨fl, hfl⟩ :=
                  (flat_suff (sizeOf (Value.vdict out))).1 (Value.vdict out) "_" "" le_rfl
                refine ⟨max N1 (sizeOf (Value.vdict out)) + 1, .ok (.vdict fl), ?_, nofun⟩
                have hE' : prepEntries (max N1 (sizeOf (Value.vdict out))) kvs
                    (effFormat fmt) omit2 = .ok out :=
                  (prep_mono_all N1).2.1 _ _ _ _ h1 nofun _ (le_max_left _ _)
                have hfl' : flat_dictF (max N1 (sizeOf (Value.vdict out)))
                    (.vdict out) "_" "" = some fl :=
                  (flat_mono _).1 _ _ _ _ hfl _ (le_max_right _ _)
                rw [_prepare_report_entries_ok_eq _ kvs fmt oks omit2 out hres hE',
                  if_pos hf, hfl']
              · refine ⟨N1 + 1, .ok (.vdict out), ?_, nofun⟩
                rw [_prepare_report_entries_ok_eq N1 kvs fmt oks omit2 out hres h1,
                  if_neg hf]
    · have hd' : isVdict r = false := by simpa using hd
      exact ⟨1, .error, _prepare_report_nondict 0 r fmt oks hd', nofun⟩
  have hRec : ∀ l i fmt ds, sizeOf l ≤ n →
      ∃ N res, prepRecords N l i fmt ds = res ∧ res ≠ PRes.timeout := by
    intro l
    induction l with
    | nil => exact fun i fmt ds _ => ⟨1, .ok [], rfl, nofun⟩
    | cons w rest ihl =>
        intro i fmt ds hl
        have hw : sizeOf w ≤ n := by simp at hl; omega
        have hrest : sizeOf rest ≤ n := by simp at hl; omega
        obtain ⟨N1, res1, h1, hnt1⟩ := hP w fmt (i_index_omit_keys i ds) hw
        cases res1 with
        | timeout => exact absurd rfl hnt1
        | error =>
            refine ⟨N1 + 1, .error, ?_, nofun⟩
            rw [prepRecords_cons, h1]
            rfl
        | ok w' =>
            obtain ⟨N2, res2, h2, hnt2⟩ := ihl (i + 1) fmt ds hrest
            cases res2 with
            | timeout => exact absurd rfl hnt2
            | error =>
                refine ⟨max N1 N2 + 1, .error, ?_, nofun⟩
                rw [prepRecords_cons,
                  (prep_mono_all N1).1 _ _ _ _ h1 nofun _ (le_max_left _ _),
                  (prep_mono_all N2).2.2.2 _ _ _ _ _ h2 nofun _ (le_max_right _ _)]
                rfl
            | ok tail =>
                refine ⟨max N1 N2 + 1, .ok (w' :: tail), ?_, nofun⟩
                rw [prepRecords_cons,
                  (prep_mono_all N1).1 _ _ _ _ h1 nofun _ (le_max_left _ _),
                  (prep_mono_all N2).2.2.2 _ _ _ _ _ h2 nofun _ (le_max_right _ _)]
                rfl
  have hEn : ∀ key v fmt oks, sizeOf v ≤ n →
      ∃ N res, prepEntry N key v fmt oks = res ∧ res ≠ PRes.timeout := by
    intro key v fmt oks hv
    by_cases hc : oks.contains key = true
    · refine ⟨1, .ok none, ?_, nofun⟩
      unfold prepEntry
      rw [if_pos hc]
    · have hc' : oks.contains key = false := by simpa using hc
      cases v with
      | vstr s =>
          refine ⟨1, .ok (some (key, .vstr s)), ?_, nofun⟩
          unfold prepEntry
          rw [if_neg hc]
          rfl
      | vint m =>
          refine ⟨1, .ok (some (key, .vint m)), ?_, nofun⟩
          unfold prepEntry
          rw [if_neg hc]
          rfl
      | vbool b =>
          refine ⟨1, .ok (some (key, .vbool b)), ?_, nofun⟩
          unfold prepEntry
          rw [if_neg hc]
          rfl
      | vnone =>
          refine ⟨1, .ok (some (key, .vnone)), ?_, nofun⟩
          unfold prepEntry
          rw [if_neg hc]
          rfl
      | vfloat q =>
          refine ⟨1, _, prepEntry_vfloat_eq 0 key q fmt oks hc', ?_⟩
          exact ite_ne_both nofun (ite_ne_both nofun nofun)
      | vndarray l =>
          by_cases hps : key = "profile_schema"
          · refine ⟨1, .ok (some (key, .vndarray l)), ?_, nofun⟩
            rw [prepEntry_vndarray_eq 0 key l fmt oks hc', if_pos hps]
          · by_cases h1 : fmt = some "pretty"
            · obtain ⟨s, hs⟩ := Option.ne_none_iff_exists'.mp (prettyList_ne_none l)
              refine ⟨1, .ok (some (key, .vstr s)), ?_, nofun⟩
              rw [prepEntry_vndarray_eq 0 key l fmt oks hc', if_neg hps]
              unfold seqLeaf
              rw [if_pos h1, hs]
            · by_cases h2 : fmt = some "serializable" ∧
                  isVndarray (Value.vndarray l) = true
              · obtain ⟨r, hr⟩ :=
                  (tolist_suff (sizeOf (Value.vndarray l))).1 (Value.vndarray l) le_rfl
                refine ⟨sizeOf (Value.vndarray l) + 1, .ok (some (key, r)), ?_, nofun⟩
                rw [prepEntry_vndarray_eq _ key l fmt oks hc', if_neg hps]
                unfold seqLeaf
                rw [if_neg h1, if_pos h2, hr]
              · refine ⟨1, .ok (some (key, .vndarray l)), ?_, nofun⟩
                rw [prepEntry_vndarray_eq 0 key l fmt oks hc', if_neg hps]
                unfold seqLeaf
                rw [if_neg h1, if_neg h2]
      | vlist l =>
          by_cases hds : key = "data_stats"
          · have hl : sizeOf l ≤ n := by simp at hv; omega
            obtain ⟨N1, res1, h1, hnt1⟩ :=
              hRec l 0 fmt (next_layer_omit_keys "data_stats" oks) hl
            cases res1 with
            | timeout => exact absurd rfl hnt1
            | error =>
                refine ⟨N1 + 1, .error, ?_, nofun⟩
                rw [prepEntry_vlist_eq N1 key l fmt oks hc', if_pos hds, h1]
            | ok outl =>
                refine ⟨N1 + 1, .ok (some (key, .vlist outl)), ?_, nofun⟩
                rw [prepEntry_vlist_eq N1 key l fmt oks hc', if_pos hds, h1]
          · by_cases hps : key = "profile_schema"
            · refine ⟨1, .ok (some (key, .vlist l)), ?_, nofun⟩
              rw [prepEntry_vlist_eq 0 key l fmt oks hc', if_neg hds, if_pos hps]
            · by_cases h1 : fmt = some "pretty"
              · obtain ⟨s, hs⟩ := Option.ne_none_iff_exists'.mp (prettyList_ne_none l)
                refine ⟨1, .ok (some (key, .vstr s)), ?_, nofun⟩
                rw [prepEntry_vlist_eq 0 key l fmt oks hc', if_neg hds, if_neg hps]
                unfold seqLeaf
                rw [if_pos h1, hs]
              · have h2 : ¬ (fmt = some "serializable" ∧
                    isVndarray (Value.vlist l) = true) := by simp [isVndarray]
                refine ⟨1, .ok (some (key, .vlist l)), ?_, nofun⟩
                rw [prepEntry_vlist_eq 0 key l fmt oks hc', if_neg hds, if_neg hps]
                unfold seqLeaf
                rw [if_neg h1, if_neg h2]
      | vset l0 =>
          have hsz : sizeOf (sortValues l0) ≤ n := by
            rw [sizeOf_sortValues]
            simp at hv
            omega
          by_cases hds : key = "data_stats"
          · obtain ⟨N1, res1, h1, hnt1⟩ :=
              hRec (sortValues l0) 0 fmt (next_layer_omit_keys "data_stats" oks) hsz
            cases res1 with
            | timeout => exact absurd rfl hnt1
            | error =>
                refine ⟨N1 + 1, .error, ?_, nofun⟩
                rw [prepEntry_vset_eq N1 key l0 fmt oks,
                  prepEntry_vlist_eq N1 key (sortValues l0) fmt oks hc', if_pos hds, h1]
            | ok outl =>
                refine ⟨N1 + 1, .ok (some (key, .vlist outl)), ?_, nofun⟩
                rw [prepEntry_vset_eq N1 key l0 fmt oks,
                  prepEntry_vlist_eq N1 key (sortValues l0) fmt oks hc', if_pos hds, h1]
          · by_cases hps : key = "profile_schema"
            · refine ⟨1, .ok (some (key, .vlist (sortValues l0))), ?_, nofun⟩
              rw [prepEntry_vset_eq 0 key l0 fmt oks,
                prepEntry_vlist_eq 0 key (sortValues l0) fmt oks hc', if_neg hds,
                if_pos hps]
            · by_cases h1 : fmt = some "pretty"
              · obtain ⟨s, hs⟩ :=
                  Option.ne_none_iff_exists'.mp (prettyList_ne_none (sortValues l0))
                refine ⟨1, .ok (some (key, .vstr s)), ?_, nofun⟩
                rw [prepEntry_vset_eq 0 key l0 fmt oks,
                  prepEntry_vlist_eq 0 key (sortValues l0) fmt oks hc', if_neg hds,
                  if_neg hps]
                unfold seqLeaf
                rw [if_pos h1, hs]
              · have h2 : ¬ (fmt = some "serializable" ∧
                    isVndarray (Value.vlist (sortValues l0)) = true) := by
                  simp [isVndarray]
                refine ⟨1, .ok (some (key, .vlist (sortValues l0))), ?_, nofun⟩
                rw [prepEntry_vset_eq 0 key l0 fmt oks,
                  prepEntry_vlist_eq 0 key (sortValues l0) fmt oks hc', if_neg hds,
                  if_neg hps]
                unfold seqLeaf
                rw [if_neg h1, if_neg h2]
      | vdict kvs2 =>
          by_cases hps : key = "profile_schema"
          · refine ⟨1, .ok (some (key, .vdict kvs2)), ?_, nofun⟩
            rw [prepEntry_dict_eq 0 key kvs2 fmt oks hc', if_pos hps]
          · obtain ⟨N1, res1, h1, hnt1⟩ :=
              hP (.vdict kvs2) fmt (next_layer_omit_keys key oks) hv
            cases res1 with
            | timeout => exact absurd rfl hnt1
            | error =>
                refine ⟨N1 + 1, .error, ?_, nofun⟩
                rw [prepEntry_dict_eq N1 key kvs2 fmt oks hc', if_neg hps, h1]
            | ok v' =>
                refine ⟨N1 + 1, .ok (some (key, v')), ?_, nofun⟩
                rw [prepEntry_dict_eq N1 key kvs2 fmt oks hc', if_neg hps, h1]
  have hEnt : ∀ kvs fmt oks, sizeOf kvs ≤ n →
      ∃ N res, prepEntries N kvs fmt oks = res ∧ res ≠ PRes.timeout := by
    intro kvs
    induction kvs with
    | nil => exact fun fmt oks _ => ⟨1, .ok [], rfl, nofun⟩
    | cons e rest ihl =>
        obtain ⟨key, v⟩ := e
        intro fmt oks hkv
        have hv : sizeOf v ≤ n := by simp at hkv; omega
        have hrest : sizeOf rest ≤ n := by simp at hkv; omega
        obtain ⟨N1, res1, h1, hnt1⟩ := hEn key v fmt oks hv
        cases res1 with
        | timeout => exact absurd rfl hnt1
        | error =>
            refine ⟨N1 + 1, .error, ?_, nofun⟩
            rw [prepEntries_cons, h1]
            rfl
        | ok ho =>
            obtain ⟨N2, res2, h2, hnt2⟩ := ihl fmt oks hrest
            cases res2 with
            | timeout => exact absurd rfl hnt2
            | error =>
                refine ⟨max N1 N2 + 1, .error, ?_, nofun⟩
                rw [prepEntries_cons,
                  (prep_mono_all N1).2.2.1 _ _ _ _ _ h1 nofun _ (le_max_left _ _),
                  (prep_mono_all N2).2.1 _ _ _ _ h2 nofun _ (le_max_right _ _)]
                rfl
            | ok tail =>
                refine ⟨max N1 N2 + 1, .ok (ho.toList ++ tail), ?_, nofun⟩
                rw [prepEntries_cons,
                  (prep_mono_all N1).2.2.1 _ _ _ _ _ h1 nofun _ (le_max_left _ _),
                  (prep_mono_all N2).2.1 _ _ _ _ h2 nofun _ (le_max_right _ _)]
                rfl
  exact ⟨hP, hEnt, hEn, hRec⟩

/-! ### Safe omission paths: paths whose resolution never raises -/

/-- Safety of a segmented omission path: no suffix starts with
`data_stats.<name>` for a concrete (non-`*`) name, so the `profile_schema`
resolution (source lines 96–105) is never entered for it — at this level or,
after stripping leading segments, at any deeper level. -/
def safeSegs : List String → Bool
  | [] => true
  | [_] => true
  | s0 :: s1 :: rest =>
      (!(decide (s0 = "data_stats")) || decide (s1 = "*")) && safeSegs (s1 :: rest)

/-- Safety of a whole omission list. -/
def safeKeys (oks : List String) : Bool := oks.all fun k => safeSegs (splitDotSegs k)

theorem safeSegs_tail {s0 : String} {tl : List String}
    (h : safeSegs (s0 :: tl) = true) : safeSegs tl = true := by
  cases tl with
  | nil => rfl
  | cons s1 rest =>
      simp only [safeSegs, Bool.and_eq_true] at h
      exact h.2

theorem safeSegs_head {s0 s1 : String} {rest : List String}
    (h : safeSegs (s0 :: s1 :: rest) = true) : ¬ (s0 = "data_stats" ∧ ¬ s1 = "*") := by
  simp only [safeSegs, Bool.and_eq_true, Bool.or_eq_true, Bool.not_eq_true',
    decide_eq_true_eq, decide_eq_false_iff_not] at h
  tauto

theorem splitCharsDot_nodot (cs : List Char) (h : '.' ∉ cs) :
    splitCharsDot cs = [cs] := by
  induction cs with
  | nil => rfl
  | cons c rest ih =>
      simp only [List.mem_cons, not_or] at h
      simp only [splitCharsDot]
      rw [if_neg (fun e => h.1 e.symm), ih h.2]

theorem splitCharsDot_append (g rest : List Char) (hg : '.' ∉ g) :
    splitCharsDot (g ++ '.' :: rest) = g :: splitCharsDot rest := by
  induction g with
  | nil =>
      simp only [List.nil_append, splitCharsDot]
      simp
  | cons c g' ih =>
      simp only [List.mem_cons, not_or] at hg
      simp only [List.cons_append, splitCharsDot]
      rw [if_neg (fun e => hg.1 e.symm)]
      simp only [List.append_eq]
      rw [ih hg.2]

theorem mem_splitCharsDot : ∀ (cs : List Char) (g : List Char),
    g ∈ splitCharsDot cs → '.' ∉ g := by
  intro cs
  induction cs with
  | nil =>
      intro g hg
      simp only [splitCharsDot, List.mem_singleton] at hg
      subst hg
      simp
  | cons c rest ih =>
      intro g hg
      simp only [splitCharsDot] at hg
      by_cases hc : c = '.'
      · rw [if_pos hc] at hg
        rcases List.mem_cons.mp hg with rfl | hmem
        · simp
        · exact ih g hmem
      · rw [if_neg hc] at hg
        cases hsp : splitCharsDot rest with
        | nil =>
            rw [hsp] at hg
            simp only [List.mem_singleton] at hg
            subst hg
            simp only [List.mem_singleton]
            exact fun e => hc e.symm
        | cons g0 gs =>
            rw [hsp] at hg
            rcases List.mem_cons.mp hg with rfl | hmem
            · have hg0 : '.' ∉ g0 := ih g0 (hsp ▸ List.mem_cons_self g0 gs)
              simp only [List.mem_cons, not_or]
              exact ⟨fun e => hc e.symm, hg0⟩
            · exact ih g (hsp ▸ List.mem_cons_of_mem g0 hmem)

theorem mem_splitDotSegs_nodot (s : String) :
    ∀ g ∈ splitDotSegs s, '.' ∉ g.data := by
  intro g hg
  unfold splitDotSegs at hg
  obtain ⟨cs, hcs, rfl⟩ := List.mem_map.mp hg
  exact mem_splitCharsDot s.data cs hcs

theorem data_join_cons (x y : String) (rest : List String) :
    (joinDots (x :: y :: rest)).data = x.data ++ '.' :: (joinDots (y :: rest)).data := by
  show (x ++ "." ++ joinDots (y :: rest)).data = _
  rw [String.data_append, String.data_append, List.append_assoc]
  rfl

theorem splitDotSegs_joinDots : ∀ gs : List String, gs ≠ [] →
    (∀ g ∈ gs, '.' ∉ g.data) → splitDotSegs (joinDots gs) = gs := by
  intro gs
  induction gs with
  | nil => intro h; exact absurd rfl h
  | cons x tl ih =>
      intro _ hnd
      cases tl with
      | nil =>
          show (splitCharsDot (joinDots [x]).data).map (fun cs => String.mk cs) = [x]
          have hx : (joinDots [x]).data = x.data := rfl
          rw [hx, splitCharsDot_nodot x.data (hnd x (List.mem_singleton.mpr rfl))]
          rfl
      | cons y rest =>
          have hstep : splitDotSegs (joinDots (x :: y :: rest)) =
              x :: splitDotSegs (joinDots (y :: rest)) := by
            show (splitCharsDot (joinDots (x :: y :: rest)).data).map
                (fun cs => String.mk cs) = _
            rw [data_join_cons,
              splitCharsDot_append x.data (joinDots (y :: rest)).data
                (hnd x (List.mem_cons_self x (y :: rest)))]
            rfl
          rw [hstep, ih nofun (fun g hgm => hnd g (List.mem_cons_of_mem x hgm))]

theorem splitDot1_of_segs {s p r0 : String} {rs : List String}
    (h : splitDotSegs s = p :: r0 :: rs) :
    splitDot1 s = (p, some (joinDots (r0 :: rs))) := by
  unfold splitDot1
  rw [h]

theorem splitDotSegs_residual {s p r0 : String} {rs : List String}
    (h : splitDotSegs s = p :: r0 :: rs) :
    splitDotSegs (joinDots (r0 :: rs)) = r0 :: rs := by
  refine splitDotSegs_joinDots (r0 :: rs) nofun ?_
  intro g hgm
  exact mem_splitDotSegs_nodot s g (h ▸ List.mem_cons_of_mem p hgm)

/-- Residual keys forwarded to a nested level stay safe. -/
theorem next_layer_safe (key : String) (oks : List String)
    (h : safeKeys oks = true) : safeKeys (next_layer_omit_keys key oks) = true := by
  unfold safeKeys at h ⊢
  rw [List.all_eq_true] at h ⊢
  intro k hk
  obtain ⟨ok_, hok, hfm⟩ := List.mem_filterMap.mp hk
  cases hsegs : splitDotSegs ok_ with
  | nil =>
      unfold splitDot1 at hfm
      rw [hsegs] at hfm
      exact (nomatch hfm)
  | cons p tl =>
      cases tl with
      | nil =>
          unfold splitDot1 at hfm
          rw [hsegs] at hfm
          exact (nomatch hfm)
      | cons r0 rs =>
          rw [splitDot1_of_segs hsegs] at hfm
          have hfm' : (if 0 < (joinDots (r0 :: rs)).data.length ∧
              (p = "*" ∨ p = key) then some (joinDots (r0 :: rs)) else none) =
              some k := hfm
          split at hfm'
          · cases hfm'
            have hs := h ok_ hok
            rw [hsegs] at hs
            rw [splitDotSegs_residual hsegs]
            exact safeSegs_tail hs
          · exact (nomatch hfm')

/-- Residual keys forwarded to a positional record stay safe. -/
theorem i_index_safe (i : Nat) (ds : List String)
    (h : safeKeys ds = true) : safeKeys (i_index_omit_keys i ds) = true := by
  unfold safeKeys at h ⊢
  rw [List.all_eq_true] at h ⊢
  intro k hk
  obtain ⟨ok_, hok, hfm⟩ := List.mem_filterMap.mp hk
  cases hsegs : splitDotSegs ok_ with
  | nil =>
      unfold splitDot1 at hfm
      rw [hsegs] at hfm
      exact (nomatch hfm)
  | cons p tl =>
      cases tl with
      | nil =>
          unfold splitDot1 at hfm
          rw [hsegs] at hfm
          exact (nomatch hfm)
      | cons r0 rs =>
          rw [splitDot1_of_segs hsegs] at hfm
          have hfm' : (if 0 < (joinDots (r0 :: rs)).data.length ∧
              ((isDigitStr p ∧ digitsToNat p = i) ∨ p = "*")
              then some (joinDots (r0 :: rs)) else none) = some k := hfm
          split at hfm'
          · cases hfm'
            have hs := h ok_ hok
            rw [hsegs] at hs
            rw [splitDotSegs_residual hsegs]
            exact safeSegs_tail hs
          · exact (nomatch hfm')

/-- A safe omission key passes through the resolution step unchanged. -/
theorem expandOmitKey_safe (report : List (String × Value)) (k : String)
    (h : safeSegs (splitDotSegs k) = true) :
    expandOmitKey report k = some [k] := by
  unfold expandOmitKey
  cases hsegs : splitDotSegs k with
  | nil => rfl
  | cons k0 tl =>
      cases tl with
      | nil => rfl
      | cons k1 rest =>
          rw [hsegs] at h
          show (if k0 = "data_stats" ∧ ¬ k1 = "*" then _ else some [k]) = some [k]
          rw [if_neg (safeSegs_head h)]

/-- A safe omission list resolves to itself. -/
theorem resolve_omit_keys_safe (report : List (String × Value)) :
    ∀ oks : List String, safeKeys oks = true →
      resolve_omit_keys report oks = some oks := by
  intro oks
  induction oks with
  | nil => exact fun _ => rfl
  | cons k rest ih =>
      intro h
      unfold safeKeys at h
      rw [List.all_cons, Bool.and_eq_true] at h
      show (do
        let hd ← expandOmitKey report k
        let tl ← resolve_omit_keys report rest
        some (hd ++ tl)) = some (k :: rest)
      rw [expandOmitKey_safe report k h.1, ih h.2]
      rfl

/-- The five built-in compact paths are safe. -/
theorem safeKeys_compact : safeKeys compact_omit_keys = true := rfl

/-- The effective omission list of a safe call is safe. -/
theorem safeKeys_effOmit (fmt : Option String) (oks : List String)
    (h : safeKeys oks = true) : safeKeys (effOmit fmt oks) = true := by
  unfold effOmit
  split
  · unfold safeKeys at h ⊢
    rw [List.all_append, h]
    rfl
  · exact h

/-! ### Well-formed reports: tree-shaped dicts, dict records under data_stats -/

/-- Element-class tests used to state which sets Python can sort. -/
def isNumV : Value → Bool
  | .vint _ => true
  | .vfloat _ => true
  | _ => false

def isStrV : Value → Bool
  | .vstr _ => true
  | _ => false

def isBoolV : Value → Bool
  | .vbool _ => true
  | _ => false

/-- Set contents on which the `sorted(list(value))` of source line 119 is
guaranteed not to raise: at most one element (no comparison is ever
evaluated), or homogeneously numeric, string or boolean elements.  Python
`sorted` raises `TypeError` on other mixtures (e.g. an int next to a str)
and on containers, an error path the total `valueLe`/`sortValues` cannot
express, so the no-raise fragments below admit only sortable sets. -/
def sortable (l : List Value) : Bool :=
  decide (l.length ≤ 1) || l.all isNumV || l.all isStrV || l.all isBoolV

mutual
/-- Well-formedness of a value passed to `_prepare_report` as a report: it
is a dict (the source iterates it and indexes it by key) and all of its
entries are well-formed. -/
inductive WfReport : Value → Prop where
  | mk : ∀ (kvs : List (String × Value)), (∀ p ∈ kvs, WfEntry p.1 p.2) →
      WfReport (.vdict kvs)

/-- Well-formedness of one entry: a `data_stats` sequence holds well-formed
records (the source recurses into each), a nested dict outside
`profile_schema` is itself a well-formed report, a set value is sortable
(so line 119 cannot raise), and everything else is a leaf for the
transformer. -/
inductive WfEntry : String → Value → Prop where
  | vstr : ∀ key s, WfEntry key (.vstr s)
  | vint : ∀ key n, WfEntry key (.vint n)
  | vfloat : ∀ key q, WfEntry key (.vfloat q)
  | vbool : ∀ key b, WfEntry key (.vbool b)
  | vnone : ∀ key, WfEntry key .vnone
  | vndarray : ∀ key l, WfEntry key (.vndarray l)
  | vlist_ds : ∀ key l, key = "data_stats" → (∀ w ∈ l, WfReport w) →
      WfEntry key (.vlist l)
  | vlist_other : ∀ key l, ¬ key = "data_stats" → WfEntry key (.vlist l)
  | vset_ds : ∀ key l, key = "data_stats" → sortable l = true →
      (∀ w ∈ sortValues l, WfReport w) → WfEntry key (.vset l)
  | vset_other : ∀ key l, ¬ key = "data_stats" → sortable l = true →
      WfEntry key (.vset l)
  | vdict_ps : ∀ key kvs, key = "profile_schema" → WfEntry key (.vdict kvs)
  | vdict_rec : ∀ key kvs, WfReport (.vdict kvs) → WfEntry key (.vdict kvs)
end

/-- The sequence-leaf treatment never raises (it can only time out). -/
theorem seqLeaf_ne_error (f : Nat) (key : String) (value : Value)
    (l : List Value) (fmt : Option String) :
    seqLeaf f key value l fmt ≠ .error := by
  unfold seqLeaf
  refine ite_ne_both ?_ (ite_ne_both ?_ nofun)
  · cases prettyList l
    · exact nofun
    · exact nofun
  · cases tolistF f value
    · exact nofun
    · exact nofun

/-- The transformer never raises on a well-formed report with safe omission
paths, at any fuel. -/
theorem noerr_all (f : Nat) :
    (∀ r fmt oks, WfReport r → safeKeys (effOmit fmt oks) = true →
        _prepare_report f r fmt oks ≠ .error) ∧
    (∀ kvs fmt oks, (∀ p ∈ kvs, WfEntry p.1 p.2) → safeKeys oks = true →
        prepEntries f kvs fmt oks ≠ .error) ∧
    (∀ key v fmt oks, WfEntry key v → safeKeys oks = true →
        prepEntry f key v fmt oks ≠ .error) ∧
    (∀ l i fmt ds, (∀ w ∈ l, WfReport w) → safeKeys ds = true →
        prepRecords f l i fmt ds ≠ .error) := by
  induction f with
  | zero =>
      exact ⟨fun _ _ _ _ _ => nofun, fun _ _ _ _ _ => nofun,
        fun _ _ _ _ _ _ => nofun, fun _ _ _ _ _ _ => nofun⟩
  | succ f ih =>
      obtain ⟨ihP, ihE, ihEn, ihR⟩ := ih
      have hP : ∀ r fmt oks, WfReport r → safeKeys (effOmit fmt oks) = true →
          _prepare_report (f + 1) r fmt oks ≠ .error := by
        intro r fmt oks hwf hsafe
        cases hwf with
        | mk kvs hkvs =>
        have hres : resolve_omit_keys kvs (effOmit fmt oks) =
            some (effOmit fmt oks) := resolve_omit_keys_safe kvs _ hsafe
        cases hE : prepEntries f kvs (effFormat fmt) (effOmit fmt oks) with
        | timeout =>
            rw [_prepare_report_entries_timeout_eq f kvs fmt oks _ hres hE]
            exact nofun
        | error => exact absurd hE (ihE kvs (effFormat fmt) _ hkvs hsafe)
        | ok out =>
            rw [_prepare_report_entries_ok_eq f kvs fmt oks _ out hres hE]
            refine ite_ne_both ?_ nofun
            cases flat_dictF f (.vdict out) "_" ""
            · exact nofun
            · exact nofun
      have hRec : ∀ l i fmt ds, (∀ w ∈ l, WfReport w) → safeKeys ds = true →
          prepRecords (f + 1) l i fmt ds ≠ .error := by
        intro l i fmt ds hwf hsafe
        cases l with
        | nil => exact nofun
        | cons w rest =>
            rw [prepRecords_cons]
            cases hH : _prepare_report f w fmt (i_index_omit_keys i ds) with
            | timeout => exact nofun
            | error =>
                exact absurd hH (ihP w fmt _ (hwf w (List.mem_cons_self w rest))
                  (safeKeys_effOmit fmt _ (i_index_safe i ds hsafe)))
            | ok w' =>
                cases hT : prepRecords f rest (i + 1) fmt ds with
                | timeout => exact nofun
                | error =>
                    exact absurd hT (ihR rest (i + 1) fmt ds
                      (fun u hu => hwf u (List.mem_cons_of_mem w hu)) hsafe)
                | ok tail => exact nofun
      have hEn : ∀ key v fmt oks, WfEntry key v → safeKeys oks = true →
          prepEntry (f + 1) key v fmt oks ≠ .error := by
        intro key v fmt oks hwf hsafe
        by_cases hc : oks.contains key = true
        · unfold prepEntry
          rw [if_pos hc]
          exact nofun
        · have hc' : oks.contains key = false := by simpa using hc
          cases hwf with
          | vstr key s =>
              unfold prepEntry
              rw [if_neg hc]
              exact nofun
          | vint key n =>
              unfold prepEntry
              rw [if_neg hc]
              exact nofun
          | vfloat key q =>
              rw [prepEntry_vfloat_eq f key q fmt oks hc']
              exact ite_ne_both nofun (ite_ne_both nofun nofun)
          | vbool key b =>
              unfold prepEntry
              rw [if_neg hc]
              exact nofun
          | vnone key =>
              unfold prepEntry
              rw [if_neg hc]
              exact nofun
          | vndarray key l =>
              rw [prepEntry_vndarray_eq f key l fmt oks hc']
              exact ite_ne_both nofun (seqLeaf_ne_error f key (.vndarray l) l fmt)
          | vlist_ds key l hkey hrec =>
              rw [prepEntry_vlist_eq f key l fmt oks hc', if_pos hkey]
              cases hR : prepRecords f l 0 fmt
                  (next_layer_omit_keys "data_stats" oks) with
              | timeout => exact nofun
              | error =>
                  exact absurd hR (ihR l 0 fmt _ hrec
                    (next_layer_safe "data_stats" oks hsafe))
              | ok outl => exact nofun
          | vlist_other key l hkey =>
              rw [prepEntry_vlist_eq f key l fmt oks hc', if_neg hkey]
              exact ite_ne_both nofun (seqLeaf_ne_error f key (.vlist l) l fmt)
          | vset_ds key l hkey hsort hrec =>
              rw [prepEntry_vset_eq f key l fmt oks,
                prepEntry_vlist_eq f key (sortValues l) fmt oks hc', if_pos hkey]
              cases hR : prepRecords f (sortValues l) 0 fmt
                  (next_layer_omit_keys "data_stats" oks) with
              | timeout => exact nofun
              | error =>
                  exact absurd hR (ihR (sortValues l) 0 fmt _ hrec
                    (next_layer_safe "data_stats" oks hsafe))
              | ok outl => exact nofun
          | vset_other key l hkey hsort =>
              rw [prepEntry_vset_eq f key l fmt oks,
                prepEntry_vlist_eq f key (sortValues l) fmt oks hc', if_neg hkey]
              exact ite_ne_both nofun
                (seqLeaf_ne_error f key (.vlist (sortValues l)) (sortValues l) fmt)
          | vdict_ps key kvs hkey =>
              rw [prepEntry_dict_eq f key kvs fmt oks hc', if_pos hkey]
              exact nofun
          | vdict_rec key kvs hwfr =>
              by_cases hps : key = "profile_schema"
              · rw [prepEntry_dict_eq f key kvs fmt oks hc', if_pos hps]
                exact nofun
              · rw [prepEntry_dict_eq f key kvs fmt oks hc', if_neg hps]
                cases hp : _prepare_report f (.vdict kvs) fmt
                    (next_layer_omit_keys key oks) with
                | timeout => exact nofun
                | error =>
                    exact absurd hp (ihP (.vdict kvs) fmt _ hwfr
                      (safeKeys_effOmit fmt _ (next_layer_safe key oks hsafe)))
                | ok v' => exact nofun
      have hEnt : ∀ kvs fmt oks, (∀ p ∈ kvs, WfEntry p.1 p.2) →
          safeKeys oks = true → prepEntries (f + 1) kvs fmt oks ≠ .error := by
        intro kvs fmt oks hwf hsafe
        cases kvs with
        | nil => exact nofun
        | cons e rest =>
            obtain ⟨key, v⟩ := e
            rw [prepEntries_cons]
            cases hH : prepEntry f key v fmt oks with
            | timeout => exact nofun
            | error =>
                exact absurd hH (ihEn key v fmt oks
                  (hwf (key, v) (List.mem_cons_self (key, v) rest)) hsafe)
            | ok ho =>
                cases hT : prepEntries f rest fmt oks with
                | timeout => exact nofun
                | error =>
                    exact absurd hT (ihE rest fmt oks
                      (fun p hp => hwf p (List.mem_cons_of_mem (key, v) hp)) hsafe)
                | ok tail => exact nofun
      exact ⟨hP, hEnt, hEn, hRec⟩

/-- C2 counterexample: an omission path `data_stats.nosuch.x` whose column
name cannot be resolved through `global_stats.profile_schema` raises a
`KeyError` (source line 97) instead of being silently ignored. -/
theorem c2_counterexample_unknown_column_raises :
    _prepare_report 10 (.vdict [("a", .vint 1)]) none ["data_stats.nosuch.x"] =
      .error := rfl

/-- C2 (amended): the transformer is total and raise-free only on the
fragment where every omission path is safe (no suffix of it addresses a
concrete `data_stats` column by name) and the report is a well-formed tree
of dicts whose `data_stats` records are dicts and whose set values are
sortable (at most one element, or all-numeric, all-string or all-boolean
elements): there, no fuel makes it raise, and from some fuel on it returns
one fixed value.  Outside that fragment it can raise: a
`data_stats.<name>.…` path triggers a `profile_schema` lookup chain that
raises `KeyError` on an unresolvable name (see the counterexample), a
non-dict record raises `TypeError`, and `sorted` on a set with mixed or
unorderable element types raises `TypeError` at source line 119. -/
theorem c2_amended_total_on_wf_safe (r : Value) (fmt : Option String)
    (oks : List String) (hwf : WfReport r)
    (hsafe : safeKeys (effOmit fmt oks) = true) :
    (∀ fuel, _prepare_report fuel r fmt oks ≠ .error) ∧
    (∃ N v, ∀ g, N ≤ g → _prepare_report g r fmt oks = .ok v) := by
  constructor
  · intro fuel
    exact (noerr_all fuel).1 r fmt oks hwf hsafe
  · obtain ⟨N, res, hN, hnt⟩ := (prep_suff_all (sizeOf r)).1 r fmt oks le_rfl
    cases res with
    | timeout => exact absurd rfl hnt
    | error => exact absurd hN ((noerr_all N).1 r fmt oks hwf hsafe)
    | ok v => exact ⟨N, v, fun g hg => (prep_mono_all N).1 r fmt oks _ hN nofun g hg⟩

/-- Witness for the amended C2 on a one-entry report with a non-matching
but safe omission path. -/
theorem c2_witness :
    WfReport (.vdict [("a", .vint 1)]) ∧
    safeKeys (effOmit (some "pretty") ["b.c"]) = true ∧
    ((∀ fuel, _prepare_report fuel (.vdict [("a", .vint 1)])
        (some "pretty") ["b.c"] ≠ .error) ∧
      (∃ N v, ∀ g, N ≤ g → _prepare_report g (.vdict [("a", .vint 1)])
        (some "pretty") ["b.c"] = .ok v)) := by
  have hwf : WfReport (.vdict [("a", .vint 1)]) := by
    refine WfReport.mk _ ?_
    intro p hp
    rw [List.mem_singleton] at hp
    subst hp
    exact WfEntry.vint "a" 1
  exact ⟨hwf, rfl,
    c2_amended_total_on_wf_safe (.vdict [("a", .vint 1)]) (some "pretty")
      ["b.c"] hwf rfl⟩

/-! ### C9 machinery: array-free values and the serializable fragment -/

theorem next_layer_nil (key : String) : next_layer_omit_keys key [] = [] := rfl

theorem i_index_nil (i : Nat) : i_index_omit_keys i [] = [] := rfl

theorem mem_insertSorted (x a : Value) : ∀ l : List Value,
    x ∈ insertSorted a l → x = a ∨ x ∈ l := by
  intro l
  induction l with
  | nil =>
      intro h
      simp only [insertSorted, List.mem_singleton] at h
      exact Or.inl h
  | cons y ys ih =>
      intro h
      simp only [insertSorted] at h
      split at h
      · rcases List.mem_cons.mp h with rfl | hm
        · exact Or.inl rfl
        · exact Or.inr hm
      · rcases List.mem_cons.mp h with rfl | hm
        · exact Or.inr (List.mem_cons_self _ _)
        · rcases ih hm with rfl | hm'
          · exact Or.inl rfl
          · exact Or.inr (List.mem_cons_of_mem _ hm')

theorem mem_sortValues (x : Value) : ∀ l : List Value,
    x ∈ sortValues l → x ∈ l := by
  intro l
  induction l with
  | nil => intro h; exact absurd h (by simp [sortValues])
  | cons a rest ih =>
      intro h
      simp only [sortValues] at h
      rcases mem_insertSorted x a (sortValues rest) h with rfl | hm
      · exact List.mem_cons_self _ _
      · exact List.mem_cons_of_mem _ (ih hm)

/-- A value containing no numpy array anywhere. -/
inductive ArrayFree : Value → Prop where
  | vstr : ∀ s, ArrayFree (.vstr s)
  | vint : ∀ n, ArrayFree (.vint n)
  | vfloat : ∀ q, ArrayFree (.vfloat q)
  | vbool : ∀ b, ArrayFree (.vbool b)
  | vnone : ArrayFree .vnone
  | vlist : ∀ l, (∀ w ∈ l, ArrayFree w) → ArrayFree (.vlist l)
  | vset : ∀ l, (∀ w ∈ l, ArrayFree w) → ArrayFree (.vset l)
  | vdict : ∀ kvs, (∀ p ∈ kvs, ArrayFree p.2) → ArrayFree (.vdict kvs)

/-- A value whose array spine consists of arrays over array-free
elements, so that `tolist` converts it to an array-free value. -/
inductive ArrOk : Value → Prop where
  | arr : ∀ l, (∀ w ∈ l, ArrOk w) → ArrOk (.vndarray l)
  | free : ∀ v, ArrayFree v → ArrOk v

/-- `tolist` on a value with a clean array spine is array-free. -/
theorem tolist_arrayfree (f : Nat) :
    (∀ v r, ArrOk v → tolistF f v = some r → ArrayFree r) ∧
    (∀ l r, (∀ w ∈ l, ArrOk w) → tolistLF f l = some r →
      ∀ w ∈ r, ArrayFree w) := by
  induction f with
  | zero => exact ⟨fun v r _ h => (nomatch h), fun l r _ h => (nomatch h)⟩
  | succ f ih =>
      constructor
      · intro v r hok h
        cases hok with
        | arr l hl =>
            simp only [tolistF, Option.map_eq_some'] at h
            obtain ⟨r', hr', rfl⟩ := h
            exact ArrayFree.vlist r' (ih.2 l r' hl hr')
        | free v hv =>
            cases hv with
            | vstr s => cases h; exact ArrayFree.vstr s
            | vint n => cases h; exact ArrayFree.vint n
            | vfloat q => cases h; exact ArrayFree.vfloat q
            | vbool b => cases h; exact ArrayFree.vbool b
            | vnone => cases h; exact ArrayFree.vnone
            | vlist l hl => cases h; exact ArrayFree.vlist l hl
            | vset l hl => cases h; exact ArrayFree.vset l hl
            | vdict kvs hk => cases h; exact ArrayFree.vdict kvs hk
      · intro l r hok h
        cases l with
        | nil => cases h; exact fun w hw => absurd hw (by simp)
        | cons v rest =>
            simp only [tolistLF, Option.bind_eq_bind, Option.bind_eq_some] at h
            obtain ⟨v', hv', tl, htl, hr⟩ := h
            injection hr with hr
            subst hr
            intro w hw
            rcases List.mem_cons.mp hw with rfl | hm
            · exact ih.1 v w (hok v (List.mem_cons_self _ _)) hv'
            · exact ih.2 rest tl (fun u hu => hok u (List.mem_cons_of_mem _ hu))
                htl w hm

/-- Flattening preserves array-freeness of the leaf values. -/
theorem flat_arrayfree (f : Nat) :
    (∀ od sep key r, ArrayFree od → flat_dictF f od sep key = some r →
        ∀ p ∈ r, ArrayFree p.2) ∧
    (∀ kvs sep r, (∀ p ∈ kvs, ArrayFree p.2) → flat_entriesF f kvs sep = some r →
        ∀ p ∈ r, ArrayFree p.2) := by
  induction f with
  | zero => exact ⟨fun _ _ _ _ _ h => (nomatch h), fun _ _ _ _ h => (nomatch h)⟩
  | succ f ih =>
      constructor
      · intro od sep key r hAF h p hp
        cases hAF with
        | vdict kvs hk =>
            simp only [flat_dictF, Option.bind_eq_bind, Option.bind_eq_some] at h
            obtain ⟨inner, hin, hr⟩ := h
            injection hr with hr
            subst hr
            obtain ⟨q, hq, rfl⟩ := List.mem_map.mp hp
            exact ih.2 kvs sep inner hk hin q hq
        | vstr s =>
            cases h
            rcases List.mem_singleton.mp hp with rfl
            exact ArrayFree.vstr s
        | vint n =>
            cases h
            rcases List.mem_singleton.mp hp with rfl
            exact ArrayFree.vint n
        | vfloat q =>
            cases h
            rcases List.mem_singleton.mp hp with rfl
            exact ArrayFree.vfloat q
        | vbool b =>
            cases h
            rcases List.mem_singleton.mp hp with rfl
            exact ArrayFree.vbool b
        | vnone =>
            cases h
            rcases List.mem_singleton.mp hp with rfl
            exact ArrayFree.vnone
        | vlist l hl =>
            cases h
            rcases List.mem_singleton.mp hp with rfl
            exact ArrayFree.vlist l hl
        | vset l hl =>
            cases h
            rcases List.mem_singleton.mp hp with rfl
            exact ArrayFree.vset l hl
      · intro kvs sep r hAF h p hp
        cases kvs with
        | nil =>
            cases h
            exact absurd hp (by simp)
        | cons e rest =>
            obtain ⟨kk, vv⟩ := e
            simp only [flat_entriesF, Option.bind_eq_bind, Option.bind_eq_some] at h
            obtain ⟨hd, hhd, tl, htl, hr⟩ := h
            injection hr with hr
            subst hr
            rcases List.mem_append.mp hp with hm | hm
            · exact ih.1 vv sep kk hd
                (hAF (kk, vv) (List.mem_cons_self _ _)) hhd p hm
            · exact ih.2 rest sep tl
                (fun q hq => hAF q (List.mem_cons_of_mem _ hq)) htl p hm

/-- The sequence-leaf treatment preserves array-freeness. -/
theorem seqLeaf_arrayfree (f : Nat) (key : String) (value : Value)
    (l : List Value) (fmt : Option String) (ho : Option (String × Value))
    (hAF : ArrayFree value) (h : seqLeaf f key value l fmt = .ok ho) :
    ∀ k' v', ho = some (k', v') → ArrayFree v' := by
  unfold seqLeaf at h
  split at h
  · split at h
    · exact (nomatch h)
    · cases h
      intro k' v' hho
      cases hho
      rename_i s _
      exact ArrayFree.vstr s
  · split at h
    · rename_i h2
      obtain ⟨-, hnd⟩ := h2
      cases hAF <;> simp [isVndarray] at hnd
    · cases h
      intro k' v' hho
      cases hho
      exact hAF

/-- No mode of the transformer ever introduces a numpy array: an array-free
input yields an array-free output. -/
theorem prep_arrayfree_all (f : Nat) :
    (∀ r fmt oks v, ArrayFree r → _prepare_report f r fmt oks = .ok v →
        ArrayFree v) ∧
    (∀ kvs fmt oks out, (∀ p ∈ kvs, ArrayFree p.2) →
        prepEntries f kvs fmt oks = .ok out → ∀ p ∈ out, ArrayFree p.2) ∧
    (∀ key val fmt oks ho, ArrayFree val → prepEntry f key val fmt oks = .ok ho →
        ∀ k' v', ho = some (k', v') → ArrayFree v') ∧
    (∀ l i fmt ds outl, (∀ w ∈ l, ArrayFree w) →
        prepRecords f l i fmt ds = .ok outl → ∀ w ∈ outl, ArrayFree w) := by
  induction f with
  | zero =>
      exact ⟨fun _ _ _ _ _ h => (nomatch h), fun _ _ _ _ _ h => (nomatch h),
        fun _ _ _ _ _ _ h => (nomatch h), fun _ _ _ _ _ _ h => (nomatch h)⟩
  | succ f ih =>
      obtain ⟨ihP, ihE, ihEn, ihR⟩ := ih
      have hP : ∀ r fmt oks v, ArrayFree r →
          _prepare_report (f + 1) r fmt oks = .ok v → ArrayFree v := by
        intro r fmt oks v hAF h
        cases hAF with
        | vdict kvs hk =>
            cases hres : resolve_omit_keys kvs (effOmit fmt oks) with
            | none =>
                rw [_prepare_report_resolve_error_eq f kvs fmt oks hres] at h
                exact (nomatch h)
            | some omit2 =>
                cases hE : prepEntries f kvs (effFormat fmt) omit2 with
                | timeout =>
                    rw [_prepare_report_entries_timeout_eq f kvs fmt oks omit2
                      hres hE] at h
                    exact (nomatch h)
                | error =>
                    rw [_prepare_report_entries_error_eq f kvs fmt oks omit2
                      hres hE] at h
                    exact (nomatch h)
                | ok out =>
                    rw [_prepare_report_entries_ok_eq f kvs fmt oks omit2 out
                      hres hE] at h
                    by_cases hf : effFormat fmt = some "flat"
                    · rw [if_pos hf] at h
                      cases hfl : flat_dictF f (.vdict out) "_" "" with
                      | none => rw [hfl] at h; exact (nomatch h)
                      | some fl =>
                          rw [hfl] at h
                          cases h
                          refine ArrayFree.vdict fl ?_
                          exact (flat_arrayfree f).1 (.vdict out) "_" "" fl
                            (ArrayFree.vdict out (ihE kvs (effFormat fmt) omit2
                              out hk hE)) hfl
                    · rw [if_neg hf] at h
                      cases h
                      exact ArrayFree.vdict out (ihE kvs (effFormat fmt) omit2
                        out hk hE)
        | vstr s => exact (nomatch h)
        | vint n => exact (nomatch h)
        | vfloat q => exact (nomatch h)
        | vbool b => exact (nomatch h)
        | vnone => exact (nomatch h)
        | vlist l hl => exact (nomatch h)
        | vset l hl => exact (nomatch h)
      have hRec : ∀ l i fmt ds outl, (∀ w ∈ l, ArrayFree w) →
          prepRecords (f + 1) l i fmt ds = .ok outl → ∀ w ∈ outl, ArrayFree w := by
        intro l i fmt ds outl hAF h
        cases l with
        | nil =>
            cases h
            exact fun w hw => absurd hw (by simp)
        | cons w rest =>
            rw [prepRecords_cons] at h
            obtain ⟨w', hw', h2⟩ := PRes.bind_eq_ok h
            obtain ⟨tail, htail, h3⟩ := PRes.bind_eq_ok h2
            cases h3
            intro u hu
            rcases List.mem_cons.mp hu with rfl | hm
            · exact ihP w fmt _ u (hAF w (List.mem_cons_self _ _)) hw'
            · exact ihR rest (i + 1) fmt ds tail
                (fun q hq => hAF q (List.mem_cons_of_mem _ hq)) htail u hm
      have hEn : ∀ key val fmt oks ho, ArrayFree val →
          prepEntry (f + 1) key val fmt oks = .ok ho →
          ∀ k' v', ho = some (k', v') → ArrayFree v' := by
        intro key val fmt oks ho hAF h
        by_cases hc : oks.contains key = true
        · unfold prepEntry at h
          rw [if_pos hc] at h
          cases h
          intro k' v' hho
          exact (nomatch hho)
        · have hc' : oks.contains key = false := by simpa using hc
          cases hAF with
          | vstr s =>
              unfold prepEntry at h
              rw [if_neg hc] at h
              have h2 : PRes.ok (some (key, Value.vstr s)) = PRes.ok ho := h
              cases h2
              intro k' v' hho
              cases hho
              exact ArrayFree.vstr s
          | vint n =>
              unfold prepEntry at h
              rw [if_neg hc] at h
              have h2 : PRes.ok (some (key, Value.vint n)) = PRes.ok ho := h
              cases h2
              intro k' v' hho
              cases hho
              exact ArrayFree.vint n
          | vbool b =>
              unfold prepEntry at h
              rw [if_neg hc] at h
              have h2 : PRes.ok (some (key, Value.vbool b)) = PRes.ok ho := h
              cases h2
              intro k' v' hho
              cases hho
              exact ArrayFree.vbool b
          | vnone =>
              unfold prepEntry at h
              rw [if_neg hc] at h
              have h2 : PRes.ok (some (key, Value.vnone)) = PRes.ok ho := h
              cases h2
              intro k' v' hho
              cases hho
              exact ArrayFree.vnone
          | vfloat q =>
              rw [prepEntry_vfloat_eq f key q fmt oks hc'] at h
              split at h
              · cases h
                intro k' v' hho
                cases hho
                exact ArrayFree.vfloat q
              · split at h
                · cases h
                  intro k' v' hho
                  cases hho
                  exact ArrayFree.vfloat _
                · cases h
                  intro k' v' hho
                  cases hho
                  exact ArrayFree.vfloat q
          | vlist l hl =>
              rw [prepEntry_vlist_eq f key l fmt oks hc'] at h
              by_cases hds : key = "data_stats"
              · rw [if_pos hds] at h
                cases hR : prepRecords f l 0 fmt
                    (next_layer_omit_keys "data_stats" oks) with
                | timeout => rw [hR] at h; exact (nomatch h)
                | error => rw [hR] at h; exact (nomatch h)
                | ok outl =>
                    rw [hR] at h
                    cases h
                    intro k' v' hho
                    cases hho
                    exact ArrayFree.vlist outl (ihR l 0 fmt _ outl hl hR)
              · rw [if_neg hds] at h
                by_cases hps : key = "profile_schema"
                · rw [if_pos hps] at h
                  cases h
                  intro k' v' hho
                  cases hho
                  exact ArrayFree.vlist l hl
                · rw [if_neg hps] at h
                  exact seqLeaf_arrayfree f key (.vlist l) l fmt ho
                    (ArrayFree.vlist l hl) h
          | vset l hl =>
              rw [prepEntry_vset_eq f key l fmt oks,
                prepEntry_vlist_eq f key (sortValues l) fmt oks hc'] at h
              have hl' : ∀ w ∈ sortValues l, ArrayFree w :=
                fun w hw => hl w (mem_sortValues w l hw)
              by_cases hds : key = "data_stats"
              · rw [if_pos hds] at h
                cases hR : prepRecords f (sortValues l) 0 fmt
                    (next_layer_omit_keys "data_stats" oks) with
                | timeout => rw [hR] at h; exact (nomatch h)
                | error => rw [hR] at h; exact (nomatch h)
                | ok outl =>
                    rw [hR] at h
                    cases h
                    intro k' v' hho
                    cases hho
                    exact ArrayFree.vlist outl (ihR (sortValues l) 0 fmt _ outl hl' hR)
              · rw [if_neg hds] at h
                by_cases hps : key = "profile_schema"
                · rw [if_pos hps] at h
                  cases h
                  intro k' v' hho
                  cases hho
                  exact ArrayFree.vlist (sortValues l) hl'
                · rw [if_neg hps] at h
                  exact seqLeaf_arrayfree f key (.vlist (sortValues l))
                    (sortValues l) fmt ho (ArrayFree.vlist (sortValues l) hl') h
          | vdict kvs hk =>
              rw [prepEntry_dict_eq f key kvs fmt oks hc'] at h
              by_cases hps : key = "profile_schema"
              · rw [if_pos hps] at h
                cases h
                intro k' v' hho
                cases hho
                exact ArrayFree.vdict kvs hk
              · rw [if_neg hps] at h
                cases hp : _prepare_report f (.vdict kvs) fmt
                    (next_layer_omit_keys key oks) with
                | timeout => rw [hp] at h; exact (nomatch h)
                | error => rw [hp] at h; exact (nomatch h)
                | ok v2 =>
                    rw [hp] at h
                    cases h
                    intro k' v' hho
                    cases hho
                    exact ihP (.vdict kvs) fmt _ v2 (ArrayFree.vdict kvs hk) hp
      have hEnt : ∀ kvs fmt oks out, (∀ p ∈ kvs, ArrayFree p.2) →
          prepEntries (f + 1) kvs fmt oks = .ok out → ∀ p ∈ out, ArrayFree p.2 := by
        intro kvs fmt oks out hAF h
        cases kvs with
        | nil =>
            cases h
            exact fun p hp => absurd hp (by simp)
        | cons e rest =>
            obtain ⟨key, v⟩ := e
            rw [prepEntries_cons] at h
            obtain ⟨ho, hho, h2⟩ := PRes.bind_eq_ok h
            obtain ⟨tail, htail, h3⟩ := PRes.bind_eq_ok h2
            cases h3
            intro p hp
            rcases List.mem_append.mp hp with hm | hm
            · cases ho with
              | none => exact absurd hm (by simp [Option.toList])
              | some q =>
                  obtain ⟨k', v'⟩ := q
                  simp only [Option.toList, List.mem_singleton] at hm
                  subst hm
                  exact ihEn key v fmt oks _ (hAF (key, v) (List.mem_cons_self _ _))
                    hho k' v' rfl
            · exact ihE rest fmt oks tail
                (fun q hq => hAF q (List.mem_cons_of_mem _ hq)) htail p hm
      exact ⟨hP, hEnt, hEn, hRec⟩

theorem ser_ne_pretty : ¬ ((some "serializable" : Option String) = some "pretty") := by
  decide

theorem ser_ne_flat : ¬ (effFormat (some "serializable") = some "flat") := by decide

mutual
/-- The serializable-friendly fragment of reports: numpy arrays occur only
as direct entry values outside `profile_schema` and `data_stats` and carry a
clean array spine, sequence leaves and `profile_schema` values are
array-free, `data_stats` records are again in the fragment, and nested
dicts are again in the fragment. -/
inductive SerReport : Value → Prop where
  | mk : ∀ (kvs : List (String × Value)), (∀ p ∈ kvs, SerEntry p.1 p.2) →
      SerReport (.vdict kvs)

/-- One entry of the serializable-friendly fragment. -/
inductive SerEntry : String → Value → Prop where
  | vstr : ∀ key s, SerEntry key (.vstr s)
  | vint : ∀ key n, SerEntry key (.vint n)
  | vfloat : ∀ key q, SerEntry key (.vfloat q)
  | vbool : ∀ key b, SerEntry key (.vbool b)
  | vnone : ∀ key, SerEntry key .vnone
  | vndarray : ∀ key l, ¬ key = "data_stats" → ¬ key = "profile_schema" →
      (∀ w ∈ l, ArrOk w) → SerEntry key (.vndarray l)
  | vlist_ds : ∀ key l, key = "data_stats" → (∀ w ∈ l, SerReport w) →
      SerEntry key (.vlist l)
  | vlist_other : ∀ key l, ¬ key = "data_stats" → (∀ w ∈ l, ArrayFree w) →
      SerEntry key (.vlist l)
  | vset_ds : ∀ key l, key = "data_stats" → sortable l = true →
      (∀ w ∈ sortValues l, SerReport w) → SerEntry key (.vset l)
  | vset_other : ∀ key l, ¬ key = "data_stats" → sortable l = true →
      (∀ w ∈ sortValues l, ArrayFree w) → SerEntry key (.vset l)
  | vdict_ps : ∀ key kvs, key = "profile_schema" → ArrayFree (.vdict kvs) →
      SerEntry key (.vdict kvs)
  | vdict_rec : ∀ key kvs, ¬ key = "profile_schema" → SerReport (.vdict kvs) →
      SerEntry key (.vdict kvs)
end

/-- Shape of a successful `tolist` on an array. -/
theorem tolistF_ndarray_shape {f : Nat} {l : List Value} {v2 : Value}
    (h : tolistF f (.vndarray l) = some v2) : ∃ r, v2 = .vlist r := by
  cases f with
  | zero => exact (nomatch h)
  | succ f =>
      simp only [tolistF, Option.map_eq_some'] at h
      obtain ⟨r, -, rfl⟩ := h
      exact ⟨r, rfl⟩

/-- In serializable mode with no omission keys, the output of a transform of
the serializable-friendly fragment is a well-formed array-free report that
the transformer maps to itself (at every sufficiently large fuel). -/
theorem prep_ser_all (f : Nat) :
    (∀ r v, SerReport r →
        _prepare_report f r (some "serializable") [] = .ok v →
        WfReport v ∧ ArrayFree v ∧
          ∃ N, ∀ g, N ≤ g →
            _prepare_report g v (some "serializable") [] = .ok v) ∧
    (∀ kvs out, (∀ p ∈ kvs, SerEntry p.1 p.2) →
        prepEntries f kvs (some "serializable") [] = .ok out →
        (∀ p ∈ out, WfEntry p.1 p.2) ∧ (∀ p ∈ out, ArrayFree p.2) ∧
          ∃ N, ∀ g, N ≤ g →
            prepEntries g out (some "serializable") [] = .ok out) ∧
    (∀ key val ho, SerEntry key val →
        prepEntry f key val (some "serializable") [] = .ok ho →
        ∃ v', ho = some (key, v') ∧ WfEntry key v' ∧ ArrayFree v' ∧
          ∃ N, ∀ g, N ≤ g →
            prepEntry g key v' (some "serializable") [] =
              .ok (some (key, v'))) ∧
    (∀ l i outl, (∀ w ∈ l, SerReport w) →
        prepRecords f l i (some "serializable") [] = .ok outl →
        (∀ w ∈ outl, WfReport w) ∧ (∀ w ∈ outl, ArrayFree w) ∧
          ∃ N, ∀ g, N ≤ g →
            prepRecords g outl i (some "serializable") [] = .ok outl) := by
  induction f with
  | zero =>
      exact ⟨fun _ _ _ h => (nomatch h), fun _ _ _ h => (nomatch h),
        fun _ _ _ _ h => (nomatch h), fun _ _ _ _ h => (nomatch h)⟩
  | succ f ih =>
      obtain ⟨ihP, ihE, ihEn, ihR⟩ := ih
      have hcn : ∀ key : String, ¬ (([] : List String).contains key = true) := by
        simp
      have hP : ∀ r v, SerReport r →
          _prepare_report (f + 1) r (some "serializable") [] = .ok v →
          WfReport v ∧ ArrayFree v ∧
            ∃ N, ∀ g, N ≤ g →
              _prepare_report g v (some "serializable") [] = .ok v := by
        intro r v hser h
        cases hser with
        | mk kvs hkvs =>
        cases hE : prepEntries f kvs (effFormat (some "serializable")) [] with
        | timeout =>
            rw [_prepare_report_entries_timeout_eq f kvs (some "serializable")
              [] [] rfl hE] at h
            exact (nomatch h)
        | error =>
            rw [_prepare_report_entries_error_eq f kvs (some "serializable")
              [] [] rfl hE] at h
            exact (nomatch h)
        | ok out =>
            rw [_prepare_report_entries_ok_eq f kvs (some "serializable")
              [] [] out rfl hE, if_neg ser_ne_flat] at h
            cases h
            obtain ⟨hwfE, hafE, N, hid⟩ := ihE kvs out hkvs hE
            refine ⟨WfReport.mk out hwfE, ArrayFree.vdict out hafE, N + 1, ?_⟩
            intro g hg
            cases g with
            | zero => omega
            | succ g' =>
                have hg' : N ≤ g' := by omega
                rw [_prepare_report_entries_ok_eq g' out (some "serializable")
                  [] [] out rfl (hid g' hg'), if_neg ser_ne_flat]
      have hRec : ∀ l i outl, (∀ w ∈ l, SerReport w) →
          prepRecords (f + 1) l i (some "serializable") [] = .ok outl →
          (∀ w ∈ outl, WfReport w) ∧ (∀ w ∈ outl, ArrayFree w) ∧
            ∃ N, ∀ g, N ≤ g →
              prepRecords g outl i (some "serializable") [] = .ok outl := by
        intro l i outl hser h
        cases l with
        | nil =>
            have h2 : PRes.ok ([] : List Value) = .ok outl := h
            cases h2
            refine ⟨fun w hw => absurd hw (by simp),
              fun w hw => absurd hw (by simp), 1, ?_⟩
            intro g hg
            cases g with
            | zero => omega
            | succ g' => rfl
        | cons w rest =>
            rw [prepRecords_cons, i_index_nil] at h
            obtain ⟨w', hw', h2⟩ := PRes.bind_eq_ok h
            obtain ⟨tail, htail, h3⟩ := PRes.bind_eq_ok h2
            cases h3
            obtain ⟨hwf1, haf1, N1, hid1⟩ :=
              ihP w w' (hser w (List.mem_cons_self _ _)) hw'
            obtain ⟨hwfT, hafT, N2, hid2⟩ := ihR rest (i + 1) tail
              (fun u hu => hser u (List.mem_cons_of_mem _ hu)) htail
            refine ⟨?_, ?_, max N1 N2 + 1, ?_⟩
            · intro u hu
              rcases List.mem_cons.mp hu with rfl | hm
              · exact hwf1
              · exact hwfT u hm
            · intro u hu
              rcases List.mem_cons.mp hu with rfl | hm
              · exact haf1
              · exact hafT u hm
            · intro g hg
              cases g with
              | zero => omega
              | succ g' =>
                  have hm1 : N1 ≤ g' := le_trans (le_max_left N1 N2) (by omega)
                  have hm2 : N2 ≤ g' := le_trans (le_max_right N1 N2) (by omega)
                  rw [prepRecords_cons, i_index_nil, hid1 g' hm1, hid2 g' hm2]
                  rfl
      have hEn : ∀ key val ho, SerEntry key val →
          prepEntry (f + 1) key val (some "serializable") [] = .ok ho →
          ∃ v', ho = some (key, v') ∧ WfEntry key v' ∧ ArrayFree v' ∧
            ∃ N, ∀ g, N ≤ g →
              prepEntry g key v' (some "serializable") [] =
                .ok (some (key, v')) := by
        intro key val ho hser h
        cases hser with
        | vstr key s =>
            unfold prepEntry at h
            rw [if_neg (hcn key)] at h
            have h2 : PRes.ok (some (key, Value.vstr s)) = PRes.ok ho := h
            cases h2
            refine ⟨.vstr s, rfl, WfEntry.vstr key s, ArrayFree.vstr s, 1, ?_⟩
            intro g hg
            cases g with
            | zero => omega
            | succ g' =>
                unfold prepEntry
                rw [if_neg (hcn key)]
                rfl
        | vint key n =>
            unfold prepEntry at h
            rw [if_neg (hcn key)] at h
            have h2 : PRes.ok (some (key, Value.vint n)) = PRes.ok ho := h
            cases h2
            refine ⟨.vint n, rfl, WfEntry.vint key n, ArrayFree.vint n, 1, ?_⟩
            intro g hg
            cases g with
            | zero => omega
            | succ g' =>
                unfold prepEntry
                rw [if_neg (hcn key)]
                rfl
        | vbool key b =>
            unfold prepEntry at h
            rw [if_neg (hcn key)] at h
            have h2 : PRes.ok (some (key, Value.vbool b)) = PRes.ok ho := h
            cases h2
            refine ⟨.vbool b, rfl, WfEntry.vbool key b, ArrayFree.vbool b, 1, ?_⟩
            intro g hg
            cases g with
            | zero => omega
            | succ g' =>
                unfold prepEntry
                rw [if_neg (hcn key)]
                rfl
        | vnone key =>
            unfold prepEntry at h
            rw [if_neg (hcn key)] at h
            have h2 : PRes.ok (some (key, Value.vnone)) = PRes.ok ho := h
            cases h2
            refine ⟨.vnone, rfl, WfEntry.vnone key, ArrayFree.vnone, 1, ?_⟩
            intro g hg
            cases g with
            | zero => omega
            | succ g' =>
                unfold prepEntry
                rw [if_neg (hcn key)]
                rfl
        | vfloat key q =>
            rw [prepEntry_vfloat_eq f key q (some "serializable") [] rfl] at h
            split at h
            · rename_i hps
              cases h
              refine ⟨.vfloat q, rfl, WfEntry.vfloat key q, ArrayFree.vfloat q,
                1, ?_⟩
              intro g hg
              cases g with
              | zero => omega
              | succ g' =>
                  rw [prepEntry_vfloat_eq g' key q (some "serializable") [] rfl,
                    if_pos hps]
            · rename_i hps
              split at h
              · rename_i hpp
                exact absurd hpp ser_ne_pretty
              · cases h
                refine ⟨.vfloat q, rfl, WfEntry.vfloat key q,
                  ArrayFree.vfloat q, 1, ?_⟩
                intro g hg
                cases g with
                | zero => omega
                | succ g' =>
                    rw [prepEntry_vfloat_eq g' key q (some "serializable") []
                      rfl, if_neg hps, if_neg ser_ne_pretty]
        | vndarray key l hds hps harr =>
            rw [prepEntry_vndarray_eq f key l (some "serializable") [] rfl,
              if_neg hps] at h
            unfold seqLeaf at h
            rw [if_neg ser_ne_pretty, if_pos ⟨rfl, rfl⟩] at h
            cases ht : tolistF f (.vndarray l) with
            | none => rw [ht] at h; exact (nomatch h)
            | some v2 =>
                rw [ht] at h
                cases h
                obtain ⟨r, rfl⟩ := tolistF_ndarray_shape ht
                refine ⟨.vlist r, rfl, WfEntry.vlist_other key r hds,
                  (tolist_arrayfree f).1 (.vndarray l) (.vlist r)
                    (ArrOk.arr l harr) ht, 1, ?_⟩
                intro g hg
                cases g with
                | zero => omega
                | succ g' =>
                    rw [prepEntry_vlist_eq g' key r (some "serializable") [] rfl,
                      if_neg hds, if_neg hps]
                    unfold seqLeaf
                    rw [if_neg ser_ne_pretty, if_neg (by simp [isVndarray])]
        | vlist_ds key l hk hrec =>
            rw [prepEntry_vlist_eq f key l (some "serializable") [] rfl,
              if_pos hk, next_layer_nil] at h
            cases hR : prepRecords f l 0 (some "serializable") [] with
            | timeout => rw [hR] at h; exact (nomatch h)
            | error => rw [hR] at h; exact (nomatch h)
            | ok outl =>
                rw [hR] at h
                cases h
                obtain ⟨hwfR, hafR, N, hidR⟩ := ihR l 0 outl hrec hR
                refine ⟨.vlist outl, rfl, WfEntry.vlist_ds key outl hk hwfR,
                  ArrayFree.vlist outl hafR, N + 1, ?_⟩
                intro g hg
                cases g with
                | zero => omega
                | succ g' =>
                    have hg' : N ≤ g' := by omega
                    rw [prepEntry_vlist_eq g' key outl (some "serializable") []
                      rfl, if_pos hk, next_layer_nil, hidR g' hg']
        | vlist_other key l hk haf =>
            rw [prepEntry_vlist_eq f key l (some "serializable") [] rfl,
              if_neg hk] at h
            have hval : ho = some (key, Value.vlist l) := by
              by_cases hps : key = "profile_schema"
              · rw [if_pos hps] at h
                cases h
                rfl
              · rw [if_neg hps] at h
                unfold seqLeaf at h
                rw [if_neg ser_ne_pretty, if_neg (by simp [isVndarray])] at h
                cases h
                rfl
            subst hval
            refine ⟨.vlist l, rfl, WfEntry.vlist_other key l hk,
              ArrayFree.vlist l haf, 1, ?_⟩
            intro g hg
            cases g with
            | zero => omega
            | succ g' =>
                rw [prepEntry_vlist_eq g' key l (some "serializable") [] rfl,
                  if_neg hk]
                by_cases hps : key = "profile_schema"
                · rw [if_pos hps]
                · rw [if_neg hps]
                  unfold seqLeaf
                  rw [if_neg ser_ne_pretty, if_neg (by simp [isVndarray])]
        | vset_ds key l hk hsort hrec =>
            rw [prepEntry_vset_eq f key l (some "serializable") [],
              prepEntry_vlist_eq f key (sortValues l) (some "serializable") []
                rfl, if_pos hk, next_layer_nil] at h
            cases hR : prepRecords f (sortValues l) 0 (some "serializable") [] with
            | timeout => rw [hR] at h; exact (nomatch h)
            | error => rw [hR] at h; exact (nomatch h)
            | ok outl =>
                rw [hR] at h
                cases h
                obtain ⟨hwfR, hafR, N, hidR⟩ := ihR (sortValues l) 0 outl hrec hR
                refine ⟨.vlist outl, rfl, WfEntry.vlist_ds key outl hk hwfR,
                  ArrayFree.vlist outl hafR, N + 1, ?_⟩
                intro g hg
                cases g with
                | zero => omega
                | succ g' =>
                    have hg' : N ≤ g' := by omega
                    rw [prepEntry_vlist_eq g' key outl (some "serializable") []
                      rfl, if_pos hk, next_layer_nil, hidR g' hg']
        | vset_other key l hk hsort haf =>
            rw [prepEntry_vset_eq f key l (some "serializable") [],
              prepEntry_vlist_eq f key (sortValues l) (some "serializable") []
                rfl, if_neg hk] at h
            have hval : ho = some (key, Value.vlist (sortValues l)) := by
              by_cases hps : key = "profile_schema"
              · rw [if_pos hps] at h
                cases h
                rfl
              · rw [if_neg hps] at h
                unfold seqLeaf at h
                rw [if_neg ser_ne_pretty, if_neg (by simp [isVndarray])] at h
                cases h
                rfl
            subst hval
            refine ⟨.vlist (sortValues l), rfl,
              WfEntry.vlist_other key (sortValues l) hk,
              ArrayFree.vlist (sortValues l) haf, 1, ?_⟩
            intro g hg
            cases g with
            | zero => omega
            | succ g' =>
                rw [prepEntry_vlist_eq g' key (sortValues l)
                  (some "serializable") [] rfl, if_neg hk]
                by_cases hps : key = "profile_schema"
                · rw [if_pos hps]
                · rw [if_neg hps]
                  unfold seqLeaf
                  rw [if_neg ser_ne_pretty, if_neg (by simp [isVndarray])]
        | vdict_ps key kvs hk hafd =>
            rw [prepEntry_dict_eq f key kvs (some "serializable") [] rfl,
              if_pos hk] at h
            cases h
            refine ⟨.vdict kvs, rfl, WfEntry.vdict_ps key kvs hk, hafd, 1, ?_⟩
            intro g hg
            cases g with
            | zero => omega
            | succ g' =>
                rw [prepEntry_dict_eq g' key kvs (some "serializable") [] rfl,
                  if_pos hk]
        | vdict_rec key kvs hk hser2 =>
            rw [prepEntry_dict_eq f key kvs (some "serializable") [] rfl,
              if_neg hk, next_layer_nil] at h
            cases hp : _prepare_report f (.vdict kvs) (some "serializable") [] with
            | timeout => rw [hp] at h; exact (nomatch h)
            | error => rw [hp] at h; exact (nomatch h)
            | ok v2 =>
                rw [hp] at h
                cases h
                obtain ⟨hwf2, haf2, N, hid⟩ := ihP (.vdict kvs) v2 hser2 hp
                cases hwf2 with
                | mk kvs2 hkvs2 =>
                refine ⟨.vdict kvs2, rfl,
                  WfEntry.vdict_rec key kvs2 (WfReport.mk kvs2 hkvs2), haf2,
                  N + 1, ?_⟩
                intro g hg
                cases g with
                | zero => omega
                | succ g' =>
                    have hg' : N ≤ g' := by omega
                    rw [prepEntry_dict_eq g' key kvs2 (some "serializable") []
                      rfl, if_neg hk, next_layer_nil, hid g' hg']
      have hEnt : ∀ kvs out, (∀ p ∈ kvs, SerEntry p.1 p.2) →
          prepEntries (f + 1) kvs (some "serializable") [] = .ok out →
          (∀ p ∈ out, WfEntry p.1 p.2) ∧ (∀ p ∈ out, ArrayFree p.2) ∧
            ∃ N, ∀ g, N ≤ g →
              prepEntries g out (some "serializable") [] = .ok out := by
        intro kvs out hkv h
        cases kvs with
        | nil =>
            have h2 : PRes.ok ([] : List (String × Value)) = .ok out := h
            cases h2
            refine ⟨fun p hp => absurd hp (by simp),
              fun p hp => absurd hp (by simp), 1, ?_⟩
            intro g hg
            cases g with
            | zero => omega
            | succ g' => rfl
        | cons e rest =>
            obtain ⟨key, v⟩ := e
            rw [prepEntries_cons] at h
            obtain ⟨ho, hho, h2⟩ := PRes.bind_eq_ok h
            obtain ⟨tail, htail, h3⟩ := PRes.bind_eq_ok h2
            cases h3
            obtain ⟨v', rfl, hwf1, haf1, N1, hid1⟩ :=
              ihEn key v ho (hkv (key, v) (List.mem_cons_self _ _)) hho
            obtain ⟨hwfT, hafT, N2, hid2⟩ := ihE rest tail
              (fun q hq => hkv q (List.mem_cons_of_mem _ hq)) htail
            simp only [Option.toList, List.singleton_append]
            refine ⟨?_, ?_, max N1 N2 + 1, ?_⟩
            · intro p hp
              rcases List.mem_cons.mp hp with rfl | hm
              · exact hwf1
              · exact hwfT p hm
            · intro p hp
              rcases List.mem_cons.mp hp with rfl | hm
              · exact haf1
              · exact hafT p hm
            · intro g hg
              cases g with
              | zero => omega
              | succ g' =>
                  have hm1 : N1 ≤ g' := le_trans (le_max_left N1 N2) (by omega)
                  have hm2 : N2 ≤ g' := le_trans (le_max_right N1 N2) (by omega)
                  rw [prepEntries_cons, hid1 g' hm1, hid2 g' hm2]
                  rfl
      exact ⟨hP, hEnt, hEn, hRec⟩

/-- C9 counterexample: a numpy array stored under `profile_schema` is
returned untouched by the serializable mode (source line 123 precedes the
array conversion), so the output still contains a numeric-array leaf. -/
theorem c9_counterexample_profile_schema_array :
    _prepare_report 10 (.vdict [("profile_schema", .vndarray [.vint 1])])
      (some "serializable") [] =
      .ok (.vdict [("profile_schema", .vndarray [.vint 1])]) := rfl

/-- C9 (amended): on the serializable-friendly fragment — numpy arrays only
as direct entry values outside `profile_schema`/`data_stats` with clean
array spines, sequence leaves and `profile_schema` subtrees array-free,
and set values sortable (at most one element, or all-numeric, all-string
or all-boolean elements, since `sorted` raises `TypeError` otherwise) —
the serializable transform stabilizes to an array-free output, the
serializable transform maps that output to itself (round-trip identity),
and re-transforming the output in ANY mode yields an array-free result (no
mode ever reintroduces an array).  Outside the fragment the first conjunct
fails: an array under `profile_schema` or inside a plain list leaf survives
(see the counterexample). -/
theorem c9_amended_serializable_arrayfree_roundtrip (r : Value)
    (hwf : WfReport r) (hser : SerReport r) :
    ∃ N v,
      (∀ g, N ≤ g → _prepare_report g r (some "serializable") [] = .ok v) ∧
      ArrayFree v ∧
      (∀ g, N ≤ g → _prepare_report g v (some "serializable") [] = .ok v) ∧
      (∀ m : Option String, ∃ M w,
        (∀ g, M ≤ g → _prepare_report g v m [] = .ok w) ∧ ArrayFree w) := by
  obtain ⟨N0, res, h0, hnt⟩ :=
    (prep_suff_all (sizeOf r)).1 r (some "serializable") [] le_rfl
  cases res with
  | timeout => exact absurd rfl hnt
  | error =>
      exact absurd h0 ((noerr_all N0).1 r (some "serializable") [] hwf rfl)
  | ok v =>
      obtain ⟨hwfv, hafv, N1, hid⟩ := (prep_ser_all N0).1 r v hser h0
      refine ⟨max N0 N1, v, ?_, hafv, ?_, ?_⟩
      · intro g hg
        exact (prep_mono_all N0).1 r _ _ _ h0 nofun g
          (le_trans (le_max_left _ _) hg)
      · intro g hg
        exact hid g (le_trans (le_max_right _ _) hg)
      · intro m
        obtain ⟨M0, res2, h2, hnt2⟩ := (prep_suff_all (sizeOf v)).1 v m [] le_rfl
        cases res2 with
        | timeout => exact absurd rfl hnt2
        | error =>
            exact absurd h2 ((noerr_all M0).1 v m []
              hwfv (safeKeys_effOmit m [] rfl))
        | ok w =>
            refine ⟨M0, w, ?_, ?_⟩
            · intro g hg
              exact (prep_mono_all M0).1 v m [] _ h2 nofun g hg
            · exact (prep_arrayfree_all M0).1 v m [] w hafv h2

/-- Witness for the amended C9 on a report with one clean array entry. -/
theorem c9_witness :
    WfReport (.vdict [("x", .vndarray [.vint 1])]) ∧
    SerReport (.vdict [("x", .vndarray [.vint 1])]) ∧
    (∃ N v,
      (∀ g, N ≤ g → _prepare_report g (.vdict [("x", .vndarray [.vint 1])])
        (some "serializable") [] = .ok v) ∧
      ArrayFree v ∧
      (∀ g, N ≤ g → _prepare_report g v (some "serializable") [] = .ok v) ∧
      (∀ m : Option String, ∃ M w,
        (∀ g, M ≤ g → _prepare_report g v m [] = .ok w) ∧ ArrayFree w)) := by
  have hwf : WfReport (.vdict [("x", .vndarray [.vint 1])]) := by
    refine WfReport.mk _ ?_
    intro p hp
    rw [List.mem_singleton] at hp
    subst hp
    exact WfEntry.vndarray "x" [.vint 1]
  have hser : SerReport (.vdict [("x", .vndarray [.vint 1])]) := by
    refine SerReport.mk _ ?_
    intro p hp
    rw [List.mem_singleton] at hp
    subst hp
    refine SerEntry.vndarray "x" [.vint 1] (by decide) (by decide) ?_
    intro w hw
    rw [List.mem_singleton] at hw
    subst hw
    exact ArrOk.free _ (ArrayFree.vint 1)
  exact ⟨hwf, hser, c9_amended_serializable_arrayfree_roundtrip
    (.vdict [("x", .vndarray [.vint 1])]) hwf hser⟩
